import Mathlib

/-!
# Incoming-edge construction of the bidirectional CSR graph

A shallow embedding of `galois::graphs::B_LC_CSR_Graph`
(`libgalois/include/galois/graphs/B_LC_CSR_Graph.h`): the class extends a
compressed-sparse-row graph that stores out-edges only with the symmetric
in-edge arrays, built by `constructIncomingEdges`.

Conventions of the embedding.

* A `LargeArray<T>` is a `List T`; an access outside the allocated size is
  undefined behaviour in the source and is the `none` result here, so every
  function that touches an array returns an `Option`.
* Member functions pass the object explicitly: they take the graph (`this`)
  and return the updated graph.
* `uint64_t` arithmetic on the counter buffer wraps modulo `2 ^ 64`; a
  `uint32_t` lambda parameter truncates modulo `2 ^ 32`.
* `galois::do_all` over a range is executed in increasing order of the range
  (the schedule of a single worker); every concurrent update of the source
  goes through an atomic read-modify-write, which is one step here. The
  `Sched` variants of the construction take the order in which the counting
  pass visits the out-edges and the placement pass visits the source nodes as
  parameters; at the increasing order they are the construction itself.
* Code of the base class and of the runtime that the header only calls
  (`edgeDataCopy`, `acquireNode`, `shouldLock`) is either modelled from the
  specification, and marked so, or taken as a parameter.
-/

namespace galois
namespace graphs

/-- Number of values of a `uint64_t`. -/
def UINT64 : Nat := 2 ^ 64

/-- Number of values of a `uint32_t`. -/
def UINT32 : Nat := 2 ^ 32

/-- Content of `LargeArray::allocateInterleaved(n)`: `n` slots. The source leaves
them uninitialised; the embedding fills them with the default value. -/
def allocateInterleaved {α : Type} [Inhabited α] (n : Nat) : List α :=
  List.replicate n default

/-- Bounds-checked `a[i]` used as an rvalue. -/
def readAt {α : Type} (a : List α) (i : Nat) : Option α := a[i]?

/-- Bounds-checked `a[i] = x`. -/
def writeAt {α : Type} (a : List α) (i : Nat) (x : α) : Option (List α) :=
  if i < a.length then some (a.set i x) else none

/-- The range `galois::iterate(lo, hi)`, also the trip sequence of
`for (x = lo; x < hi; ++x)`. -/
def iterate (lo hi : Nat) : List Nat := List.range' lo (hi - lo)

/-- Sequential execution of `galois::do_all(items, body)` in the order of
`items`; the loop stops at the first failing iteration. -/
def do_all {ι σ : Type} : List ι → (ι → σ → Option σ) → σ → Option σ
  | [], _, s => some s
  | i :: rest, body, s => (body i s).bind (do_all rest body)

/-- The builtin `__sync_add_and_fetch(&buf[i], k)` on a `uint64_t` array: the
updated array and the new value. -/
def sync_add_and_fetch (buf : List Nat) (i k : Nat) : Option (List Nat × Nat) :=
  (readAt buf i).bind fun old =>
  (writeAt buf i ((old + k) % UINT64)).map fun buf' => (buf', (old + k) % UINT64)

/-- The builtin `__sync_fetch_and_add(&buf[i], k)` on a `uint64_t` array: the
updated array and the old value. -/
def sync_fetch_and_add (buf : List Nat) (i k : Nat) : Option (List Nat × Nat) :=
  (readAt buf i).bind fun old =>
  (writeAt buf i ((old + k) % UINT64)).map fun buf' => (buf', old)

/-- Modelled from the spec: the base directed graph `LC_CSR_Graph` (its header
is outside the available sources), reduced to the members the class reads:
the scalars `numNodes` and `numEdges`, the prefix-summed out-edge index array,
the out-edge destination array and the out-edge payload array.
`edgeTyIsVoid` is `std::is_void<EdgeTy>::value`. -/
structure LC_CSR_Graph (EdgeTy : Type) where
  edgeTyIsVoid : Bool
  numNodes : Nat
  numEdges : Nat
  edgeIndData : List Nat
  edgeDst : List Nat
  edgeData : List EdgeTy
deriving DecidableEq

/-- The class `B_LC_CSR_Graph`: the base graph extended with the in-edge index
array, the in-edge destination array and the in-edge data representation
(`EdgeDataRep` is `EdgeTy` under `EdgeDataByValue` and `uint64_t` otherwise). -/
structure B_LC_CSR_Graph (EdgeTy EdgeDataRep : Type) extends LC_CSR_Graph EdgeTy where
  inEdgeIndData : List Nat
  inEdgeDst : List Nat
  inEdgeData : List EdgeDataRep
deriving DecidableEq

/-- A default-constructed `B_LC_CSR_Graph` around a loaded base graph: the
in-edge arrays are not allocated yet. -/
def B_LC_CSR_Graph.ofBase {EdgeTy : Type} (EdgeDataRep : Type) (g : LC_CSR_Graph EdgeTy) :
    B_LC_CSR_Graph EdgeTy EdgeDataRep :=
  { g with inEdgeIndData := [], inEdgeDst := [], inEdgeData := [] }

section Construction

variable {EdgeTy EdgeDataRep : Type}

/-- Body of the counting loop of `determineInEdgeIndices`:
`dst = edgeDst[e]; __sync_add_and_fetch(&dataBuffer[dst], 1)`. -/
def countInEdge (this : B_LC_CSR_Graph EdgeTy EdgeDataRep) (e : Nat)
    (dataBuffer : List Nat) : Option (List Nat) :=
  (readAt this.edgeDst e).bind fun dst =>
  (sync_add_and_fetch dataBuffer dst 1).map Prod.fst

/-- Body of the prefix-sum loop: `dataBuffer[n] += dataBuffer[n - 1]`. -/
def prefixSumStep (n : Nat) (dataBuffer : List Nat) : Option (List Nat) :=
  (readAt dataBuffer n).bind fun x =>
  (readAt dataBuffer (n - 1)).bind fun y =>
  writeAt dataBuffer n ((x + y) % UINT64)

/-- Body of the copy loop: `inEdgeIndData[n] = dataBuffer[n]` with a
`uint32_t n`. -/
def copyInEdgeIndex (dataBuffer : List Nat) (n : Nat)
    (this : B_LC_CSR_Graph EdgeTy EdgeDataRep) : Option (B_LC_CSR_Graph EdgeTy EdgeDataRep) :=
  (readAt dataBuffer (n % UINT32)).bind fun x =>
  (writeAt this.inEdgeIndData (n % UINT32) x).map fun a => { this with inEdgeIndData := a }

/-- The member `determineInEdgeIndices(dataBuffer)`: count the in-edges of every
node, prefix-sum the counts, and store them as the in-edge index array. Returns
the updated graph and the updated buffer. -/
def determineInEdgeIndices (this : B_LC_CSR_Graph EdgeTy EdgeDataRep) (dataBuffer : List Nat) :
    Option (B_LC_CSR_Graph EdgeTy EdgeDataRep × List Nat) :=
  (do_all (iterate 0 this.numEdges) (countInEdge this) dataBuffer).bind fun counted =>
  (do_all (iterate 1 this.numNodes) prefixSumStep counted).bind fun summed =>
  (do_all (iterate 0 this.numNodes) (copyInEdgeIndex summed)
    { this with inEdgeIndData := allocateInterleaved this.numNodes }).map fun this' =>
  (this', summed)

/-- Body of the cursor loop of `determineInEdgeDestAndData`:
`dataBuffer[n] = inEdgeIndData[n - 1]` with a `uint32_t n`, so that `n - 1` is
computed modulo `2 ^ 32`. -/
def shiftInEdgeIndex (this : B_LC_CSR_Graph EdgeTy EdgeDataRep) (n : Nat)
    (dataBuffer : List Nat) : Option (List Nat) :=
  (readAt this.inEdgeIndData ((n % UINT32 + UINT32 - 1) % UINT32)).bind fun x =>
    writeAt dataBuffer (n % UINT32) x

/-- One trip of the while loop of `determineInEdgeDestAndData` for the out-edge
at position `e` of node `src`: claim the slot `e_new` of the destination by
fetch-and-increment, store `src` there and create the edge data. -/
def placeInEdge
    (createEdgeData : B_LC_CSR_Graph EdgeTy EdgeDataRep → Nat → Nat →
      Option (B_LC_CSR_Graph EdgeTy EdgeDataRep))
    (src e : Nat) (st : B_LC_CSR_Graph EdgeTy EdgeDataRep × List Nat) :
    Option (B_LC_CSR_Graph EdgeTy EdgeDataRep × List Nat) :=
  (readAt st.1.edgeDst e).bind fun dst =>
  (sync_fetch_and_add st.2 dst 1).bind fun r =>
  (writeAt st.1.inEdgeDst r.2 src).bind fun a =>
  (createEdgeData { st.1 with inEdgeDst := a } r.2 e).map fun this' => (this', r.1)

/-- Body of the placement loop for one source node (a `uint32_t src`):
`e` runs from `(src == 0) ? 0 : edgeIndData[src - 1]` while
`e < edgeIndData[src]`; the loop never writes `edgeIndData`, so its bound is
read once. -/
def placeInEdgesOf
    (createEdgeData : B_LC_CSR_Graph EdgeTy EdgeDataRep → Nat → Nat →
      Option (B_LC_CSR_Graph EdgeTy EdgeDataRep))
    (n : Nat) (st : B_LC_CSR_Graph EdgeTy EdgeDataRep × List Nat) :
    Option (B_LC_CSR_Graph EdgeTy EdgeDataRep × List Nat) :=
  (if n % UINT32 = 0 then some 0 else readAt st.1.edgeIndData (n % UINT32 - 1)).bind fun e =>
  (readAt st.1.edgeIndData (n % UINT32)).bind fun last =>
  do_all (iterate e last) (placeInEdge createEdgeData (n % UINT32)) st

/-- The member `determineInEdgeDestAndData(dataBuffer)`: turn the buffer into the
per-node write cursor, allocate the in-edge destination and data arrays, and
place every out-edge as an in-edge of its destination. Returns the updated
graph and the final cursor buffer. -/
def determineInEdgeDestAndData [Inhabited EdgeDataRep]
    (createEdgeData : B_LC_CSR_Graph EdgeTy EdgeDataRep → Nat → Nat →
      Option (B_LC_CSR_Graph EdgeTy EdgeDataRep))
    (this : B_LC_CSR_Graph EdgeTy EdgeDataRep) (dataBuffer : List Nat) :
    Option (B_LC_CSR_Graph EdgeTy EdgeDataRep × List Nat) :=
  (if 1 ≤ this.numNodes then
      (writeAt dataBuffer 0 0).bind (do_all (iterate 1 this.numNodes) (shiftInEdgeIndex this))
    else some dataBuffer).bind fun cursor =>
  do_all (iterate 0 this.numNodes) (placeInEdgesOf createEdgeData)
    ({ this with
        inEdgeDst := allocateInterleaved this.numEdges
        inEdgeData :=
          if !this.edgeTyIsVoid then allocateInterleaved this.numEdges else this.inEdgeData },
      cursor)

/-- The member `constructIncomingEdges()`, together with the final content of its
local `dataBuffer`. -/
def constructIncomingEdgesBuf [Inhabited EdgeDataRep]
    (createEdgeData : B_LC_CSR_Graph EdgeTy EdgeDataRep → Nat → Nat →
      Option (B_LC_CSR_Graph EdgeTy EdgeDataRep))
    (this : B_LC_CSR_Graph EdgeTy EdgeDataRep) :
    Option (B_LC_CSR_Graph EdgeTy EdgeDataRep × List Nat) :=
  (do_all (iterate 0 this.numNodes) (fun n buf => writeAt buf (n % UINT32) 0)
    (allocateInterleaved this.numNodes)).bind fun dataBuffer =>
  (determineInEdgeIndices this dataBuffer).bind fun r =>
  determineInEdgeDestAndData createEdgeData r.1 r.2

/-- The member `constructIncomingEdges()`; `createEdgeData` is the overload
selected by `EdgeDataByValue`. -/
def constructIncomingEdges [Inhabited EdgeDataRep]
    (createEdgeData : B_LC_CSR_Graph EdgeTy EdgeDataRep → Nat → Nat →
      Option (B_LC_CSR_Graph EdgeTy EdgeDataRep))
    (this : B_LC_CSR_Graph EdgeTy EdgeDataRep) : Option (B_LC_CSR_Graph EdgeTy EdgeDataRep) :=
  (constructIncomingEdgesBuf createEdgeData this).map Prod.fst

/-- The accessor `in_raw_begin(N)`: `(N == 0) ? 0 : inEdgeIndData[N - 1]`. -/
def in_raw_begin (this : B_LC_CSR_Graph EdgeTy EdgeDataRep) (N : Nat) : Option Nat :=
  if N = 0 then some 0 else readAt this.inEdgeIndData (N - 1)

/-- The accessor `in_raw_end(N)`: `inEdgeIndData[N]`. -/
def in_raw_end (this : B_LC_CSR_Graph EdgeTy EdgeDataRep) (N : Nat) : Option Nat :=
  readAt this.inEdgeIndData N

/-- The accessor `getInEdgeDst(ni)`: `inEdgeDst[*ni]`. -/
def getInEdgeDst (this : B_LC_CSR_Graph EdgeTy EdgeDataRep) (ni : Nat) : Option Nat :=
  readAt this.inEdgeDst ni

end Construction

/-- Modelled from the spec: `BaseGraph::edgeDataCopy(edgeData_new, edgeData, e_new, e)`
of the base class (outside the available sources) copies the out-edge payload,
`edgeData_new[e_new] = edgeData[e]`, and does nothing for a void edge type. -/
def edgeDataCopy {EdgeTy : Type} (isVoid : Bool) (edgeData_new edgeData : List EdgeTy)
    (e_new e : Nat) : Option (List EdgeTy) :=
  if isVoid then some edgeData_new
  else (readAt edgeData e).bind fun x => writeAt edgeData_new e_new x

/-- Modelled from the spec: a caller overwrites the payload of the out-edge at
position `e` through the mutable reference of the base graph,
`edgeData[e] = x`. -/
def setEdgeData {EdgeTy EdgeDataRep : Type} (this : B_LC_CSR_Graph EdgeTy EdgeDataRep)
    (e : Nat) (x : EdgeTy) : B_LC_CSR_Graph EdgeTy EdgeDataRep :=
  { this with edgeData := this.edgeData.set e x }

namespace ByValue

variable {EdgeTy : Type}

/-- The overload of `createEdgeData(e_new, e)` for `EdgeDataByValue = true`:
`BaseGraph::edgeDataCopy(inEdgeData, BaseGraph::edgeData, e_new, e)`. -/
def createEdgeData (this : B_LC_CSR_Graph EdgeTy EdgeTy) (e_new e : Nat) :
    Option (B_LC_CSR_Graph EdgeTy EdgeTy) :=
  (edgeDataCopy this.edgeTyIsVoid this.inEdgeData this.edgeData e_new e).map fun a =>
    { this with inEdgeData := a }

/-- The accessor `getInEdgeData(ni)` for `EdgeDataByValue = true`:
`inEdgeData[*ni]`. -/
def getInEdgeData (this : B_LC_CSR_Graph EdgeTy EdgeTy) (ni : Nat) : Option EdgeTy :=
  readAt this.inEdgeData ni

end ByValue

namespace Shared

variable {EdgeTy : Type}

/-- The overload of `createEdgeData(e_new, e)` for `EdgeDataByValue = false`:
`if (!std::is_void<EdgeTy>::value) inEdgeData[e_new] = e`. -/
def createEdgeData (this : B_LC_CSR_Graph EdgeTy Nat) (e_new e : Nat) :
    Option (B_LC_CSR_Graph EdgeTy Nat) :=
  if !this.edgeTyIsVoid then
    (writeAt this.inEdgeData e_new e).map fun a => { this with inEdgeData := a }
  else some this

/-- The accessor `getInEdgeData(ni)` for `EdgeDataByValue = false`:
`BaseGraph::edgeData[inEdgeData[*ni]]`. -/
def getInEdgeData (this : B_LC_CSR_Graph EdgeTy Nat) (ni : Nat) : Option EdgeTy :=
  (readAt this.inEdgeData ni).bind fun e => readAt this.edgeData e

end Shared

/-! ## Scenario graphs -/

/-- Scenario A: three nodes, out-edges `0→1`, `0→2`, `1→2`, payloads 10, 20, 30. -/
def scenarioA : LC_CSR_Graph Nat :=
  { edgeTyIsVoid := false, numNodes := 3, numEdges := 3,
    edgeIndData := [2, 3, 3], edgeDst := [1, 2, 2], edgeData := [10, 20, 30] }

/-- Two nodes and two parallel out-edges `0→1` with payloads 7 and 8. -/
def dupEdgeGraph : LC_CSR_Graph Nat :=
  { edgeTyIsVoid := false, numNodes := 2, numEdges := 2,
    edgeIndData := [2, 2], edgeDst := [1, 1], edgeData := [7, 8] }

/-- In-edge destinations stored in the slots of the in-edge range of node `N`. -/
def inEdgeSources {EdgeTy EdgeDataRep : Type} (this : B_LC_CSR_Graph EdgeTy EdgeDataRep)
    (N : Nat) : Option (List (Option Nat)) :=
  (in_raw_begin this N).bind fun lo =>
  (in_raw_end this N).map fun hi => (iterate lo hi).map (getInEdgeDst this)

/-- Scenario A after `constructIncomingEdges` under the shared strategy. -/
def scenarioAShared : B_LC_CSR_Graph Nat Nat :=
  { toLC_CSR_Graph := scenarioA, inEdgeIndData := [0, 1, 3], inEdgeDst := [0, 0, 1],
    inEdgeData := [0, 1, 2] }

/-- Scenario A after `constructIncomingEdges` under the value-copy strategy. -/
def scenarioAByValue : B_LC_CSR_Graph Nat Nat :=
  { toLC_CSR_Graph := scenarioA, inEdgeIndData := [0, 1, 3], inEdgeDst := [0, 0, 1],
    inEdgeData := [10, 20, 30] }

/-! ## Specification-level vocabulary -/

section Vocabulary

variable {EdgeTy : Type}

/-- Destination of the out-edge at position `e`. -/
def dstOf (g : LC_CSR_Graph EdgeTy) (e : Nat) : Nat := g.edgeDst.getD e 0

/-- Number of out-edge positions whose destination is `v`. -/
def inDegree (g : LC_CSR_Graph EdgeTy) (v : Nat) : Nat :=
  g.edgeDst.countP fun d => decide (d = v)

/-- Number of out-edge positions whose destination is smaller than `v`. -/
def inBelow (g : LC_CSR_Graph EdgeTy) (v : Nat) : Nat :=
  g.edgeDst.countP fun d => decide (d < v)

/-- Number of out-edge positions whose destination is at most `v`. -/
def inUpTo (g : LC_CSR_Graph EdgeTy) (v : Nat) : Nat :=
  g.edgeDst.countP fun d => decide (d ≤ v)

/-- First out-edge position of node `u`, as computed by the placement loop:
`(u == 0) ? 0 : edgeIndData[u - 1]`. -/
def outBegin (g : LC_CSR_Graph EdgeTy) (u : Nat) : Nat :=
  if u = 0 then 0 else g.edgeIndData.getD (u - 1) 0

/-- End of the out-edge positions of node `u`: `edgeIndData[u]`. -/
def outEnd (g : LC_CSR_Graph EdgeTy) (u : Nat) : Nat := g.edgeIndData.getD u 0

/-- Position `e` holds an out-edge of the node `u`. -/
def IsOutEdge (g : LC_CSR_Graph EdgeTy) (u e : Nat) : Prop :=
  u < g.numNodes ∧ outBegin g u ≤ e ∧ e < outEnd g u

instance (g : LC_CSR_Graph EdgeTy) (u e : Nat) : Decidable (IsOutEdge g u e) := by
  unfold IsOutEdge; infer_instance

/-- Well-formed base graph: the scalars fit their machine types (`uint32_t` node
identifiers, `uint64_t` edge positions), the out-edge index array has one entry
per node, is monotone non-decreasing and ends with `numEdges`, the destination
array has one entry per edge and every destination is a node, and the payload
array has one entry per edge unless the edge type is void. -/
def WellFormed (g : LC_CSR_Graph EdgeTy) : Prop :=
  g.numNodes < UINT32 ∧ g.numEdges < UINT64 ∧
  g.edgeIndData.length = g.numNodes ∧
  g.edgeIndData.Pairwise (fun a b => a ≤ b) ∧
  g.edgeIndData.getLastD 0 = g.numEdges ∧
  g.edgeDst.length = g.numEdges ∧
  (∀ d ∈ g.edgeDst, d < g.numNodes) ∧
  g.edgeData.length = (if g.edgeTyIsVoid then 0 else g.numEdges)

instance (g : LC_CSR_Graph EdgeTy) : Decidable (WellFormed g) := by
  unfold WellFormed; infer_instance

/-- The in-edge index array specified by the data model: entry `n` is the
number of out-edges with destination at most `n`. -/
def inIndexArray (g : LC_CSR_Graph EdgeTy) : List Nat :=
  (List.range g.numNodes).map (inUpTo g)

/-- The write cursor specified by the placement engine: entry `n` is the number of
out-edges with destination smaller than `n`. -/
def inCursorArray (g : LC_CSR_Graph EdgeTy) : List Nat :=
  (List.range g.numNodes).map (inBelow g)

/-- The in-edge slot of the out-edge at position `e` under in-order execution:
the first slot of its destination plus the number of earlier out-edge positions
with the same destination. -/
def slotOf (g : LC_CSR_Graph EdgeTy) (e : Nat) : Nat :=
  inBelow g (dstOf g e) + (List.range e).countP fun e' => decide (dstOf g e' = dstOf g e)

/-- Number of listed (source, position) pairs whose out-edge has destination `v`. -/
def countTo (g : LC_CSR_Graph EdgeTy) (P : List (Nat × Nat)) (v : Nat) : Nat :=
  P.countP fun p => decide (dstOf g p.2 = v)

/-- The (source, position) pairs visited by the placement loop for the first `k`
source nodes, in the order of the visit. -/
def placementOrder (g : LC_CSR_Graph EdgeTy) (k : Nat) : List (Nat × Nat) :=
  (List.range k).flatMap fun u => (iterate (outBegin g u) (outEnd g u)).map fun e => (u, e)

end Vocabulary

section Invariant

variable {EdgeTy EdgeDataRep : Type}

/-- The edge-data overload stores `val e` at the claimed slot for a non-void edge
type and leaves the graph alone for a void one. -/
def CreatesWith (g : LC_CSR_Graph EdgeTy)
    (createEdgeData : B_LC_CSR_Graph EdgeTy EdgeDataRep → Nat → Nat →
      Option (B_LC_CSR_Graph EdgeTy EdgeDataRep))
    (val : Nat → EdgeDataRep) : Prop :=
  ∀ (this : B_LC_CSR_Graph EdgeTy EdgeDataRep) (e_new e : Nat),
    this.toLC_CSR_Graph = g → e < g.numEdges →
    (g.edgeTyIsVoid = false → e_new < this.inEdgeData.length) →
    createEdgeData this e_new e =
      some (if g.edgeTyIsVoid then this
        else { this with inEdgeData := this.inEdgeData.set e_new (val e) })

/-- State of the placement loop after the (source, position) pairs `P`. -/
def PlaceInv (g : LC_CSR_Graph EdgeTy) (val : Nat → EdgeDataRep) (data₀ : List EdgeDataRep)
    (P : List (Nat × Nat)) (st : B_LC_CSR_Graph EdgeTy EdgeDataRep × List Nat) : Prop :=
  st.1.toLC_CSR_Graph = g ∧ st.1.inEdgeIndData = inIndexArray g ∧
  st.1.inEdgeDst.length = g.numEdges ∧
  (if g.edgeTyIsVoid then st.1.inEdgeData = data₀ else st.1.inEdgeData.length = g.numEdges) ∧
  st.2.length = g.numNodes ∧
  (∀ v, v < g.numNodes → st.2.getD v 0 = inBelow g v + countTo g P v) ∧
  (∀ P₁ u e P₂, P = P₁ ++ (u, e) :: P₂ →
    st.1.inEdgeDst[inBelow g (dstOf g e) + countTo g P₁ (dstOf g e)]? = some u ∧
    (g.edgeTyIsVoid = false →
      st.1.inEdgeData[inBelow g (dstOf g e) + countTo g P₁ (dstOf g e)]? = some (val e)))

end Invariant

/-! ## Postconditions of the construction -/

section PostDefs

variable {EdgeTy EdgeDataRep : Type}

/-- Facts established by `constructIncomingEdges` for a base graph `g` when the
edge-data overload stores `val e` for the out-edge at position `e`. -/
def Built (g : LC_CSR_Graph EdgeTy) (val : Nat → EdgeDataRep)
    (b : B_LC_CSR_Graph EdgeTy EdgeDataRep) : Prop :=
  b.toLC_CSR_Graph = g ∧ b.inEdgeIndData = inIndexArray g ∧
  b.inEdgeDst.length = g.numEdges ∧
  (if g.edgeTyIsVoid then b.inEdgeData = [] else b.inEdgeData.length = g.numEdges) ∧
  ∀ u e, IsOutEdge g u e →
    b.inEdgeDst[slotOf g e]? = some u ∧
    (g.edgeTyIsVoid = false → b.inEdgeData[slotOf g e]? = some (val e))

/-- Edge round trip: a bijection `σ` of the out-edge positions onto the in-edge
slots sends every out-edge `u → v` to a slot of the in-edge range of `v` whose
in-edge destination is `u`. -/
def EdgeRoundTrip (g : LC_CSR_Graph EdgeTy) (b : B_LC_CSR_Graph EdgeTy EdgeDataRep) : Prop :=
  ∃ σ : Nat → Nat, Set.BijOn σ (Set.Iio g.numEdges) (Set.Iio g.numEdges) ∧
    ∀ u e, IsOutEdge g u e →
      ∃ lo hi, in_raw_begin b (dstOf g e) = some lo ∧ in_raw_end b (dstOf g e) = some hi ∧
        lo ≤ σ e ∧ σ e < hi ∧ getInEdgeDst b (σ e) = some u

/-- Number of slots of the in-edge range of `v` whose in-edge destination is `u`. -/
def inSlotCount (b : B_LC_CSR_Graph EdgeTy EdgeDataRep) (v u : Nat) : Option Nat :=
  (in_raw_begin b v).bind fun lo =>
  (in_raw_end b v).map fun hi =>
    (iterate lo hi).countP fun s => decide (getInEdgeDst b s = some u)

/-- Number of out-edge positions of `u` whose destination is `v`. -/
def outEdgeCount (g : LC_CSR_Graph EdgeTy) (u v : Nat) : Nat :=
  (iterate (outBegin g u) (outEnd g u)).countP fun e => decide (dstOf g e = v)

/-- For every node `v` the in-edge destinations over the in-edge range of `v` and
the sources of the out-edges with destination `v` are the same multiset: every
node `u` occurs as often in the one as in the other. -/
def SourcesMatch (g : LC_CSR_Graph EdgeTy) (b : B_LC_CSR_Graph EdgeTy EdgeDataRep) : Prop :=
  ∀ v u, v < g.numNodes → inSlotCount b v u = some (outEdgeCount g u v)

/-- For every out-edge `u → v`, the in-edge range of `v` has as many slots with
destination `u` as `u` has out-edges to `v`, at least one. -/
def SlotCountsMatch (g : LC_CSR_Graph EdgeTy) (b : B_LC_CSR_Graph EdgeTy EdgeDataRep) : Prop :=
  ∀ u e, IsOutEdge g u e →
    inSlotCount b (dstOf g e) u = some (outEdgeCount g u (dstOf g e)) ∧
    1 ≤ outEdgeCount g u (dstOf g e)

/-- The in-edge index array has one entry per node, entry `n` being the number of
out-edge positions with destination at most `n`, and the in-edge range of `n` is
as long as the in-degree of `n`. -/
def IndexIsPrefixSum (g : LC_CSR_Graph EdgeTy) (b : B_LC_CSR_Graph EdgeTy EdgeDataRep) : Prop :=
  b.inEdgeIndData.length = g.numNodes ∧
  ∀ n, n < g.numNodes →
    readAt b.inEdgeIndData n = some (inUpTo g n) ∧
    ∃ lo hi, in_raw_begin b n = some lo ∧ in_raw_end b n = some hi ∧ lo ≤ hi ∧
      hi - lo = inDegree g n

/-- The in-edge index array is monotone non-decreasing and ends with `numEdges`. -/
def IndexMonotone (g : LC_CSR_Graph EdgeTy) (b : B_LC_CSR_Graph EdgeTy EdgeDataRep) : Prop :=
  (∀ n, 1 ≤ n → n < g.numNodes →
    ∃ x y, readAt b.inEdgeIndData (n - 1) = some x ∧ readAt b.inEdgeIndData n = some y ∧ x ≤ y) ∧
  (0 < g.numNodes → readAt b.inEdgeIndData (g.numNodes - 1) = some g.numEdges)

/-- Length of the in-edge range of node `N`: `in_raw_end(N) - in_raw_begin(N)`. -/
def inEdgeRangeLength (this : B_LC_CSR_Graph EdgeTy EdgeDataRep) (N : Nat) : Option Nat :=
  (in_raw_begin this N).bind fun lo => (in_raw_end this N).map fun hi => hi - lo

/-- Sum of the in-edge range lengths of the nodes `0, ..., k - 1`. -/
def sumInEdgeRangeLengths (this : B_LC_CSR_Graph EdgeTy EdgeDataRep) : Nat → Option Nat
  | 0 => some 0
  | k + 1 => (sumInEdgeRangeLengths this k).bind fun acc =>
      (inEdgeRangeLength this k).map fun len => acc + len

/-- The in-edge ranges are contiguous and tile the slots `0, ..., numEdges - 1`. -/
def RangesTile (g : LC_CSR_Graph EdgeTy) (b : B_LC_CSR_Graph EdgeTy EdgeDataRep) : Prop :=
  in_raw_begin b 0 = some 0 ∧
  (∀ n, n + 1 < g.numNodes → ∃ x, in_raw_end b n = some x ∧ in_raw_begin b (n + 1) = some x) ∧
  (∀ n, n < g.numNodes →
    ∃ lo hi, in_raw_begin b n = some lo ∧ in_raw_end b n = some hi ∧ lo ≤ hi) ∧
  (0 < g.numNodes → in_raw_end b (g.numNodes - 1) = some g.numEdges)

end PostDefs


/-! ## Further scenario graphs -/

/-- Scenario B: two nodes and the single out-edge `1→1`, payload 5. -/
def selfLoopGraph : LC_CSR_Graph Nat :=
  { edgeTyIsVoid := false, numNodes := 2, numEdges := 1,
    edgeIndData := [0, 1], edgeDst := [1], edgeData := [5] }

/-- Scenario C: the empty graph. -/
def emptyGraph : LC_CSR_Graph Nat :=
  { edgeTyIsVoid := false, numNodes := 0, numEdges := 0,
    edgeIndData := [], edgeDst := [], edgeData := [] }

/-- Three nodes on a directed cycle: out-edges `0→1`, `1→2`, `2→0`. -/
def cycleGraph : LC_CSR_Graph Nat :=
  { edgeTyIsVoid := false, numNodes := 3, numEdges := 3,
    edgeIndData := [1, 2, 3], edgeDst := [1, 2, 0], edgeData := [10, 20, 30] }

/-- The cycle graph in the middle of the placement pass: the in-edge arrays are
allocated, the out-edges at the positions 0 and 1 have their in-edge destination
stored, and `createEdgeData(2, 1)` is the next call. -/
def cycleMidPlacement : B_LC_CSR_Graph Nat Nat :=
  { toLC_CSR_Graph := cycleGraph, inEdgeIndData := [1, 2, 3], inEdgeDst := [0, 0, 1],
    inEdgeData := [0, 0, 0] }

/-! ## Locking accessors -/

section AccessDefs

variable {EdgeTy EdgeDataRep MethodFlag L : Type}

/-- The member `in_edge_begin(N, mflag)`. `acquireNode` (the lock acquisition of
the base graph, acting on its lock state `L`) and `shouldLock` (of the runtime)
are outside the available sources and are parameters. The call acquires `N`,
then, if `shouldLock(mflag)`, acquires `inEdgeDst[*ii]` for `ii` from
`in_raw_begin(N)` until it equals `in_raw_end(N)`, and returns `in_raw_begin(N)`.
A begin above the end would run the iterator past every array, which is the
failing result. -/
def in_edge_begin (acquireNode : Nat → MethodFlag → L → Option L)
    (shouldLock : MethodFlag → Bool) (this : B_LC_CSR_Graph EdgeTy EdgeDataRep)
    (N : Nat) (mflag : MethodFlag) (locks : L) :
    Option (B_LC_CSR_Graph EdgeTy EdgeDataRep × Nat × L) :=
  (acquireNode N mflag locks).bind fun l₁ =>
  (if shouldLock mflag then
      (in_raw_begin this N).bind fun ii =>
      (in_raw_end this N).bind fun ee =>
        if ii ≤ ee then
          do_all (iterate ii ee)
            (fun i l => (readAt this.inEdgeDst i).bind fun d => acquireNode d mflag l) l₁
        else none
    else some l₁).bind fun l₂ =>
  (in_raw_begin this N).map fun r => (this, r, l₂)

/-- The member `in_edge_end(N, mflag)`: acquire `N` and return `in_raw_end(N)`. -/
def in_edge_end (acquireNode : Nat → MethodFlag → L → Option L)
    (this : B_LC_CSR_Graph EdgeTy EdgeDataRep) (N : Nat) (mflag : MethodFlag) (locks : L) :
    Option (B_LC_CSR_Graph EdgeTy EdgeDataRep × Nat × L) :=
  (acquireNode N mflag locks).bind fun l₁ =>
  (in_raw_end this N).map fun r => (this, r, l₁)

/-- Lock state that only records the acquisition requests, in order. -/
def recordAcquire (N : Nat) (mflag : MethodFlag) (log : List (Nat × MethodFlag)) :
    Option (List (Nat × MethodFlag)) :=
  some (log ++ [(N, mflag)])

/-- Locking accessors on a constructed graph: both return the raw boundary and
the graph itself; `in_edge_begin` acquires `N` and then, exactly when
`shouldLock mflag`, the in-edge destination of every slot of the in-edge range
of `N` in slot order, each node `u` as often as it has out-edges to `N`;
`in_edge_end` acquires `N` only. -/
def LockingAccess (g : LC_CSR_Graph EdgeTy) (b : B_LC_CSR_Graph EdgeTy EdgeDataRep) : Prop :=
  ∀ (MethodFlag L : Type) (acquireNode : Nat → MethodFlag → L → Option L)
    (shouldLock : MethodFlag → Bool) (N : Nat) (mflag : MethodFlag) (locks : L),
    N < g.numNodes →
    ∃ lo hi srcs, in_raw_begin b N = some lo ∧ in_raw_end b N = some hi ∧
      (iterate lo hi).map (getInEdgeDst b) = srcs.map some ∧
      (∀ u, srcs.count u = outEdgeCount g u N) ∧
      in_edge_begin acquireNode shouldLock b N mflag locks =
        (acquireNode N mflag locks).bind (fun l₁ =>
          (if shouldLock mflag then do_all srcs (fun d l => acquireNode d mflag l) l₁
            else some l₁).map fun l₂ => (b, lo, l₂)) ∧
      in_edge_end acquireNode b N mflag locks =
        (acquireNode N mflag locks).map (fun l₁ => (b, hi, l₁))

end AccessDefs

/-! ## Further postconditions -/

section MoreDefs

variable {EdgeTy EdgeDataRep : Type}

/-- Number of out-edge positions other than `e` whose destination is `v`. -/
def inDegreeWithout (g : LC_CSR_Graph EdgeTy) (e v : Nat) : Nat :=
  (List.range g.numEdges).countP fun e' => decide (dstOf g e' = v) && decide (e' ≠ e)

/-- Self-loops are placed like every other out-edge: a bijection `σ` of the
out-edge positions onto the in-edge slots sends every self-loop `v → v` to a slot
of the in-edge range of `v` with in-edge destination `v`, and the self-loop
counts once in the length of that range. -/
def SelfLoopsPlaced (g : LC_CSR_Graph EdgeTy) (b : B_LC_CSR_Graph EdgeTy EdgeDataRep) : Prop :=
  ∃ σ : Nat → Nat, Set.BijOn σ (Set.Iio g.numEdges) (Set.Iio g.numEdges) ∧
    ∀ v e, IsOutEdge g v e → dstOf g e = v →
      ∃ lo hi, in_raw_begin b v = some lo ∧ in_raw_end b v = some hi ∧
        lo ≤ σ e ∧ σ e < hi ∧ getInEdgeDst b (σ e) = some v ∧
        hi - lo = 1 + inDegreeWithout g e v

/-- Every node `v` has an in-edge range, as long as the in-degree of `v`; every
slot of the range holds the source of an out-edge with destination `v`, namely
of the out-edge whose stable-sort position `slotOf` is that slot; and for slots
`s < t` of the range these out-edges are at positions `e < f`, so that the in-edge
destinations are non-decreasing in the slot. -/
def SourcesSorted (g : LC_CSR_Graph EdgeTy) (b : B_LC_CSR_Graph EdgeTy EdgeDataRep) : Prop :=
  ∀ v, v < g.numNodes →
    ∃ lo hi, in_raw_begin b v = some lo ∧ in_raw_end b v = some hi ∧ lo ≤ hi ∧
      hi - lo = inDegree g v ∧
      (∀ s, lo ≤ s → s < hi →
        ∃ u e, IsOutEdge g u e ∧ dstOf g e = v ∧ slotOf g e = s ∧
          getInEdgeDst b s = some u) ∧
      ∀ s t, lo ≤ s → s < t → t < hi →
        ∃ u e w f, IsOutEdge g u e ∧ IsOutEdge g w f ∧ dstOf g e = v ∧ dstOf g f = v ∧
          slotOf g e = s ∧ slotOf g f = t ∧ e < f ∧
          getInEdgeDst b s = some u ∧ getInEdgeDst b t = some w ∧ u ≤ w

/-- Every node `v` has an in-edge range, as long as the in-degree of `v`; every
slot of the range stores as back-reference the position of an out-edge with
destination `v`, namely of the out-edge whose stable-sort position `slotOf` is
that slot; and the back-references are strictly increasing in the slot. -/
def BackRefsIncreasing (g : LC_CSR_Graph EdgeTy) (b : B_LC_CSR_Graph EdgeTy Nat) : Prop :=
  ∀ v, v < g.numNodes →
    ∃ lo hi, in_raw_begin b v = some lo ∧ in_raw_end b v = some hi ∧ lo ≤ hi ∧
      hi - lo = inDegree g v ∧
      (∀ s, lo ≤ s → s < hi →
        ∃ e, e < g.numEdges ∧ dstOf g e = v ∧ slotOf g e = s ∧
          readAt b.inEdgeData s = some e) ∧
      ∀ s t, lo ≤ s → s < t → t < hi →
        ∃ e f, dstOf g e = v ∧ dstOf g f = v ∧ slotOf g e = s ∧ slotOf g f = t ∧
          readAt b.inEdgeData s = some e ∧ readAt b.inEdgeData t = some f ∧ e < f

end MoreDefs

/-! ## Schedules of the parallel passes and the recording overload -/

section SchedDefs

variable {EdgeTy EdgeDataRep : Type}

/-- The member `determineInEdgeIndices` with the counting `do_all` visiting the
out-edge positions in the order `edgeOrder numEdges` (a schedule maps the size of
the iterated range to the order of the visit). -/
def determineInEdgeIndicesSched (edgeOrder : Nat → List Nat)
    (this : B_LC_CSR_Graph EdgeTy EdgeDataRep) (dataBuffer : List Nat) :
    Option (B_LC_CSR_Graph EdgeTy EdgeDataRep × List Nat) :=
  (do_all (edgeOrder this.numEdges) (countInEdge this) dataBuffer).bind fun counted =>
  (do_all (iterate 1 this.numNodes) prefixSumStep counted).bind fun summed =>
  (do_all (iterate 0 this.numNodes) (copyInEdgeIndex summed)
    { this with inEdgeIndData := allocateInterleaved this.numNodes }).map fun this' =>
  (this', summed)

/-- The member `determineInEdgeDestAndData` with the placement `do_all` visiting
the source nodes in the order `nodeOrder numNodes`. -/
def determineInEdgeDestAndDataSched [Inhabited EdgeDataRep] (nodeOrder : Nat → List Nat)
    (createEdgeData : B_LC_CSR_Graph EdgeTy EdgeDataRep → Nat → Nat →
      Option (B_LC_CSR_Graph EdgeTy EdgeDataRep))
    (this : B_LC_CSR_Graph EdgeTy EdgeDataRep) (dataBuffer : List Nat) :
    Option (B_LC_CSR_Graph EdgeTy EdgeDataRep × List Nat) :=
  (if 1 ≤ this.numNodes then
      (writeAt dataBuffer 0 0).bind (do_all (iterate 1 this.numNodes) (shiftInEdgeIndex this))
    else some dataBuffer).bind fun cursor =>
  do_all (nodeOrder this.numNodes) (placeInEdgesOf createEdgeData)
    ({ this with
        inEdgeDst := allocateInterleaved this.numEdges
        inEdgeData :=
          if !this.edgeTyIsVoid then allocateInterleaved this.numEdges else this.inEdgeData },
      cursor)

/-- The member `constructIncomingEdges()` under the schedules `edgeOrder` of the
counting pass and `nodeOrder` of the placement pass, with the final buffer. -/
def constructIncomingEdgesBufSched [Inhabited EdgeDataRep] (edgeOrder nodeOrder : Nat → List Nat)
    (createEdgeData : B_LC_CSR_Graph EdgeTy EdgeDataRep → Nat → Nat →
      Option (B_LC_CSR_Graph EdgeTy EdgeDataRep))
    (this : B_LC_CSR_Graph EdgeTy EdgeDataRep) :
    Option (B_LC_CSR_Graph EdgeTy EdgeDataRep × List Nat) :=
  (do_all (iterate 0 this.numNodes) (fun n buf => writeAt buf (n % UINT32) 0)
    (allocateInterleaved this.numNodes)).bind fun dataBuffer =>
  (determineInEdgeIndicesSched edgeOrder this dataBuffer).bind fun r =>
  determineInEdgeDestAndDataSched nodeOrder createEdgeData r.1 r.2

/-- The member `constructIncomingEdges()` under the schedules `edgeOrder` and
`nodeOrder`. -/
def constructIncomingEdgesSched [Inhabited EdgeDataRep] (edgeOrder nodeOrder : Nat → List Nat)
    (createEdgeData : B_LC_CSR_Graph EdgeTy EdgeDataRep → Nat → Nat →
      Option (B_LC_CSR_Graph EdgeTy EdgeDataRep))
    (this : B_LC_CSR_Graph EdgeTy EdgeDataRep) : Option (B_LC_CSR_Graph EdgeTy EdgeDataRep) :=
  (constructIncomingEdgesBufSched edgeOrder nodeOrder createEdgeData this).map Prod.fst

/-- A schedule visits every element of the iterated range exactly once. -/
def IsSchedule (order : Nat → List Nat) : Prop :=
  ∀ n, (order n).Perm (iterate 0 n)

/-- Recording stand-in for the edge-data overload: it appends the arguments
`(e_new, e)` of every call, so that the in-edge data array ends with the
sequence of slots the placement loop obtained by fetch-and-increment, each with
the out-edge position it was obtained for. -/
def recordEdgeData (this : B_LC_CSR_Graph EdgeTy (Nat × Nat)) (e_new e : Nat) :
    Option (B_LC_CSR_Graph EdgeTy (Nat × Nat)) :=
  some { this with inEdgeData := this.inEdgeData ++ [(e_new, e)] }

/-- The (source, position) pairs visited by the placement loop when it visits the
source nodes in the order `ns`. -/
def visitOrder (g : LC_CSR_Graph EdgeTy) (ns : List Nat) : List (Nat × Nat) :=
  ns.flatMap fun u => (iterate (outBegin g u) (outEnd g u)).map fun e => (u, e)

/-- In-edge destinations of the node `v` in the order in which the visit `W` meets
the out-edges with destination `v`. -/
def sourcesIn (g : LC_CSR_Graph EdgeTy) (W : List (Nat × Nat)) (v : Nat) : List (Option Nat) :=
  (W.filter fun p => decide (dstOf g p.2 = v)).map fun p => some p.1

/-- The calls `(e_new, e)` of the edge-data overload during the visit `R` that
follows the visit `Q`. -/
def callsFrom (g : LC_CSR_Graph EdgeTy) : List (Nat × Nat) → List (Nat × Nat) → List (Nat × Nat)
  | _, [] => []
  | Q, p :: R =>
    (inBelow g (dstOf g p.2) + countTo g Q (dstOf g p.2), p.2) :: callsFrom g (Q ++ [p]) R

/-- The edge-data overload keeps the invariant `J` of the in-edge data array along
the visit and touches nothing else, when it is called for an out-edge position
with a slot of the in-edge range of the destination that no earlier call had. -/
def Tracks (g : LC_CSR_Graph EdgeTy)
    (createEdgeData : B_LC_CSR_Graph EdgeTy EdgeDataRep → Nat → Nat →
      Option (B_LC_CSR_Graph EdgeTy EdgeDataRep))
    (J : List (Nat × Nat) → List EdgeDataRep → Prop) : Prop :=
  ∀ (P : List (Nat × Nat)) (u e : Nat) (t : B_LC_CSR_Graph EdgeTy EdgeDataRep),
    t.toLC_CSR_Graph = g → J P t.inEdgeData → e < g.numEdges →
    inBelow g (dstOf g e) + countTo g P (dstOf g e) < inUpTo g (dstOf g e) →
    (∀ P₁ u₁ e₁ P₂, P = P₁ ++ (u₁, e₁) :: P₂ →
      inBelow g (dstOf g e₁) + countTo g P₁ (dstOf g e₁) ≠
        inBelow g (dstOf g e) + countTo g P (dstOf g e)) →
    ∃ d, createEdgeData t (inBelow g (dstOf g e) + countTo g P (dstOf g e)) e =
        some { t with inEdgeData := d } ∧ J (P ++ [(u, e)]) d

/-- State of the placement loop after the visit `P`, for an edge-data overload
with the data invariant `J`. -/
def PlaceInvG (g : LC_CSR_Graph EdgeTy) (J : List (Nat × Nat) → List EdgeDataRep → Prop)
    (P : List (Nat × Nat)) (st : B_LC_CSR_Graph EdgeTy EdgeDataRep × List Nat) : Prop :=
  st.1.toLC_CSR_Graph = g ∧ st.1.inEdgeIndData = inIndexArray g ∧
  st.1.inEdgeDst.length = g.numEdges ∧ st.2.length = g.numNodes ∧
  (∀ v, v < g.numNodes → st.2.getD v 0 = inBelow g v + countTo g P v) ∧
  (∀ P₁ u e P₂, P = P₁ ++ (u, e) :: P₂ →
    st.1.inEdgeDst[inBelow g (dstOf g e) + countTo g P₁ (dstOf g e)]? = some u) ∧
  J P st.1.inEdgeData

/-- No destination has more visited out-edges than its in-degree. -/
def Roomy (g : LC_CSR_Graph EdgeTy) (P : List (Nat × Nat)) : Prop :=
  ∀ v, countTo g P v ≤ inDegree g v

/-- Data invariant of the recording overload: the in-edge data array is the
allocated part followed by the calls so far; the slots of the calls are pairwise
distinct, and every call has an out-edge position and a slot below the end of the
in-edge range of the destination of that out-edge. -/
def RecordInv (g : LC_CSR_Graph EdgeTy) (d₀ : List (Nat × Nat)) (P : List (Nat × Nat))
    (d : List (Nat × Nat)) : Prop :=
  d = d₀ ++ callsFrom g [] P ∧ ((callsFrom g [] P).map Prod.fst).Nodup ∧
  ∀ c ∈ callsFrom g [] P, c.2 < g.numEdges ∧ c.1 < inUpTo g (dstOf g c.2)

end SchedDefs

section SchedPost

variable {EdgeTy : Type}

/-- Two constructed graphs have the same in-edge index array and, for every node
`v`, the same multiset of (`v`, source) pairs over the in-edge range of `v`. -/
def SameInEdges {R₁ R₂ : Type} (g : LC_CSR_Graph EdgeTy) (b₁ : B_LC_CSR_Graph EdgeTy R₁)
    (b₂ : B_LC_CSR_Graph EdgeTy R₂) : Prop :=
  b₁.inEdgeIndData = b₂.inEdgeIndData ∧
  ∀ v, v < g.numNodes →
    ∃ l₁ l₂, inEdgeSources b₁ v = some l₁ ∧ inEdgeSources b₂ v = some l₂ ∧
      (l₁.map fun u => (v, u)).Perm (l₂.map fun u => (v, u))

/-- The schedule that visits the iterated range backwards. -/
def reverseOrder (n : Nat) : List Nat := (iterate 0 n).reverse

end SchedPost

/-! ## Arrays and loops -/

section Basics

variable {α : Type}

theorem readAt_of_lt {a : List α} {i : Nat} (d : α) (h : i < a.length) :
    readAt a i = some (a.getD i d) := by
  simp [readAt, List.getD_eq_getElem?_getD, List.getElem?_eq_getElem h]

theorem writeAt_of_lt {a : List α} {i : Nat} (x : α) (h : i < a.length) :
    writeAt a i x = some (a.set i x) := by
  simp [writeAt, h]

theorem getD_set_of_lt (a : List α) (i j : Nat) (x d : α) (h : i < a.length) :
    (a.set i x).getD j d = if j = i then x else a.getD j d := by
  simp only [List.getD_eq_getElem?_getD, List.getElem?_set, h, if_true]
  by_cases hij : i = j
  · simp [hij]
  · have hji : ¬ j = i := fun hh => hij hh.symm
    simp [hij, hji]

theorem getD_replicate_of_lt (n i : Nat) (x d : α) (h : i < n) :
    (List.replicate n x).getD i d = x := by
  simp [List.getD_eq_getElem?_getD, List.getElem?_replicate, h]

theorem getElem?_of_getD {a : List α} {i : Nat} (d : α) (h : i < a.length) :
    a[i]? = some (a.getD i d) := by
  simp [List.getD_eq_getElem?_getD, List.getElem?_eq_getElem h]

theorem list_ext_getD {a b : List α} (d : α) (hl : a.length = b.length)
    (h : ∀ i, i < a.length → a.getD i d = b.getD i d) : a = b := by
  apply List.ext_getElem? 
  intro i
  by_cases hi : i < a.length
  · have hb : i < b.length := hl ▸ hi
    rw [getElem?_of_getD d hi, getElem?_of_getD d hb, h i hi]
  · have hb : ¬ i < b.length := hl ▸ hi
    rw [List.getElem?_eq_none (Nat.le_of_not_lt hi), List.getElem?_eq_none (Nat.le_of_not_lt hb)]

variable {ι σ : Type}

theorem do_all_append (l₁ l₂ : List ι) (body : ι → σ → Option σ) (s : σ) :
    do_all (l₁ ++ l₂) body s = (do_all l₁ body s).bind (do_all l₂ body) := by
  induction l₁ generalizing s with
  | nil => simp [do_all]
  | cons i rest ih =>
    simp only [List.cons_append, do_all]
    cases body i s with
    | none => simp
    | some s' => simpa using ih s'

/-- Loop rule for `do_all` over a list: an invariant of the processed prefix that
every iteration re-establishes holds for the whole list, and the loop returns. -/
theorem do_all_inv (body : ι → σ → Option σ) (Inv : List ι → σ → Prop) :
    ∀ (R P : List ι) (s : σ), Inv P s →
      (∀ P' i R' s', P ++ R = P' ++ i :: R' → Inv P' s' →
        ∃ s₂, body i s' = some s₂ ∧ Inv (P' ++ [i]) s₂) →
      ∃ s', do_all R body s = some s' ∧ Inv (P ++ R) s' := by
  intro R
  induction R with
  | nil => intro P s h _; exact ⟨s, rfl, by simpa using h⟩
  | cons i R ih =>
    intro P s h hstep
    obtain ⟨s₁, hb, h₁⟩ := hstep P i R s rfl h
    obtain ⟨s₂, hd, h₂⟩ := ih (P ++ [i]) s₁ h₁ (by
      intro P' j R' s' hsplit hinv
      exact hstep P' j R' s' (by simpa using hsplit) hinv)
    exact ⟨s₂, by simp [do_all, hb, hd], by simpa using h₂⟩

/-- Loop rule for `do_all` over the range `lo, lo + 1, ..., lo + n - 1`. -/
theorem do_all_range'_inv (body : Nat → σ → Option σ) (Inv : Nat → σ → Prop) :
    ∀ (n lo : Nat) (s : σ), Inv lo s →
      (∀ i s', lo ≤ i → i < lo + n → Inv i s' → ∃ s₂, body i s' = some s₂ ∧ Inv (i + 1) s₂) →
      ∃ s', do_all (List.range' lo n) body s = some s' ∧ Inv (lo + n) s' := by
  intro n
  induction n with
  | zero => intro lo s h _; exact ⟨s, rfl, by simpa using h⟩
  | succ n ih =>
    intro lo s h hstep
    obtain ⟨s₁, hb, h₁⟩ := hstep lo s (Nat.le_refl _) (by omega) h
    obtain ⟨s₂, hd, h₂⟩ := ih (lo + 1) s₁ h₁ (by
      intro i s' hlo hhi hinv
      exact hstep i s' (by omega) (by omega) hinv)
    refine ⟨s₂, ?_, ?_⟩
    · simp [List.range'_succ, do_all, hb, hd]
    · have : lo + 1 + n = lo + (n + 1) := by omega
      rw [← this]; exact h₂

end Basics

/-! ## The in-edge index builder -/

section Counting

theorem map_getD_range (D : List Nat) :
    (List.range D.length).map (fun e => D.getD e 0) = D := by
  apply list_ext_getD 0 (by simp)
  intro i hi
  have hi' : i < D.length := by simpa using hi
  simp [List.getD_eq_getElem?_getD, List.getElem?_map, List.getElem?_range hi']
  
theorem countP_range_getD (D : List Nat) (p : Nat → Bool) :
    (List.range D.length).countP (fun e => p (D.getD e 0)) = D.countP p := by
  conv_rhs => rw [← map_getD_range D]
  rw [List.countP_map]
  rfl

theorem getD_mem_of_lt {α : Type} {a : List α} {i : Nat} (d : α) (h : i < a.length) :
    a.getD i d ∈ a := by
  rw [List.getD_eq_getElem?_getD, List.getElem?_eq_getElem h]
  exact List.getElem_mem h

theorem iterate_zero (n : Nat) : iterate 0 n = List.range n := by
  simp [iterate, List.range_eq_range']

variable {EdgeTy EdgeDataRep : Type}

theorem inUpTo_eq (g : LC_CSR_Graph EdgeTy) (v : Nat) :
    inUpTo g v = inBelow g v + inDegree g v := by
  unfold inUpTo inBelow inDegree
  induction g.edgeDst with
  | nil => simp
  | cons d D ih =>
    simp only [List.countP_cons, ih, decide_eq_true_eq]
    by_cases h1 : d < v
    · have h2 : d ≤ v := by omega
      have h3 : ¬ d = v := by omega
      simp [h1, h2, h3]; omega
    · by_cases h3 : d = v
      · have h2 : d ≤ v := by omega
        simp [h1, h2, h3]; omega
      · have h2 : ¬ d ≤ v := by omega
        simp [h1, h2, h3]

theorem inBelow_succ (g : LC_CSR_Graph EdgeTy) (v : Nat) :
    inBelow g (v + 1) = inUpTo g v := by
  unfold inUpTo inBelow
  congr 1
  funext d
  simp [Nat.lt_succ_iff]

theorem inBelow_zero (g : LC_CSR_Graph EdgeTy) : inBelow g 0 = 0 := by
  simp [inBelow]

theorem inUpTo_le_length (g : LC_CSR_Graph EdgeTy) (v : Nat) : inUpTo g v ≤ g.edgeDst.length :=
  List.countP_le_length _

theorem inUpTo_mono (g : LC_CSR_Graph EdgeTy) {v w : Nat} (h : v ≤ w) : inUpTo g v ≤ inUpTo g w := by
  unfold inUpTo
  apply List.countP_mono_left
  intro d _ hd
  simp only [decide_eq_true_eq] at hd ⊢
  omega

theorem inUpTo_of_all_lt (g : LC_CSR_Graph EdgeTy) (n : Nat) (h : ∀ d ∈ g.edgeDst, d < n + 1) :
    inUpTo g n = g.edgeDst.length := by
  unfold inUpTo
  rw [List.countP_eq_length]
  intro d hd
  have := h d hd
  simp only [decide_eq_true_eq]; omega

theorem sync_add_and_fetch_of_lt {buf : List Nat} {i : Nat} (h : i < buf.length)
    (hb : buf.getD i 0 + 1 < UINT64) :
    sync_add_and_fetch buf i 1 = some (buf.set i (buf.getD i 0 + 1), buf.getD i 0 + 1) := by
  unfold sync_add_and_fetch
  rw [readAt_of_lt 0 h]
  simp only [Option.some_bind, Nat.mod_eq_of_lt hb, writeAt_of_lt _ h, Option.map_some']

theorem sync_fetch_and_add_of_lt {buf : List Nat} {i : Nat} (h : i < buf.length)
    (hb : buf.getD i 0 + 1 < UINT64) :
    sync_fetch_and_add buf i 1 = some (buf.set i (buf.getD i 0 + 1), buf.getD i 0) := by
  unfold sync_fetch_and_add
  rw [readAt_of_lt 0 h]
  simp only [Option.some_bind, Nat.mod_eq_of_lt hb, writeAt_of_lt _ h, Option.map_some']

/-- The counting loop over any sequence of in-range edge positions adds to every
counter the number of listed positions with that destination. -/
theorem counting_spec (this : B_LC_CSR_Graph EdgeTy EdgeDataRep) (es : List Nat) (buf : List Nat)
    (hes : ∀ e ∈ es, e < this.edgeDst.length)
    (hdst : ∀ d ∈ this.edgeDst, d < buf.length)
    (hbound : ∀ v, v < buf.length → buf.getD v 0 + es.length < UINT64) :
    ∃ buf', do_all es (countInEdge this) buf = some buf' ∧ buf'.length = buf.length ∧
      ∀ v, v < buf.length →
        buf'.getD v 0 = buf.getD v 0 + es.countP (fun e => decide (dstOf this.toLC_CSR_Graph e = v)) := by
  have key := do_all_inv (countInEdge this)
    (fun P b => b.length = buf.length ∧ ∀ v, v < buf.length →
        b.getD v 0 = buf.getD v 0 + P.countP (fun e => decide (dstOf this.toLC_CSR_Graph e = v)))
    es [] buf ⟨rfl, by simp⟩ (by
      intro P i R b hsplit ⟨hlen, hval⟩
      simp only [List.nil_append] at hsplit
      have hi : i < this.edgeDst.length := hes i (by simp [hsplit])
      have hd : dstOf this.toLC_CSR_Graph i < buf.length := by
        exact hdst _ (getD_mem_of_lt 0 hi)
      have hPlen : P.length + 1 ≤ es.length := by simp [hsplit]
      have hcnt : P.countP (fun e => decide (dstOf this.toLC_CSR_Graph e = dstOf this.toLC_CSR_Graph i)) ≤ P.length :=
        List.countP_le_length _
      have hbnd := hbound _ hd
      have hv := hval _ hd
      have hlt : b.getD (dstOf this.toLC_CSR_Graph i) 0 + 1 < UINT64 := by omega
      refine ⟨b.set (dstOf this.toLC_CSR_Graph i) (b.getD (dstOf this.toLC_CSR_Graph i) 0 + 1), ?_, ?_, ?_⟩
      · unfold countInEdge
        rw [readAt_of_lt 0 hi]
        simp only [Option.some_bind]
        have := sync_add_and_fetch_of_lt (hlen ▸ hd) hlt
        unfold dstOf at this
        rw [this]; rfl
      · simp [hlen]
      · intro v hvlt
        rw [getD_set_of_lt _ _ _ _ _ (hlen ▸ hd), List.countP_append]
        simp only [List.countP_cons, List.countP_nil, decide_eq_true_eq]
        by_cases hvd : v = dstOf this.toLC_CSR_Graph i
        · rw [if_pos hvd, if_pos hvd.symm, ← hvd, hval v hvlt]; omega
        · have hne : ¬ dstOf this.toLC_CSR_Graph i = v := fun h => hvd h.symm
          rw [if_neg hvd, if_neg hne, hval v hvlt]; omega)
  simpa using key

/-- In-edge index array computed by the index builder: entry `n` is the number of
out-edge positions with destination at most `n`. -/
theorem prefixSum_spec (g : LC_CSR_Graph EdgeTy) (buf : List Nat)
    (hM : g.edgeDst.length < UINT64)
    (hbuf : ∀ v, v < buf.length → buf.getD v 0 = inDegree g v) :
    ∃ buf', do_all (iterate 1 buf.length) prefixSumStep buf = some buf' ∧
      buf'.length = buf.length ∧ ∀ v, v < buf.length → buf'.getD v 0 = inUpTo g v := by
  have key := do_all_range'_inv prefixSumStep
    (fun k b => b.length = buf.length ∧ (∀ v, v < k → v < buf.length → b.getD v 0 = inUpTo g v) ∧
      (∀ v, k ≤ v → v < buf.length → b.getD v 0 = inDegree g v))
    (buf.length - 1) 1 buf
    ⟨rfl, by
      intro v hv hvl
      have : v = 0 := by omega
      subst this
      rw [hbuf 0 hvl, inUpTo_eq, inBelow_zero]; omega,
     fun v _ hvl => hbuf v hvl⟩ (by
      intro i b hlo hhi ⟨hlen, hlow, hhigh⟩
      have hi : i < b.length := by omega
      have hi1 : i - 1 < b.length := by omega
      have hx := hhigh i (Nat.le_refl _) (by omega)
      have hy := hlow (i - 1) (by omega) (by omega)
      have hsum : b.getD i 0 + b.getD (i - 1) 0 = inUpTo g i := by
        rw [hx, hy, inUpTo_eq g i]
        have := inBelow_succ g (i - 1)
        have h1 : i - 1 + 1 = i := by omega
        rw [h1] at this
        omega
      have hlt : b.getD i 0 + b.getD (i - 1) 0 < UINT64 := by
        have := inUpTo_le_length g i
        omega
      refine ⟨b.set i (inUpTo g i), ?_, ?_, ?_, ?_⟩
      · unfold prefixSumStep
        rw [readAt_of_lt 0 hi, readAt_of_lt 0 hi1]
        simp only [Option.some_bind, Nat.mod_eq_of_lt hlt, writeAt_of_lt _ hi]
        rw [hsum]
      · simp [hlen]
      · intro v hv hvl
        rw [getD_set_of_lt _ _ _ _ _ hi]
        by_cases hvi : v = i
        · rw [if_pos hvi, hvi]
        · rw [if_neg hvi]; exact hlow v (by omega) hvl
      · intro v hv hvl
        rw [getD_set_of_lt _ _ _ _ _ hi]
        have hvi : ¬ v = i := by omega
        rw [if_neg hvi]; exact hhigh v (by omega) hvl)
  obtain ⟨b, hrun, hlen, hlow, -⟩ := key
  exact ⟨b, hrun, hlen, fun v hv => hlow v (by omega) hv⟩

theorem mod_UINT32_of_lt {n N : Nat} (h : n < N) (hN : N < UINT32) : n % UINT32 = n :=
  Nat.mod_eq_of_lt (by omega)

theorem pred_mod_UINT32 {n : Nat} (h1 : 1 ≤ n) (hn : n < UINT32) :
    (n + UINT32 - 1) % UINT32 = n - 1 := by
  rw [show n + UINT32 - 1 = (n - 1) + UINT32 by omega, Nat.add_mod_right,
    Nat.mod_eq_of_lt (by omega)]

/-- The copy loop stores the buffer as the in-edge index array. -/
theorem copyIndex_spec (this : B_LC_CSR_Graph EdgeTy EdgeDataRep) (buf A : List Nat)
    (hN : buf.length < UINT32) (hA : A.length = buf.length) :
    do_all (iterate 0 buf.length) (copyInEdgeIndex buf) { this with inEdgeIndData := A } =
      some { this with inEdgeIndData := buf } := by
  have key := do_all_range'_inv (copyInEdgeIndex buf)
    (fun k (t : B_LC_CSR_Graph EdgeTy EdgeDataRep) => ∃ B : List Nat,
      t = { this with inEdgeIndData := B } ∧ B.length = buf.length ∧
      ∀ v, v < k → B.getD v 0 = buf.getD v 0)
    buf.length 0 { this with inEdgeIndData := A } ⟨A, rfl, hA, by intro v hv; omega⟩ (by
      intro i t _ hhi ⟨B, ht, hB, hval⟩
      have hi : i < buf.length := by omega
      refine ⟨{ this with inEdgeIndData := B.set i (buf.getD i 0) }, ?_, _, rfl, by simp [hB], ?_⟩
      · unfold copyInEdgeIndex
        rw [mod_UINT32_of_lt hi hN, readAt_of_lt 0 hi, ht]
        simp only [Option.some_bind]
        rw [writeAt_of_lt _ (by omega)]
        rfl
      · intro v hv
        rw [getD_set_of_lt _ _ _ _ _ (by omega)]
        by_cases hvi : v = i
        · rw [if_pos hvi, hvi]
        · rw [if_neg hvi]; exact hval v (by omega))
  obtain ⟨t, hrun, B, ht, hB, hval⟩ := key
  have hBeq : B = buf := list_ext_getD 0 hB (fun i hi => hval i (by omega))
  rw [show iterate 0 buf.length = List.range' 0 buf.length from rfl, hrun, ht, hBeq]

/-- The zero-initialisation loop of `constructIncomingEdges`. -/
theorem zeroInit_spec (N : Nat) (A : List Nat) (hN : N < UINT32) (hA : A.length = N) :
    do_all (iterate 0 N) (fun n buf => writeAt buf (n % UINT32) 0) A =
      some (List.replicate N 0) := by
  have key := do_all_range'_inv (fun n buf => writeAt buf (n % UINT32) 0)
    (fun k (B : List Nat) => B.length = N ∧ ∀ v, v < k → B.getD v 0 = 0)
    N 0 A ⟨hA, by intro v hv; omega⟩ (by
      intro i B _ hhi ⟨hB, hval⟩
      have hi : i < N := by omega
      refine ⟨B.set i 0, ?_, by simp [hB], ?_⟩
      · show writeAt B (i % UINT32) 0 = _
        rw [mod_UINT32_of_lt hi hN, writeAt_of_lt _ (by omega)]
      · intro v hv
        rw [getD_set_of_lt _ _ _ _ _ (by omega)]
        by_cases hvi : v = i
        · rw [if_pos hvi]
        · rw [if_neg hvi]; exact hval v (by omega))
  obtain ⟨B, hrun, hB, hval⟩ := key
  have hBeq : B = List.replicate N 0 := by
    apply list_ext_getD 0 (by simp [hB])
    intro i hi
    rw [hval i (by omega), getD_replicate_of_lt _ _ _ _ (by omega)]
  rw [show iterate 0 N = List.range' 0 N from rfl, hrun, hBeq]

theorem inIndexArray_length (g : LC_CSR_Graph EdgeTy) : (inIndexArray g).length = g.numNodes := by
  simp [inIndexArray]

theorem inIndexArray_getD (g : LC_CSR_Graph EdgeTy) {v : Nat} (h : v < g.numNodes) :
    (inIndexArray g).getD v 0 = inUpTo g v := by
  unfold inIndexArray
  rw [List.getD_eq_getElem?_getD, List.getElem?_map, List.getElem?_range h]
  rfl

/-- Result of `determineInEdgeIndices` on a zeroed buffer: the in-edge index
array and the buffer both hold the inclusive prefix sums of the in-degrees. -/
theorem determineInEdgeIndices_spec (this : B_LC_CSR_Graph EdgeTy EdgeDataRep)
    (hwf : WellFormed this.toLC_CSR_Graph) :
    determineInEdgeIndices this (List.replicate this.numNodes 0) =
      some ({ this with inEdgeIndData := inIndexArray this.toLC_CSR_Graph },
        inIndexArray this.toLC_CSR_Graph) := by
  obtain ⟨hN, hM, -, -, -, hDl, hD, -⟩ := hwf
  obtain ⟨b₁, hrun₁, hlen₁, hval₁⟩ := counting_spec this (List.range this.numEdges)
    (List.replicate this.numNodes 0)
    (by intro e he; rw [hDl]; simpa using he)
    (by intro d hd; simpa using hD d hd)
    (by
      intro v hv
      rw [getD_replicate_of_lt _ _ _ _ (by simpa using hv)]
      simpa using hM)
  have hlenN : b₁.length = this.numNodes := by simpa using hlen₁
  have hdeg : ∀ v, v < b₁.length → b₁.getD v 0 = inDegree this.toLC_CSR_Graph v := by
    intro v hv
    rw [hval₁ v (by rw [← hlen₁]; exact hv), getD_replicate_of_lt _ _ _ _ (by omega)]
    have := countP_range_getD this.edgeDst (fun d => decide (d = v))
    rw [hDl] at this
    unfold inDegree dstOf
    omega
  obtain ⟨b₂, hrun₂, hlen₂, hval₂⟩ := prefixSum_spec this.toLC_CSR_Graph b₁ (by omega) hdeg
  have hb₂ : b₂ = inIndexArray this.toLC_CSR_Graph := by
    apply list_ext_getD 0 (by rw [hlen₂, hlenN, inIndexArray_length])
    intro i hi
    rw [hval₂ i (by omega), inIndexArray_getD _ (by omega)]
  subst hb₂
  have hcopy := copyIndex_spec this (inIndexArray this.toLC_CSR_Graph)
    (allocateInterleaved this.numNodes)
    (by rw [inIndexArray_length]; exact hN)
    (by simp [allocateInterleaved, inIndexArray_length])
  unfold determineInEdgeIndices
  rw [iterate_zero, hrun₁]
  simp only [Option.some_bind]
  rw [← hlenN, hrun₂]
  simp only [Option.some_bind]
  rw [hlenN]
  rw [inIndexArray_length] at hcopy
  rw [hcopy]
  rfl

end Counting

/-! ## The in-edge placement engine -/

section Placement

variable {EdgeTy EdgeDataRep : Type}

theorem inBelow_mono (g : LC_CSR_Graph EdgeTy) {v w : Nat} (h : v ≤ w) :
    inBelow g v ≤ inBelow g w := by
  unfold inBelow
  apply List.countP_mono_left
  intro d _ hd
  simp only [decide_eq_true_eq] at hd ⊢
  omega

/-- Slots of different destinations never coincide. -/
theorem slot_disjoint (g : LC_CSR_Graph EdgeTy) {v w c d : Nat} (hvw : v ≠ w)
    (hc : c < inDegree g v) (hd : d < inDegree g w) :
    inBelow g v + c ≠ inBelow g w + d := by
  have h1 := inUpTo_eq g v
  have h2 := inUpTo_eq g w
  have h3 := inBelow_succ g v
  have h4 := inBelow_succ g w
  rcases Nat.lt_or_gt_of_ne hvw with h | h
  · have := inBelow_mono g (show v + 1 ≤ w by omega)
    omega
  · have := inBelow_mono g (show w + 1 ≤ v by omega)
    omega

theorem countTo_append (g : LC_CSR_Graph EdgeTy) (P Q : List (Nat × Nat)) (v : Nat) :
    countTo g (P ++ Q) v = countTo g P v + countTo g Q v := by
  simp [countTo, List.countP_append]

theorem countTo_single (g : LC_CSR_Graph EdgeTy) (u e v : Nat) :
    countTo g [(u, e)] v = if dstOf g e = v then 1 else 0 := by
  simp [countTo, List.countP_cons]

theorem countTo_cons (g : LC_CSR_Graph EdgeTy) (u e : Nat) (P : List (Nat × Nat)) (v : Nat) :
    countTo g ((u, e) :: P) v = countTo g P v + if dstOf g e = v then 1 else 0 := by
  simp [countTo, List.countP_cons]

theorem dstOf_lt (g : LC_CSR_Graph EdgeTy) (hDl : g.edgeDst.length = g.numEdges)
    (hD : ∀ d ∈ g.edgeDst, d < g.numNodes) {e : Nat} (he : e < g.numEdges) :
    dstOf g e < g.numNodes :=
  hD _ (getD_mem_of_lt 0 (by omega))

/-- One trip of the placement loop keeps the placement invariant. -/
theorem placeInEdge_step (g : LC_CSR_Graph EdgeTy)
    (createEdgeData : B_LC_CSR_Graph EdgeTy EdgeDataRep → Nat → Nat →
      Option (B_LC_CSR_Graph EdgeTy EdgeDataRep))
    (val : Nat → EdgeDataRep) (data₀ : List EdgeDataRep)
    (hM : g.numEdges < UINT64) (hDl : g.edgeDst.length = g.numEdges)
    (hD : ∀ d ∈ g.edgeDst, d < g.numNodes) (hc : CreatesWith g createEdgeData val)
    (P : List (Nat × Nat)) (u e : Nat) (st : B_LC_CSR_Graph EdgeTy EdgeDataRep × List Nat)
    (hinv : PlaceInv g val data₀ P st) (he : e < g.numEdges)
    (hroom : ∀ v, countTo g (P ++ [(u, e)]) v ≤ inDegree g v) :
    ∃ st', placeInEdge createEdgeData u e st = some st' ∧
      PlaceInv g val data₀ (P ++ [(u, e)]) st' := by
  obtain ⟨t, buf⟩ := st
  obtain ⟨hg, hidx, hdl, hdata, hbl, hbuf, hslots⟩ := hinv
  simp only at hg hidx hdl hdata hbl hbuf hslots
  have hv₀ : dstOf g e < g.numNodes := dstOf_lt g hDl hD he
  have hcnt₀ : countTo g P (dstOf g e) + 1 ≤ inDegree g (dstOf g e) := by
    have := hroom (dstOf g e)
    rw [countTo_append, countTo_single, if_pos rfl] at this
    exact this
  have hs₀ := hbuf _ hv₀
  have hup := inUpTo_eq g (dstOf g e)
  have hupM : inUpTo g (dstOf g e) ≤ g.numEdges := hDl ▸ inUpTo_le_length g _
  have hedst : t.edgeDst = g.edgeDst := by rw [← hg]
  have hs₀M : buf.getD (dstOf g e) 0 < t.inEdgeDst.length := by omega
  have hcreate := hc { t with inEdgeDst := t.inEdgeDst.set (buf.getD (dstOf g e) 0) u }
    (buf.getD (dstOf g e) 0) e hg he (by
      intro hv
      rw [hv] at hdata
      simp only [Bool.false_eq_true, if_false] at hdata
      show _ < t.inEdgeData.length
      omega)
  obtain ⟨t', hct, hg', hidx', hdst', hdata'⟩ : ∃ t',
      createEdgeData { t with inEdgeDst := t.inEdgeDst.set (buf.getD (dstOf g e) 0) u }
        (buf.getD (dstOf g e) 0) e = some t' ∧
      t'.toLC_CSR_Graph = g ∧ t'.inEdgeIndData = t.inEdgeIndData ∧
      t'.inEdgeDst = t.inEdgeDst.set (buf.getD (dstOf g e) 0) u ∧
      t'.inEdgeData = (if g.edgeTyIsVoid then t.inEdgeData
        else t.inEdgeData.set (buf.getD (dstOf g e) 0) (val e)) := by
    cases hvoid : g.edgeTyIsVoid
    · rw [hvoid] at hcreate
      exact ⟨_, hcreate, hg, rfl, rfl, rfl⟩
    · rw [hvoid] at hcreate
      exact ⟨_, hcreate, hg, rfl, rfl, rfl⟩
  refine ⟨(t', buf.set (dstOf g e) (buf.getD (dstOf g e) 0 + 1)), ?_, ?_⟩
  · unfold placeInEdge
    simp only
    rw [hedst, readAt_of_lt 0 (by omega : e < g.edgeDst.length)]
    simp only [Option.some_bind]
    have hfa := @sync_fetch_and_add_of_lt buf (dstOf g e) (by omega) (by omega)
    unfold dstOf at hfa hct hs₀M
    rw [hfa]
    simp only [Option.some_bind]
    rw [writeAt_of_lt _ hs₀M]
    simp only [Option.some_bind]
    rw [hct]
    rfl
  · refine ⟨hg', by rw [hidx', hidx], by rw [hdst', List.length_set, hdl], ?_,
      by rw [List.length_set, hbl], ?_, ?_⟩
    · show (if g.edgeTyIsVoid then t'.inEdgeData = data₀ else t'.inEdgeData.length = g.numEdges)
      rw [hdata']
      cases hvoid : g.edgeTyIsVoid
      · rw [hvoid] at hdata
        simpa using hdata
      · rw [hvoid] at hdata
        simpa using hdata
    · intro v hv
      show (buf.set (dstOf g e) (buf.getD (dstOf g e) 0 + 1)).getD v 0 = _
      rw [getD_set_of_lt _ _ _ _ _ (by omega), countTo_append, countTo_single]
      by_cases hvd : v = dstOf g e
      · rw [if_pos hvd, if_pos hvd.symm, hvd, hs₀]; omega
      · have hne : ¬ dstOf g e = v := fun h => hvd h.symm
        rw [if_neg hvd, if_neg hne, hbuf v hv]; omega
    · intro P₁ u' e' P₂ hsplit
      show t'.inEdgeDst[_]? = some u' ∧ (_ → t'.inEdgeData[_]? = some (val e'))
      rw [hdst', hdata', hs₀]
      rcases List.eq_nil_or_concat P₂ with hnil | ⟨L, b, hL⟩
      · subst hnil
        obtain ⟨hP, hlast⟩ := List.append_inj' hsplit rfl
        have hue : (u, e) = (u', e') := by simpa using hlast
        obtain ⟨rfl, rfl⟩ := Prod.mk.inj hue
        subst hP
        constructor
        · rw [List.getElem?_set, if_pos rfl, if_pos (by omega)]
        · intro hvoid
          rw [hvoid]
          simp only [Bool.false_eq_true, if_false]
          rw [hvoid] at hdata
          simp only [Bool.false_eq_true, if_false] at hdata
          rw [List.getElem?_set, if_pos rfl, if_pos (by omega)]
      · rw [hL, List.concat_eq_append, ← List.cons_append, ← List.append_assoc] at hsplit
        obtain ⟨hP, -⟩ := List.append_inj' hsplit rfl
        obtain ⟨hold₁, hold₂⟩ := hslots P₁ u' e' L hP
        have hcntP : countTo g P₁ (dstOf g e') < countTo g P (dstOf g e') := by
          rw [hP, countTo_append, countTo_cons, if_pos rfl]; omega
        have hcntP' : countTo g P (dstOf g e') ≤ inDegree g (dstOf g e') := by
          have := hroom (dstOf g e')
          rw [countTo_append] at this
          omega
        have hne : inBelow g (dstOf g e) + countTo g P (dstOf g e) ≠
            inBelow g (dstOf g e') + countTo g P₁ (dstOf g e') := by
          by_cases hvv : dstOf g e = dstOf g e'
          · rw [hvv]; omega
          · exact slot_disjoint g hvv (by omega) (by omega)
        constructor
        · rw [List.getElem?_set, if_neg hne]; exact hold₁
        · intro hvoid
          rw [hvoid]
          simp only [Bool.false_eq_true, if_false]
          rw [List.getElem?_set, if_neg hne]; exact hold₂ hvoid

theorem getD_le_getD_of_pairwise {l : List Nat} (h : l.Pairwise (fun a b => a ≤ b))
    {i j : Nat} (hij : i ≤ j) (hj : j < l.length) : l.getD i 0 ≤ l.getD j 0 := by
  rcases Nat.eq_or_lt_of_le hij with heq | hlt
  · rw [heq]
  · have := List.pairwise_iff_getElem.mp h i j (by omega) hj hlt
    rw [List.getD_eq_getElem?_getD, List.getD_eq_getElem?_getD,
      List.getElem?_eq_getElem (by omega : i < l.length), List.getElem?_eq_getElem hj]
    exact this

theorem getLastD_eq_getD (l : List Nat) : l.getLastD 0 = l.getD (l.length - 1) 0 := by
  rw [List.getLastD_eq_getLast?, List.getLast?_eq_getElem?, List.getD_eq_getElem?_getD]

theorem outBegin_succ (g : LC_CSR_Graph EdgeTy) (u : Nat) : outBegin g (u + 1) = outEnd g u := by
  simp [outBegin, outEnd]

theorem outBegin_le_outEnd (g : LC_CSR_Graph EdgeTy) (hwf : WellFormed g) {u : Nat}
    (hu : u < g.numNodes) : outBegin g u ≤ outEnd g u := by
  obtain ⟨-, -, hIl, hmono, -, -, -, -⟩ := hwf
  cases u with
  | zero => simp [outBegin]
  | succ u =>
    rw [outBegin_succ]
    exact getD_le_getD_of_pairwise hmono (by omega) (by omega)

theorem outBegin_numNodes (g : LC_CSR_Graph EdgeTy) (hwf : WellFormed g) :
    outBegin g g.numNodes = g.numEdges := by
  obtain ⟨-, -, hIl, -, hlast, -, -, -⟩ := hwf
  rw [getLastD_eq_getD, hIl] at hlast
  unfold outBegin
  by_cases hN : g.numNodes = 0
  · rw [if_pos hN]
    rw [hN] at hIl
    have : g.edgeIndData = [] := List.eq_nil_of_length_eq_zero hIl
    rw [this] at hlast
    simpa using hlast
  · rw [if_neg hN]; exact hlast

theorem outEnd_le_numEdges (g : LC_CSR_Graph EdgeTy) (hwf : WellFormed g) {u : Nat}
    (hu : u < g.numNodes) : outEnd g u ≤ g.numEdges := by
  have hN := outBegin_numNodes g hwf
  obtain ⟨-, -, hIl, hmono, -, -, -, -⟩ := hwf
  have : outBegin g g.numNodes = outEnd g (g.numNodes - 1) := by
    have h1 : g.numNodes = (g.numNodes - 1) + 1 := by omega
    conv_lhs => rw [h1]
    exact outBegin_succ g _
  rw [← hN, this]
  exact getD_le_getD_of_pairwise hmono (by omega) (by omega)

theorem placementOrder_succ (g : LC_CSR_Graph EdgeTy) (k : Nat) :
    placementOrder g (k + 1) = placementOrder g k ++
      (iterate (outBegin g k) (outEnd g k)).map fun e => (k, e) := by
  simp [placementOrder, List.range_succ, List.flatMap_append]

theorem range_append_range' (a n : Nat) : List.range a ++ List.range' a n = List.range (a + n) := by
  rw [List.range_eq_range', List.range_eq_range']
  have := List.range'_append 0 a n 1
  simp only [Nat.zero_add, Nat.one_mul] at this
  rw [this, Nat.add_comm]

/-- The placement loop visits the out-edge positions in increasing order. -/
theorem placementOrder_positions (g : LC_CSR_Graph EdgeTy) (hwf : WellFormed g) :
    ∀ k, k ≤ g.numNodes → (placementOrder g k).map Prod.snd = List.range (outBegin g k) := by
  intro k
  induction k with
  | zero => intro _; simp [placementOrder, outBegin]
  | succ k ih =>
    intro hk
    have hle := outBegin_le_outEnd g hwf (show k < g.numNodes by omega)
    rw [placementOrder_succ, List.map_append, ih (by omega), List.map_map, outBegin_succ]
    have : (Prod.snd ∘ fun e => (k, e)) = (id : Nat → Nat) := rfl
    rw [this, List.map_id, iterate, range_append_range']
    congr 1; omega

theorem countTo_eq_countP_positions (g : LC_CSR_Graph EdgeTy) (P : List (Nat × Nat)) (v : Nat) :
    countTo g P v = (P.map Prod.snd).countP (fun e => decide (dstOf g e = v)) := by
  rw [List.countP_map]; rfl

theorem countP_range_le_inDegree (g : LC_CSR_Graph EdgeTy) (hDl : g.edgeDst.length = g.numEdges)
    {j : Nat} (hj : j ≤ g.numEdges) (v : Nat) :
    (List.range j).countP (fun e => decide (dstOf g e = v)) ≤ inDegree g v := by
  have h := countP_range_getD g.edgeDst (fun d => decide (d = v))
  rw [hDl] at h
  have hsplit := range_append_range' j (g.numEdges - j)
  rw [show j + (g.numEdges - j) = g.numEdges by omega] at hsplit
  unfold inDegree
  rw [← h, ← hsplit, List.countP_append]
  unfold dstOf
  omega

theorem inCursorArray_length (g : LC_CSR_Graph EdgeTy) :
    (inCursorArray g).length = g.numNodes := by
  simp [inCursorArray]

theorem inCursorArray_getD (g : LC_CSR_Graph EdgeTy) {v : Nat} (h : v < g.numNodes) :
    (inCursorArray g).getD v 0 = inBelow g v := by
  unfold inCursorArray
  rw [List.getD_eq_getElem?_getD, List.getElem?_map, List.getElem?_range h]
  rfl

/-- The cursor block of `determineInEdgeDestAndData` turns the buffer into the
exclusive prefix sums of the in-degrees. -/
theorem cursor_spec (this : B_LC_CSR_Graph EdgeTy EdgeDataRep) (buf : List Nat)
    (hN : this.numNodes < UINT32) (hidx : this.inEdgeIndData = inIndexArray this.toLC_CSR_Graph)
    (hbuf : buf.length = this.numNodes) :
    (if 1 ≤ this.numNodes then
        (writeAt buf 0 0).bind (do_all (iterate 1 this.numNodes) (shiftInEdgeIndex this))
      else some buf) = some (inCursorArray this.toLC_CSR_Graph) := by
  by_cases h1 : 1 ≤ this.numNodes
  · rw [if_pos h1, writeAt_of_lt _ (by omega)]
    simp only [Option.some_bind]
    have key := do_all_range'_inv (shiftInEdgeIndex this)
      (fun k (B : List Nat) => B.length = this.numNodes ∧
        ∀ v, v < k → B.getD v 0 = inBelow this.toLC_CSR_Graph v)
      (this.numNodes - 1) 1 (buf.set 0 0) ⟨by simp [hbuf], by
        intro v hv
        have : v = 0 := by omega
        subst this
        rw [getD_set_of_lt _ _ _ _ _ (by omega), if_pos rfl, inBelow_zero]⟩ (by
        intro i B hlo hhi ⟨hB, hval⟩
        have hi : i < this.numNodes := by omega
        refine ⟨B.set i (inBelow this.toLC_CSR_Graph i), ?_, by simp [hB], ?_⟩
        · unfold shiftInEdgeIndex
          rw [mod_UINT32_of_lt hi hN, pred_mod_UINT32 hlo (by omega), hidx,
            readAt_of_lt 0 (by rw [inIndexArray_length]; omega : i - 1 < _),
            inIndexArray_getD _ (by omega : i - 1 < _), ← inBelow_succ,
            show i - 1 + 1 = i by omega]
          simp only [Option.some_bind]
          rw [writeAt_of_lt _ (by omega)]
        · intro v hv
          rw [getD_set_of_lt _ _ _ _ _ (by omega)]
          by_cases hvi : v = i
          · rw [if_pos hvi, hvi]
          · rw [if_neg hvi]; exact hval v (by omega))
    obtain ⟨B, hrun, hB, hval⟩ := key
    have hBeq : B = inCursorArray this.toLC_CSR_Graph := by
      apply list_ext_getD 0 (by rw [hB, inCursorArray_length])
      intro i hi
      rw [hval i (by omega), inCursorArray_getD _ (by omega)]
    rw [show iterate 1 this.numNodes = List.range' 1 (this.numNodes - 1) from rfl, hrun, hBeq]
  · rw [if_neg h1]
    have h0 : this.numNodes = 0 := by omega
    have hnil : buf = [] := List.eq_nil_of_length_eq_zero (by omega)
    have : inCursorArray this.toLC_CSR_Graph = [] := by
      apply List.eq_nil_of_length_eq_zero
      rw [inCursorArray_length]; exact h0
    rw [hnil, this]

/-- The while loop of one source node extends the placement invariant by the
out-edges of that node. -/
theorem placeInEdgesOf_step (g : LC_CSR_Graph EdgeTy) (hwf : WellFormed g)
    (createEdgeData : B_LC_CSR_Graph EdgeTy EdgeDataRep → Nat → Nat →
      Option (B_LC_CSR_Graph EdgeTy EdgeDataRep))
    (val : Nat → EdgeDataRep) (data₀ : List EdgeDataRep)
    (hc : CreatesWith g createEdgeData val) (u : Nat) (hu : u < g.numNodes)
    (st : B_LC_CSR_Graph EdgeTy EdgeDataRep × List Nat)
    (hinv : PlaceInv g val data₀ (placementOrder g u) st) :
    ∃ st', placeInEdgesOf createEdgeData u st = some st' ∧
      PlaceInv g val data₀ (placementOrder g (u + 1)) st' := by
  have hwf' := hwf
  obtain ⟨hN, hM, hIl, hmono, hlast, hDl, hD, -⟩ := hwf'
  have hble := outBegin_le_outEnd g hwf hu
  have hlM := outEnd_le_numEdges g hwf hu
  have hpos := placementOrder_positions g hwf u (by omega)
  have hind : st.1.edgeIndData = g.edgeIndData := by rw [← hinv.1]
  have hfirst : (if u = 0 then some 0 else readAt g.edgeIndData (u - 1)) = some (outBegin g u) := by
    unfold outBegin
    by_cases h0 : u = 0
    · rw [if_pos h0, if_pos h0]
    · rw [if_neg h0, if_neg h0, readAt_of_lt 0 (by omega)]
  have key := do_all_range'_inv (placeInEdge createEdgeData u)
    (fun j st' => PlaceInv g val data₀
      (placementOrder g u ++ (List.range' (outBegin g u) (j - outBegin g u)).map fun e => (u, e)) st')
    (outEnd g u - outBegin g u) (outBegin g u) st (by simpa using hinv) (by
      intro j st' hlo hhi hj
      have hstep := placeInEdge_step g createEdgeData val data₀ hM hDl hD hc _ u j st' hj
        (by omega) (by
          intro v
          rw [countTo_eq_countP_positions, List.map_append, List.map_append, hpos, List.map_map]
          have : (Prod.snd ∘ fun e => (u, e)) = (id : Nat → Nat) := rfl
          rw [this, List.map_id, range_append_range']
          simp only [List.map_cons, List.map_nil]
          rw [show outBegin g u + (j - outBegin g u) = j by omega, ← List.range_succ]
          exact countP_range_le_inDegree g hDl (by omega) v)
      obtain ⟨st₂, hrun, hinv₂⟩ := hstep
      refine ⟨st₂, hrun, ?_⟩
      show PlaceInv g val data₀ (placementOrder g u ++
        (List.range' (outBegin g u) (j + 1 - outBegin g u)).map fun e => (u, e)) st₂
      rw [show j + 1 - outBegin g u = (j - outBegin g u) + 1 by omega, List.range'_concat,
        List.map_append, ← List.append_assoc]
      simp only [List.map_cons, List.map_nil, Nat.one_mul]
      rw [show outBegin g u + (j - outBegin g u) = j by omega]
      exact hinv₂)
  obtain ⟨st', hrun, hinv'⟩ := key
  refine ⟨st', ?_, ?_⟩
  · unfold placeInEdgesOf
    rw [mod_UINT32_of_lt hu hN, hind, hfirst]
    simp only [Option.some_bind]
    rw [readAt_of_lt 0 (by omega)]
    simp only [Option.some_bind]
    exact hrun
  · rw [placementOrder_succ]
    rw [show outBegin g u + (outEnd g u - outBegin g u) - outBegin g u =
      outEnd g u - outBegin g u by omega] at hinv'
    exact hinv'

/-- The placement pass of `determineInEdgeDestAndData` returns, with the placement
invariant for all out-edges. -/
theorem determineInEdgeDestAndData_inv [Inhabited EdgeDataRep] (g : LC_CSR_Graph EdgeTy)
    (hwf : WellFormed g)
    (createEdgeData : B_LC_CSR_Graph EdgeTy EdgeDataRep → Nat → Nat →
      Option (B_LC_CSR_Graph EdgeTy EdgeDataRep))
    (val : Nat → EdgeDataRep) (hc : CreatesWith g createEdgeData val)
    (this : B_LC_CSR_Graph EdgeTy EdgeDataRep) (buf : List Nat)
    (hg : this.toLC_CSR_Graph = g) (hidx : this.inEdgeIndData = inIndexArray g)
    (hbuf : buf.length = g.numNodes) :
    ∃ st, determineInEdgeDestAndData createEdgeData this buf = some st ∧
      PlaceInv g val this.inEdgeData (placementOrder g g.numNodes) st := by
  subst hg
  have hN : this.numNodes < UINT32 := hwf.1
  have hcur := cursor_spec this buf hN hidx hbuf
  have key := do_all_range'_inv (placeInEdgesOf createEdgeData)
    (fun k st => PlaceInv this.toLC_CSR_Graph val this.inEdgeData
      (placementOrder this.toLC_CSR_Graph k) st)
    this.numNodes 0
    (({ this with
        inEdgeDst := allocateInterleaved this.numEdges
        inEdgeData :=
          if !this.edgeTyIsVoid then allocateInterleaved this.numEdges else this.inEdgeData } :
        B_LC_CSR_Graph EdgeTy EdgeDataRep),
      inCursorArray this.toLC_CSR_Graph)
    (by
      refine ⟨rfl, hidx, by simp [allocateInterleaved], ?_, inCursorArray_length _, ?_, ?_⟩
      · cases hvoid : this.edgeTyIsVoid <;> simp [allocateInterleaved]
      · intro v hv
        show (inCursorArray this.toLC_CSR_Graph).getD v 0 = _
        rw [inCursorArray_getD _ hv]
        simp [placementOrder, countTo]
      · intro P₁ u e P₂ hsplit
        simp [placementOrder] at hsplit)
    (by
      intro u st _ hhi hinv
      exact placeInEdgesOf_step this.toLC_CSR_Graph hwf createEdgeData val this.inEdgeData hc u
        (by omega) st hinv)
  obtain ⟨st, hrun, hinv⟩ := key
  refine ⟨st, ?_, by simpa using hinv⟩
  unfold determineInEdgeDestAndData
  rw [hcur]
  simp only [Option.some_bind]
  exact hrun

/-- On a well-formed base graph `constructIncomingEdges` returns, and its result
satisfies the placement invariant for all out-edges. -/
theorem constructIncomingEdgesBuf_inv [Inhabited EdgeDataRep]
    (createEdgeData : B_LC_CSR_Graph EdgeTy EdgeDataRep → Nat → Nat →
      Option (B_LC_CSR_Graph EdgeTy EdgeDataRep))
    (val : Nat → EdgeDataRep) (this : B_LC_CSR_Graph EdgeTy EdgeDataRep)
    (hwf : WellFormed this.toLC_CSR_Graph)
    (hc : CreatesWith this.toLC_CSR_Graph createEdgeData val) :
    ∃ st, constructIncomingEdgesBuf createEdgeData this = some st ∧
      PlaceInv this.toLC_CSR_Graph val this.inEdgeData
        (placementOrder this.toLC_CSR_Graph this.numNodes) st := by
  have hzero := zeroInit_spec this.numNodes (allocateInterleaved this.numNodes) hwf.1
    (by simp [allocateInterleaved])
  have hind := determineInEdgeIndices_spec this hwf
  obtain ⟨st, hrun, hinv⟩ := determineInEdgeDestAndData_inv this.toLC_CSR_Graph hwf
    createEdgeData val hc { this with inEdgeIndData := inIndexArray this.toLC_CSR_Graph }
    (inIndexArray this.toLC_CSR_Graph) rfl rfl (inIndexArray_length _)
  refine ⟨st, ?_, hinv⟩
  unfold constructIncomingEdgesBuf
  rw [hzero]
  simp only [Option.some_bind]
  rw [hind]
  simp only [Option.some_bind]
  exact hrun

theorem placementOrder_split (g : LC_CSR_Graph EdgeTy) {k n : Nat} (hk : k ≤ n) :
    ∃ X, placementOrder g n = placementOrder g k ++ X := by
  refine ⟨(List.range' k (n - k)).flatMap
    fun u => (iterate (outBegin g u) (outEnd g u)).map fun e => (u, e), ?_⟩
  unfold placementOrder
  rw [← List.flatMap_append, range_append_range']
  congr 2; omega

/-- Every out-edge is visited by the placement loop, after exactly the out-edge
positions below its own. -/
theorem placementOrder_at (g : LC_CSR_Graph EdgeTy) (hwf : WellFormed g) {u e : Nat}
    (h : IsOutEdge g u e) :
    ∃ P₁ P₂, placementOrder g g.numNodes = P₁ ++ (u, e) :: P₂ ∧
      P₁.map Prod.snd = List.range e := by
  obtain ⟨hu, hlo, hhi⟩ := h
  obtain ⟨X, hX⟩ := placementOrder_split g (show u + 1 ≤ g.numNodes by omega)
  have hseg : iterate (outBegin g u) (outEnd g u) =
      List.range' (outBegin g u) (e - outBegin g u) ++ e :: List.range' (e + 1) (outEnd g u - e - 1) := by
    unfold iterate
    have h1 := List.range'_append (outBegin g u) (e - outBegin g u) (outEnd g u - e) 1
    rw [Nat.one_mul, show outBegin g u + (e - outBegin g u) = e by omega,
      show outEnd g u - e + (e - outBegin g u) = outEnd g u - outBegin g u by omega] at h1
    rw [← h1, show outEnd g u - e = (outEnd g u - e - 1) + 1 by omega, List.range'_succ]
    simp
  refine ⟨placementOrder g u ++ (List.range' (outBegin g u) (e - outBegin g u)).map fun e => (u, e),
    (List.range' (e + 1) (outEnd g u - e - 1)).map (fun e => (u, e)) ++ X, ?_, ?_⟩
  · rw [hX, placementOrder_succ, hseg]
    simp
  · rw [List.map_append, placementOrder_positions g hwf u (by omega), List.map_map]
    have : (Prod.snd ∘ fun e => (u, e)) = (id : Nat → Nat) := rfl
    rw [this, List.map_id, range_append_range']
    congr 1; omega

/-- Result of `constructIncomingEdges` on a well-formed base graph: the call
returns; the base graph is unchanged; the in-edge index array and the final
cursor buffer hold the inclusive prefix sums of the in-degrees; and the
out-edge at position `e` of node `u` is stored in slot `slotOf e`. -/
theorem constructIncomingEdgesBuf_spec [Inhabited EdgeDataRep]
    (createEdgeData : B_LC_CSR_Graph EdgeTy EdgeDataRep → Nat → Nat →
      Option (B_LC_CSR_Graph EdgeTy EdgeDataRep))
    (val : Nat → EdgeDataRep) (this : B_LC_CSR_Graph EdgeTy EdgeDataRep)
    (hwf : WellFormed this.toLC_CSR_Graph)
    (hc : CreatesWith this.toLC_CSR_Graph createEdgeData val) :
    ∃ b, constructIncomingEdgesBuf createEdgeData this =
        some (b, inIndexArray this.toLC_CSR_Graph) ∧
      b.toLC_CSR_Graph = this.toLC_CSR_Graph ∧
      b.inEdgeIndData = inIndexArray this.toLC_CSR_Graph ∧
      b.inEdgeDst.length = this.numEdges ∧
      (if this.edgeTyIsVoid then b.inEdgeData = this.inEdgeData
        else b.inEdgeData.length = this.numEdges) ∧
      ∀ u e, IsOutEdge this.toLC_CSR_Graph u e →
        b.inEdgeDst[slotOf this.toLC_CSR_Graph e]? = some u ∧
        (this.edgeTyIsVoid = false →
          b.inEdgeData[slotOf this.toLC_CSR_Graph e]? = some (val e)) := by
  obtain ⟨⟨b, buf⟩, hrun, hg, hidx, hdl, hdata, hbl, hbuf, hslots⟩ :=
    constructIncomingEdgesBuf_inv createEdgeData val this hwf hc
  simp only at hg hidx hdl hdata hbl hbuf hslots
  have hDl : this.edgeDst.length = this.numEdges := hwf.2.2.2.2.2.1
  have hbufeq : buf = inIndexArray this.toLC_CSR_Graph := by
    apply list_ext_getD 0 (by rw [hbl, inIndexArray_length])
    intro v hv
    rw [hbuf v (by omega), inIndexArray_getD _ (by omega), inUpTo_eq,
      countTo_eq_countP_positions,
      placementOrder_positions _ hwf _ (Nat.le_refl _), outBegin_numNodes _ hwf]
    have := countP_range_getD this.edgeDst (fun d => decide (d = v))
    rw [hDl] at this
    unfold inDegree dstOf
    omega
  subst hbufeq
  refine ⟨b, hrun, hg, hidx, hdl, hdata, ?_⟩
  intro u e hue
  obtain ⟨P₁, P₂, hsplit, hP₁⟩ := placementOrder_at _ hwf hue
  have := hslots P₁ u e P₂ hsplit
  rw [countTo_eq_countP_positions, hP₁] at this
  exact this

end Placement

/-! ## The two edge-data strategies and the slot assignment -/

section Strategies

variable {EdgeTy : Type}

theorem shared_createsWith (g : LC_CSR_Graph EdgeTy) :
    CreatesWith g (@Shared.createEdgeData EdgeTy) (fun e => e) := by
  intro this e_new e hg _ hlen
  have hv : this.edgeTyIsVoid = g.edgeTyIsVoid := by rw [← hg]
  unfold Shared.createEdgeData
  rw [hv]
  cases hvoid : g.edgeTyIsVoid
  · simp only [Bool.not_false, if_true, Bool.false_eq_true, if_false]
    rw [writeAt_of_lt _ (hlen hvoid)]
    rfl
  · simp

theorem byValue_createsWith [Inhabited EdgeTy] (g : LC_CSR_Graph EdgeTy)
    (hEl : g.edgeData.length = (if g.edgeTyIsVoid then 0 else g.numEdges)) :
    CreatesWith g (@ByValue.createEdgeData EdgeTy)
      (fun e => g.edgeData.getD e default) := by
  intro this e_new e hg he hlen
  have hv : this.edgeTyIsVoid = g.edgeTyIsVoid := by rw [← hg]
  have hd : this.edgeData = g.edgeData := by rw [← hg]
  unfold ByValue.createEdgeData edgeDataCopy
  rw [hv, hd]
  cases hvoid : g.edgeTyIsVoid
  · rw [hvoid] at hEl
    simp only [Bool.false_eq_true, if_false] at hEl ⊢
    rw [readAt_of_lt default (by omega)]
    simp only [Option.some_bind]
    rw [writeAt_of_lt _ (hlen hvoid)]
    rfl
  · simp

end Strategies

section Slots

variable {EdgeTy EdgeDataRep : Type}

theorem countP_range_succ (p : Nat → Bool) (e : Nat) :
    (List.range (e + 1)).countP p = (List.range e).countP p + if p e then 1 else 0 := by
  rw [List.range_succ, List.countP_append]
  simp [List.countP_cons]

theorem countP_range_mono (p : Nat → Bool) {a b : Nat} (h : a ≤ b) :
    (List.range a).countP p ≤ (List.range b).countP p := by
  have := range_append_range' a (b - a)
  rw [show a + (b - a) = b by omega] at this
  rw [← this, List.countP_append]
  omega

/-- The rank of an out-edge among the out-edges of its destination is smaller than
the in-degree of the destination. -/
theorem rank_lt_inDegree (g : LC_CSR_Graph EdgeTy) (hDl : g.edgeDst.length = g.numEdges)
    {e : Nat} (he : e < g.numEdges) :
    (List.range e).countP (fun e' => decide (dstOf g e' = dstOf g e)) < inDegree g (dstOf g e) := by
  have h1 := countP_range_le_inDegree g hDl (show e + 1 ≤ g.numEdges by omega) (dstOf g e)
  rw [countP_range_succ] at h1
  simp only [decide_True, if_true] at h1
  omega

theorem slotOf_bounds (g : LC_CSR_Graph EdgeTy) (hDl : g.edgeDst.length = g.numEdges)
    {e : Nat} (he : e < g.numEdges) :
    inBelow g (dstOf g e) ≤ slotOf g e ∧ slotOf g e < inUpTo g (dstOf g e) := by
  have := rank_lt_inDegree g hDl he
  have := inUpTo_eq g (dstOf g e)
  unfold slotOf
  omega

theorem slotOf_lt (g : LC_CSR_Graph EdgeTy) (hDl : g.edgeDst.length = g.numEdges)
    {e : Nat} (he : e < g.numEdges) : slotOf g e < g.numEdges := by
  have := (slotOf_bounds g hDl he).2
  have := inUpTo_le_length g (dstOf g e)
  omega

theorem slotOf_lt_of_lt (g : LC_CSR_Graph EdgeTy) (hDl : g.edgeDst.length = g.numEdges)
    {e e' : Nat} (he' : e' < g.numEdges) (hlt : e < e') : slotOf g e ≠ slotOf g e' := by
  have he : e < g.numEdges := by omega
  by_cases hd : dstOf g e = dstOf g e'
  · unfold slotOf
    rw [hd]
    have h1 := countP_range_mono (fun x => decide (dstOf g x = dstOf g e')) (show e + 1 ≤ e' by omega)
    rw [countP_range_succ] at h1
    simp only [hd, decide_True, if_true] at h1
    omega
  · exact slot_disjoint g hd (rank_lt_inDegree g hDl he) (rank_lt_inDegree g hDl he')

/-- Different out-edge positions are placed in different slots. -/
theorem slotOf_injOn (g : LC_CSR_Graph EdgeTy) (hDl : g.edgeDst.length = g.numEdges)
    {e e' : Nat} (he : e < g.numEdges) (he' : e' < g.numEdges) (h : slotOf g e = slotOf g e') :
    e = e' := by
  rcases Nat.lt_trichotomy e e' with hlt | heq | hgt
  · exact absurd h (slotOf_lt_of_lt g hDl he' hlt)
  · exact heq
  · exact absurd h.symm (slotOf_lt_of_lt g hDl he hgt)

/-- The slot assignment is a bijection of the out-edge positions onto the in-edge
slots. -/
theorem slotOf_bijOn (g : LC_CSR_Graph EdgeTy) (hDl : g.edgeDst.length = g.numEdges) :
    Set.BijOn (slotOf g) (Set.Iio g.numEdges) (Set.Iio g.numEdges) := by
  have hmaps : Set.MapsTo (slotOf g) (Set.Iio g.numEdges) (Set.Iio g.numEdges) :=
    fun e he => slotOf_lt g hDl he
  have hinj : Set.InjOn (slotOf g) (Set.Iio g.numEdges) :=
    fun e he e' he' h => slotOf_injOn g hDl he he' h
  have hfin : (Set.Iio g.numEdges).Finite := Set.finite_Iio _
  exact (hfin.injOn_iff_bijOn_of_mapsTo hmaps).mp hinj

theorem IsOutEdge.lt_numEdges {g : LC_CSR_Graph EdgeTy} (hwf : WellFormed g) {u e : Nat}
    (h : IsOutEdge g u e) : e < g.numEdges := by
  have := outEnd_le_numEdges g hwf h.1
  have := h.2.2
  omega

/-- Every out-edge position belongs to some source node. -/
theorem exists_source (g : LC_CSR_Graph EdgeTy) (hwf : WellFormed g) {e : Nat}
    (he : e < g.numEdges) : ∃ u, IsOutEdge g u e := by
  have hpos := placementOrder_positions g hwf g.numNodes (Nat.le_refl _)
  rw [outBegin_numNodes g hwf] at hpos
  have hmem : e ∈ (placementOrder g g.numNodes).map Prod.snd := by
    rw [hpos]; exact List.mem_range.mpr he
  obtain ⟨p, hp, hpe⟩ := List.mem_map.mp hmem
  unfold placementOrder at hp
  obtain ⟨u, hu, hpu⟩ := List.mem_flatMap.mp hp
  obtain ⟨e', he', hpe'⟩ := List.mem_map.mp hpu
  unfold iterate at he'
  rw [List.mem_range'_1] at he'
  subst hpe'
  simp only at hpe
  subst hpe
  exact ⟨u, List.mem_range.mp hu, he'.1, by omega⟩

theorem outEnd_le_outBegin (g : LC_CSR_Graph EdgeTy) (hwf : WellFormed g) {u w : Nat}
    (huw : u < w) (hw : w < g.numNodes) : outEnd g u ≤ outBegin g w := by
  obtain ⟨-, -, hIl, hmono, -, -, -, -⟩ := hwf
  have : outBegin g w = outEnd g (w - 1) := by
    conv_lhs => rw [show w = (w - 1) + 1 by omega]
    exact outBegin_succ g _
  rw [this]
  exact getD_le_getD_of_pairwise hmono (by omega) (by omega)

/-- An out-edge position belongs to one source node only. -/
theorem source_unique (g : LC_CSR_Graph EdgeTy) (hwf : WellFormed g) {u w e : Nat}
    (hu : IsOutEdge g u e) (hw : IsOutEdge g w e) : u = w := by
  rcases Nat.lt_trichotomy u w with hlt | heq | hgt
  · have := outEnd_le_outBegin g hwf hlt hw.1
    have := hu.2.2
    have := hw.2.1
    omega
  · exact heq
  · have := outEnd_le_outBegin g hwf hgt hu.1
    have := hw.2.2
    have := hu.2.1
    omega

/-- Every slot of the in-edge range of `v` is the slot of an out-edge with
destination `v`. -/
theorem slot_inverse (g : LC_CSR_Graph EdgeTy) (hwf : WellFormed g) {v s : Nat}
    (hlo : inBelow g v ≤ s) (hhi : s < inUpTo g v) :
    ∃ u e, IsOutEdge g u e ∧ dstOf g e = v ∧ slotOf g e = s := by
  have hDl : g.edgeDst.length = g.numEdges := hwf.2.2.2.2.2.1
  have hsM : s < g.numEdges := by
    have := inUpTo_le_length g v
    omega
  obtain ⟨e, he, hes⟩ := (slotOf_bijOn g hDl).surjOn hsM
  have he' : e < g.numEdges := he
  obtain ⟨u, hu⟩ := exists_source g hwf he'
  refine ⟨u, e, hu, ?_, hes⟩
  by_contra hne
  have hb := slotOf_bounds g hDl he'
  have h1 := inUpTo_eq g v
  have h2 := inUpTo_eq g (dstOf g e)
  have := slot_disjoint g hne (c := s - inBelow g (dstOf g e)) (d := s - inBelow g v)
    (by omega) (by omega)
  omega

theorem in_raw_begin_eq (g : LC_CSR_Graph EdgeTy) (b : B_LC_CSR_Graph EdgeTy EdgeDataRep)
    (hidx : b.inEdgeIndData = inIndexArray g) {v : Nat} (hv : v < g.numNodes) :
    in_raw_begin b v = some (inBelow g v) := by
  unfold in_raw_begin
  by_cases h0 : v = 0
  · rw [if_pos h0, h0, inBelow_zero]
  · rw [if_neg h0, hidx, readAt_of_lt 0 (by rw [inIndexArray_length]; omega),
      inIndexArray_getD _ (by omega), ← inBelow_succ, show v - 1 + 1 = v by omega]

theorem in_raw_end_eq (g : LC_CSR_Graph EdgeTy) (b : B_LC_CSR_Graph EdgeTy EdgeDataRep)
    (hidx : b.inEdgeIndData = inIndexArray g) {v : Nat} (hv : v < g.numNodes) :
    in_raw_end b v = some (inUpTo g v) := by
  unfold in_raw_end
  rw [hidx, readAt_of_lt 0 (by rw [inIndexArray_length]; omega), inIndexArray_getD _ hv]

theorem countP_eq_of_bij {l₁ l₂ : List Nat} (h₁ : l₁.Nodup) (h₂ : l₂.Nodup) (p q : Nat → Bool)
    (σ : Nat → Nat) (hmap : ∀ a ∈ l₁, p a = true → σ a ∈ l₂ ∧ q (σ a) = true)
    (hinj : ∀ a ∈ l₁, ∀ a' ∈ l₁, σ a = σ a' → a = a')
    (hsurj : ∀ b ∈ l₂, q b = true → ∃ a ∈ l₁, p a = true ∧ σ a = b) :
    l₁.countP p = l₂.countP q := by
  rw [List.countP_eq_length_filter, List.countP_eq_length_filter,
    ← List.toFinset_card_of_nodup (h₁.filter _), ← List.toFinset_card_of_nodup (h₂.filter _)]
  apply Finset.card_bij (fun a _ => σ a)
  · intro a ha
    rw [List.mem_toFinset, List.mem_filter] at ha ⊢
    exact hmap a ha.1 ha.2
  · intro a ha a' ha' h
    rw [List.mem_toFinset, List.mem_filter] at ha ha'
    exact hinj a ha.1 a' ha'.1 h
  · intro b hb
    rw [List.mem_toFinset, List.mem_filter] at hb
    obtain ⟨a, ha, hpa, hab⟩ := hsurj b hb.1 hb.2
    exact ⟨a, by rw [List.mem_toFinset, List.mem_filter]; exact ⟨ha, hpa⟩, hab⟩

end Slots

/-! ## Consequences of the construction -/

section Generic

variable {EdgeTy EdgeDataRep : Type}

/-- On a well-formed base graph `constructIncomingEdges` returns a graph with the
`Built` facts. -/
theorem constructIncomingEdges_built [Inhabited EdgeDataRep]
    (createEdgeData : B_LC_CSR_Graph EdgeTy EdgeDataRep → Nat → Nat →
      Option (B_LC_CSR_Graph EdgeTy EdgeDataRep))
    (val : Nat → EdgeDataRep) (g : LC_CSR_Graph EdgeTy) (hwf : WellFormed g)
    (hc : CreatesWith g createEdgeData val) :
    ∃ b, constructIncomingEdges createEdgeData (B_LC_CSR_Graph.ofBase EdgeDataRep g) = some b ∧
      Built g val b := by
  obtain ⟨b, hrun, h1, h2, h3, h4, h5⟩ :=
    constructIncomingEdgesBuf_spec createEdgeData val (B_LC_CSR_Graph.ofBase EdgeDataRep g) hwf hc
  refine ⟨b, ?_, h1, h2, h3, h4, h5⟩
  unfold constructIncomingEdges
  rw [hrun]
  rfl

theorem Built.roundTrip {g : LC_CSR_Graph EdgeTy} {val : Nat → EdgeDataRep}
    {b : B_LC_CSR_Graph EdgeTy EdgeDataRep} (hwf : WellFormed g) (hb : Built g val b) :
    EdgeRoundTrip g b := by
  obtain ⟨-, hidx, -, -, hslot⟩ := hb
  have hDl : g.edgeDst.length = g.numEdges := hwf.2.2.2.2.2.1
  refine ⟨slotOf g, slotOf_bijOn g hDl, ?_⟩
  intro u e hue
  have he := hue.lt_numEdges hwf
  have hv := dstOf_lt g hDl hwf.2.2.2.2.2.2.1 he
  have hbd := slotOf_bounds g hDl he
  exact ⟨_, _, in_raw_begin_eq g b hidx hv, in_raw_end_eq g b hidx hv, hbd.1, hbd.2,
    (hslot u e hue).1⟩

theorem Built.indexIsPrefixSum {g : LC_CSR_Graph EdgeTy} {val : Nat → EdgeDataRep}
    {b : B_LC_CSR_Graph EdgeTy EdgeDataRep} (hb : Built g val b) : IndexIsPrefixSum g b := by
  obtain ⟨-, hidx, -, -, -⟩ := hb
  refine ⟨by rw [hidx, inIndexArray_length], ?_⟩
  intro n hn
  have := inUpTo_eq g n
  refine ⟨?_, _, _, in_raw_begin_eq g b hidx hn, in_raw_end_eq g b hidx hn, by omega, by omega⟩
  rw [hidx, readAt_of_lt 0 (by rw [inIndexArray_length]; exact hn), inIndexArray_getD _ hn]

theorem inUpTo_last (g : LC_CSR_Graph EdgeTy) (hwf : WellFormed g) (hN : 0 < g.numNodes) :
    inUpTo g (g.numNodes - 1) = g.numEdges := by
  obtain ⟨-, -, -, -, -, hDl, hD, -⟩ := hwf
  rw [inUpTo_of_all_lt g (g.numNodes - 1) (by
    intro d hd
    have := hD d hd
    omega), hDl]

theorem Built.indexMonotone {g : LC_CSR_Graph EdgeTy} {val : Nat → EdgeDataRep}
    {b : B_LC_CSR_Graph EdgeTy EdgeDataRep} (hwf : WellFormed g) (hb : Built g val b) :
    IndexMonotone g b := by
  obtain ⟨-, hidx, -, -, -⟩ := hb
  have hrd : ∀ n, n < g.numNodes → readAt b.inEdgeIndData n = some (inUpTo g n) := by
    intro n hn
    rw [hidx, readAt_of_lt 0 (by rw [inIndexArray_length]; exact hn), inIndexArray_getD _ hn]
  refine ⟨?_, ?_⟩
  · intro n h1 hn
    exact ⟨_, _, hrd (n - 1) (by omega), hrd n hn, inUpTo_mono g (by omega)⟩
  · intro hN
    rw [hrd _ (by omega), inUpTo_last g hwf hN]

theorem Built.rangesTile {g : LC_CSR_Graph EdgeTy} {val : Nat → EdgeDataRep}
    {b : B_LC_CSR_Graph EdgeTy EdgeDataRep} (hwf : WellFormed g) (hb : Built g val b) :
    RangesTile g b := by
  obtain ⟨-, hidx, -, -, -⟩ := hb
  refine ⟨rfl, ?_, ?_, ?_⟩
  · intro n hn
    refine ⟨inUpTo g n, in_raw_end_eq g b hidx (by omega), ?_⟩
    rw [in_raw_begin_eq g b hidx hn, inBelow_succ]
  · intro n hn
    have := inUpTo_eq g n
    exact ⟨_, _, in_raw_begin_eq g b hidx hn, in_raw_end_eq g b hidx hn, by omega⟩
  · intro hN
    rw [in_raw_end_eq g b hidx (by omega), inUpTo_last g hwf hN]

theorem Built.sumRangeLengths {g : LC_CSR_Graph EdgeTy} {val : Nat → EdgeDataRep}
    {b : B_LC_CSR_Graph EdgeTy EdgeDataRep} (hwf : WellFormed g) (hb : Built g val b) :
    sumInEdgeRangeLengths b g.numNodes = some g.numEdges := by
  obtain ⟨-, hidx, -, -, -⟩ := hb
  have key : ∀ k, k ≤ g.numNodes → sumInEdgeRangeLengths b k = some (inBelow g k) := by
    intro k
    induction k with
    | zero => intro _; rw [inBelow_zero]; rfl
    | succ k ih =>
      intro hk
      have := inUpTo_eq g k
      unfold sumInEdgeRangeLengths inEdgeRangeLength
      rw [ih (by omega), in_raw_begin_eq g b hidx (by omega), in_raw_end_eq g b hidx (by omega)]
      simp only [Option.some_bind, Option.map_some']
      rw [inBelow_succ]
      congr 1; omega
  rw [key _ (Nat.le_refl _)]
  obtain ⟨-, -, -, -, -, hDl, hD, -⟩ := hwf
  unfold inBelow
  rw [List.countP_eq_length.mpr (by
    intro d hd
    simpa using hD d hd), hDl]

theorem outEnd_eq_zero (g : LC_CSR_Graph EdgeTy) (hIl : g.edgeIndData.length = g.numNodes)
    {u : Nat} (hu : g.numNodes ≤ u) : outEnd g u = 0 := by
  unfold outEnd
  rw [List.getD_eq_default _ _ (by omega)]

theorem isOutEdge_of_mem_iterate (g : LC_CSR_Graph EdgeTy)
    (hIl : g.edgeIndData.length = g.numNodes) {u a : Nat}
    (ha : a ∈ iterate (outBegin g u) (outEnd g u)) : IsOutEdge g u a := by
  unfold iterate at ha
  rw [List.mem_range'_1] at ha
  refine ⟨?_, ha.1, by omega⟩
  by_contra hu
  have := outEnd_eq_zero g hIl (Nat.le_of_not_lt hu)
  omega

theorem Built.sourcesMatch {g : LC_CSR_Graph EdgeTy} {val : Nat → EdgeDataRep}
    {b : B_LC_CSR_Graph EdgeTy EdgeDataRep} (hwf : WellFormed g) (hb : Built g val b) :
    SourcesMatch g b := by
  obtain ⟨-, hidx, -, -, hslot⟩ := hb
  have hIl : g.edgeIndData.length = g.numNodes := hwf.2.2.1
  have hDl : g.edgeDst.length = g.numEdges := hwf.2.2.2.2.2.1
  intro v u hv
  unfold inSlotCount outEdgeCount
  rw [in_raw_begin_eq g b hidx hv, in_raw_end_eq g b hidx hv]
  simp only [Option.some_bind, Option.map_some']
  congr 1
  symm
  apply countP_eq_of_bij (List.nodup_range' _ _) (List.nodup_range' _ _) _ _ (slotOf g)
  · intro a ha hpa
    have hua := isOutEdge_of_mem_iterate g hIl ha
    have hda : dstOf g a = v := by simpa using hpa
    have hbd := slotOf_bounds g hDl (hua.lt_numEdges hwf)
    rw [hda] at hbd
    refine ⟨?_, ?_⟩
    · rw [List.mem_range'_1]
      omega
    · simpa [getInEdgeDst, readAt] using (hslot u a hua).1
  · intro a ha a' ha' h
    have hua := isOutEdge_of_mem_iterate g hIl ha
    have hua' := isOutEdge_of_mem_iterate g hIl ha'
    exact slotOf_injOn g hDl (hua.lt_numEdges hwf) (hua'.lt_numEdges hwf) h
  · intro s hs hqs
    unfold iterate at hs
    rw [List.mem_range'_1] at hs
    have hup := inUpTo_eq g v
    obtain ⟨w, a, hwa, hda, hsa⟩ := slot_inverse g hwf hs.1 (show s < inUpTo g v by omega)
    have hsw := (hslot w a hwa).1
    rw [hsa] at hsw
    have hsu : b.inEdgeDst[s]? = some u := by simpa [getInEdgeDst, readAt] using hqs
    have hwu : w = u := by
      rw [hsw] at hsu
      exact Option.some.inj hsu
    subst hwu
    refine ⟨a, ?_, by simpa using hda, hsa⟩
    rw [List.mem_range'_1]
    have := hwa.2.1
    have := hwa.2.2
    omega

theorem Built.slotCountsMatch {g : LC_CSR_Graph EdgeTy} {val : Nat → EdgeDataRep}
    {b : B_LC_CSR_Graph EdgeTy EdgeDataRep} (hwf : WellFormed g) (hb : Built g val b) :
    SlotCountsMatch g b := by
  have hDl : g.edgeDst.length = g.numEdges := hwf.2.2.2.2.2.1
  intro u e hue
  have he := hue.lt_numEdges hwf
  have hv := dstOf_lt g hDl hwf.2.2.2.2.2.2.1 he
  refine ⟨hb.sourcesMatch hwf _ u hv, ?_⟩
  unfold outEdgeCount
  apply List.countP_pos_iff.mpr
  refine ⟨e, ?_, by simp⟩
  unfold iterate
  rw [List.mem_range'_1]
  have := hue.2.1
  have := hue.2.2
  omega

end Generic

/-! ## Properties of the specification -/

section Claims

variable {EdgeTy : Type}

/-- C1: on a well-formed base graph (duplicates and self-loops allowed)
`constructIncomingEdges` returns under both edge-data strategies, and there is a
bijection of the out-edge positions onto the in-edge slots that sends the
out-edge at position `e` of source `u` to a slot of the in-edge range of its
destination whose `getInEdgeDst` is `u`; equivalently, every node `u` occurs as
often among the in-edge destinations of the in-edge range of `v` as among the
sources of the out-edges with destination `v`. -/
theorem C1_edge_round_trip [Inhabited EdgeTy] (g : LC_CSR_Graph EdgeTy) (hwf : WellFormed g) :
    (∃ b, constructIncomingEdges ByValue.createEdgeData (B_LC_CSR_Graph.ofBase EdgeTy g) = some b ∧
      EdgeRoundTrip g b ∧ SourcesMatch g b) ∧
    (∃ b, constructIncomingEdges Shared.createEdgeData (B_LC_CSR_Graph.ofBase Nat g) = some b ∧
      EdgeRoundTrip g b ∧ SourcesMatch g b) := by
  constructor
  · obtain ⟨b, hrun, hb⟩ := constructIncomingEdges_built ByValue.createEdgeData _ g hwf
      (byValue_createsWith g hwf.2.2.2.2.2.2.2)
    exact ⟨b, hrun, hb.roundTrip hwf, hb.sourcesMatch hwf⟩
  · obtain ⟨b, hrun, hb⟩ := constructIncomingEdges_built Shared.createEdgeData _ g hwf
      (shared_createsWith g)
    exact ⟨b, hrun, hb.roundTrip hwf, hb.sourcesMatch hwf⟩

theorem C1_edge_round_trip_witness :
    WellFormed dupEdgeGraph ∧
    ((∃ b, constructIncomingEdges ByValue.createEdgeData
        (B_LC_CSR_Graph.ofBase Nat dupEdgeGraph) = some b ∧ EdgeRoundTrip dupEdgeGraph b ∧
        SourcesMatch dupEdgeGraph b) ∧
     (∃ b, constructIncomingEdges Shared.createEdgeData
        (B_LC_CSR_Graph.ofBase Nat dupEdgeGraph) = some b ∧ EdgeRoundTrip dupEdgeGraph b ∧
        SourcesMatch dupEdgeGraph b)) :=
  ⟨by decide, C1_edge_round_trip dupEdgeGraph (by decide)⟩

/-- C2, as stated, fails: the graph with the two parallel out-edges `0→1` is
well-formed, position 0 holds an out-edge `0→1`, and after the construction the
in-edge range of node 1 has two slots, not one, whose `getInEdgeDst` is 0. -/
theorem C2_duplicate_edge_counterexample :
    WellFormed dupEdgeGraph ∧ IsOutEdge dupEdgeGraph 0 0 ∧ dstOf dupEdgeGraph 0 = 1 ∧
    (constructIncomingEdges ByValue.createEdgeData
      (B_LC_CSR_Graph.ofBase Nat dupEdgeGraph)).bind (fun b => inSlotCount b 1 0) = some 2 ∧
    (constructIncomingEdges Shared.createEdgeData
      (B_LC_CSR_Graph.ofBase Nat dupEdgeGraph)).bind (fun b => inSlotCount b 1 0) = some 2 := by
  decide

/-- C2, amended: on a well-formed base graph, for every out-edge `u → v` the number
of slots of the in-edge range of `v` whose `getInEdgeDst` is `u` equals the
number of out-edges of `u` with destination `v`, which is at least one (so the
count is exactly one when `u → v` is not duplicated). -/
theorem C2_slot_count_is_multiplicity [Inhabited EdgeTy] (g : LC_CSR_Graph EdgeTy)
    (hwf : WellFormed g) :
    (∃ b, constructIncomingEdges ByValue.createEdgeData (B_LC_CSR_Graph.ofBase EdgeTy g) = some b ∧
      SlotCountsMatch g b) ∧
    (∃ b, constructIncomingEdges Shared.createEdgeData (B_LC_CSR_Graph.ofBase Nat g) = some b ∧
      SlotCountsMatch g b) := by
  constructor
  · obtain ⟨b, hrun, hb⟩ := constructIncomingEdges_built ByValue.createEdgeData _ g hwf
      (byValue_createsWith g hwf.2.2.2.2.2.2.2)
    exact ⟨b, hrun, hb.slotCountsMatch hwf⟩
  · obtain ⟨b, hrun, hb⟩ := constructIncomingEdges_built Shared.createEdgeData _ g hwf
      (shared_createsWith g)
    exact ⟨b, hrun, hb.slotCountsMatch hwf⟩

theorem C2_slot_count_is_multiplicity_witness :
    WellFormed scenarioA ∧
    ((∃ b, constructIncomingEdges ByValue.createEdgeData
        (B_LC_CSR_Graph.ofBase Nat scenarioA) = some b ∧ SlotCountsMatch scenarioA b) ∧
     (∃ b, constructIncomingEdges Shared.createEdgeData
        (B_LC_CSR_Graph.ofBase Nat scenarioA) = some b ∧ SlotCountsMatch scenarioA b)) :=
  ⟨by decide, C2_slot_count_is_multiplicity scenarioA (by decide)⟩

/-- C3: on a well-formed base graph the in-edge index array built by
`constructIncomingEdges` has `numNodes` entries, entry `n` is the number of
out-edge positions with destination at most `n`, and the in-edge range of `n`
has as many slots as there are out-edges with destination `n`. -/
theorem C3_index_is_prefix_sum [Inhabited EdgeTy] (g : LC_CSR_Graph EdgeTy)
    (hwf : WellFormed g) :
    (∃ b, constructIncomingEdges ByValue.createEdgeData (B_LC_CSR_Graph.ofBase EdgeTy g) = some b ∧
      IndexIsPrefixSum g b) ∧
    (∃ b, constructIncomingEdges Shared.createEdgeData (B_LC_CSR_Graph.ofBase Nat g) = some b ∧
      IndexIsPrefixSum g b) := by
  constructor
  · obtain ⟨b, hrun, hb⟩ := constructIncomingEdges_built ByValue.createEdgeData _ g hwf
      (byValue_createsWith g hwf.2.2.2.2.2.2.2)
    exact ⟨b, hrun, hb.indexIsPrefixSum⟩
  · obtain ⟨b, hrun, hb⟩ := constructIncomingEdges_built Shared.createEdgeData _ g hwf
      (shared_createsWith g)
    exact ⟨b, hrun, hb.indexIsPrefixSum⟩

theorem C3_index_is_prefix_sum_witness :
    WellFormed scenarioA ∧
    ((∃ b, constructIncomingEdges ByValue.createEdgeData
        (B_LC_CSR_Graph.ofBase Nat scenarioA) = some b ∧ IndexIsPrefixSum scenarioA b) ∧
     (∃ b, constructIncomingEdges Shared.createEdgeData
        (B_LC_CSR_Graph.ofBase Nat scenarioA) = some b ∧ IndexIsPrefixSum scenarioA b)) :=
  ⟨by decide, C3_index_is_prefix_sum scenarioA (by decide)⟩

/-- C4: on a well-formed base graph the in-edge index array built by
`constructIncomingEdges` is monotone non-decreasing, and its last entry is
`numEdges` when the graph has a node. -/
theorem C4_index_monotone [Inhabited EdgeTy] (g : LC_CSR_Graph EdgeTy) (hwf : WellFormed g) :
    (∃ b, constructIncomingEdges ByValue.createEdgeData (B_LC_CSR_Graph.ofBase EdgeTy g) = some b ∧
      IndexMonotone g b) ∧
    (∃ b, constructIncomingEdges Shared.createEdgeData (B_LC_CSR_Graph.ofBase Nat g) = some b ∧
      IndexMonotone g b) := by
  constructor
  · obtain ⟨b, hrun, hb⟩ := constructIncomingEdges_built ByValue.createEdgeData _ g hwf
      (byValue_createsWith g hwf.2.2.2.2.2.2.2)
    exact ⟨b, hrun, hb.indexMonotone hwf⟩
  · obtain ⟨b, hrun, hb⟩ := constructIncomingEdges_built Shared.createEdgeData _ g hwf
      (shared_createsWith g)
    exact ⟨b, hrun, hb.indexMonotone hwf⟩

theorem C4_index_monotone_witness :
    WellFormed scenarioA ∧
    ((∃ b, constructIncomingEdges ByValue.createEdgeData
        (B_LC_CSR_Graph.ofBase Nat scenarioA) = some b ∧ IndexMonotone scenarioA b) ∧
     (∃ b, constructIncomingEdges Shared.createEdgeData
        (B_LC_CSR_Graph.ofBase Nat scenarioA) = some b ∧ IndexMonotone scenarioA b)) :=
  ⟨by decide, C4_index_monotone scenarioA (by decide)⟩

/-- C5: on a well-formed base graph the in-edge range lengths
`in_raw_end(n) - in_raw_begin(n)` of all nodes sum to `numEdges`. -/
theorem C5_range_lengths_sum [Inhabited EdgeTy] (g : LC_CSR_Graph EdgeTy) (hwf : WellFormed g) :
    (∃ b, constructIncomingEdges ByValue.createEdgeData (B_LC_CSR_Graph.ofBase EdgeTy g) = some b ∧
      sumInEdgeRangeLengths b g.numNodes = some g.numEdges) ∧
    (∃ b, constructIncomingEdges Shared.createEdgeData (B_LC_CSR_Graph.ofBase Nat g) = some b ∧
      sumInEdgeRangeLengths b g.numNodes = some g.numEdges) := by
  constructor
  · obtain ⟨b, hrun, hb⟩ := constructIncomingEdges_built ByValue.createEdgeData _ g hwf
      (byValue_createsWith g hwf.2.2.2.2.2.2.2)
    exact ⟨b, hrun, hb.sumRangeLengths hwf⟩
  · obtain ⟨b, hrun, hb⟩ := constructIncomingEdges_built Shared.createEdgeData _ g hwf
      (shared_createsWith g)
    exact ⟨b, hrun, hb.sumRangeLengths hwf⟩

theorem C5_range_lengths_sum_witness :
    WellFormed scenarioA ∧
    ((∃ b, constructIncomingEdges ByValue.createEdgeData
        (B_LC_CSR_Graph.ofBase Nat scenarioA) = some b ∧
        sumInEdgeRangeLengths b scenarioA.numNodes = some scenarioA.numEdges) ∧
     (∃ b, constructIncomingEdges Shared.createEdgeData
        (B_LC_CSR_Graph.ofBase Nat scenarioA) = some b ∧
        sumInEdgeRangeLengths b scenarioA.numNodes = some scenarioA.numEdges)) :=
  ⟨by decide, C5_range_lengths_sum scenarioA (by decide)⟩

/-- C6: value-copy strategy with a non-void edge type. On a well-formed base graph
there is a bijection of the out-edge positions onto the in-edge slots that sends
the out-edge at position `e` with source `u` and payload `p` to a slot of the
in-edge range of its destination with `getInEdgeDst = u` and
`getInEdgeData = p`. -/
theorem C6_value_copy_payload [Inhabited EdgeTy] (g : LC_CSR_Graph EdgeTy) (hwf : WellFormed g)
    (hnv : g.edgeTyIsVoid = false) :
    ∃ b, constructIncomingEdges ByValue.createEdgeData (B_LC_CSR_Graph.ofBase EdgeTy g) = some b ∧
      ∃ σ : Nat → Nat, Set.BijOn σ (Set.Iio g.numEdges) (Set.Iio g.numEdges) ∧
        ∀ u e, IsOutEdge g u e →
          ∃ lo hi p, in_raw_begin b (dstOf g e) = some lo ∧ in_raw_end b (dstOf g e) = some hi ∧
            lo ≤ σ e ∧ σ e < hi ∧ readAt g.edgeData e = some p ∧
            getInEdgeDst b (σ e) = some u ∧ ByValue.getInEdgeData b (σ e) = some p := by
  obtain ⟨b, hrun, hb⟩ := constructIncomingEdges_built ByValue.createEdgeData _ g hwf
    (byValue_createsWith g hwf.2.2.2.2.2.2.2)
  obtain ⟨-, hidx, -, -, hslot⟩ := hb
  have hDl : g.edgeDst.length = g.numEdges := hwf.2.2.2.2.2.1
  have hEl : g.edgeData.length = g.numEdges := by
    have := hwf.2.2.2.2.2.2.2
    rw [hnv] at this
    simpa using this
  refine ⟨b, hrun, slotOf g, slotOf_bijOn g hDl, ?_⟩
  intro u e hue
  have he := hue.lt_numEdges hwf
  have hv := dstOf_lt g hDl hwf.2.2.2.2.2.2.1 he
  have hbd := slotOf_bounds g hDl he
  exact ⟨_, _, _, in_raw_begin_eq g b hidx hv, in_raw_end_eq g b hidx hv, hbd.1, hbd.2,
    readAt_of_lt default (by omega), (hslot u e hue).1, (hslot u e hue).2 hnv⟩

theorem C6_value_copy_payload_witness :
    (WellFormed dupEdgeGraph ∧ dupEdgeGraph.edgeTyIsVoid = false) ∧
    ∃ b, constructIncomingEdges ByValue.createEdgeData
        (B_LC_CSR_Graph.ofBase Nat dupEdgeGraph) = some b ∧
      ∃ σ : Nat → Nat, Set.BijOn σ (Set.Iio dupEdgeGraph.numEdges) (Set.Iio dupEdgeGraph.numEdges) ∧
        ∀ u e, IsOutEdge dupEdgeGraph u e →
          ∃ lo hi p, in_raw_begin b (dstOf dupEdgeGraph e) = some lo ∧
            in_raw_end b (dstOf dupEdgeGraph e) = some hi ∧
            lo ≤ σ e ∧ σ e < hi ∧ readAt dupEdgeGraph.edgeData e = some p ∧
            getInEdgeDst b (σ e) = some u ∧ ByValue.getInEdgeData b (σ e) = some p :=
  ⟨⟨by decide, rfl⟩, C6_value_copy_payload dupEdgeGraph (by decide) rfl⟩

/-- C7: value-copy strategy. On a well-formed base graph, overwriting the payload of
any out-edge position after the construction leaves `getInEdgeData` of every
in-edge slot unchanged. -/
theorem C7_value_copy_frame [Inhabited EdgeTy] (g : LC_CSR_Graph EdgeTy) (hwf : WellFormed g) :
    ∃ b, constructIncomingEdges ByValue.createEdgeData (B_LC_CSR_Graph.ofBase EdgeTy g) = some b ∧
      ∀ (e : Nat) (x : EdgeTy) (s : Nat),
        ByValue.getInEdgeData (setEdgeData b e x) s = ByValue.getInEdgeData b s := by
  obtain ⟨b, hrun, -⟩ := constructIncomingEdges_built ByValue.createEdgeData _ g hwf
    (byValue_createsWith g hwf.2.2.2.2.2.2.2)
  exact ⟨b, hrun, fun _ _ _ => rfl⟩

theorem C7_value_copy_frame_witness :
    WellFormed scenarioA ∧
    ∃ b, constructIncomingEdges ByValue.createEdgeData
        (B_LC_CSR_Graph.ofBase Nat scenarioA) = some b ∧
      ∀ (e : Nat) (x : Nat) (s : Nat),
        ByValue.getInEdgeData (setEdgeData b e x) s = ByValue.getInEdgeData b s :=
  ⟨by decide, C7_value_copy_frame scenarioA (by decide)⟩

/-- C8: shared strategy with a non-void edge type. On a well-formed base graph the
stored back-references are a permutation of the out-edge positions; the
back-reference of every slot of the in-edge range of `v` is an out-edge position
of the node `getInEdgeDst` of the slot, with destination `v`; and after
`edgeData[e] = x` the slot holding the back-reference `e` returns `x` from
`getInEdgeData` while every other slot returns what it did before. -/
theorem C8_shared_back_references (g : LC_CSR_Graph EdgeTy) (hwf : WellFormed g)
    (hnv : g.edgeTyIsVoid = false) :
    ∃ b, constructIncomingEdges Shared.createEdgeData (B_LC_CSR_Graph.ofBase Nat g) = some b ∧
      List.Perm b.inEdgeData (List.range g.numEdges) ∧
      (∀ v lo hi s, v < g.numNodes → in_raw_begin b v = some lo → in_raw_end b v = some hi →
        lo ≤ s → s < hi →
        ∃ e u, readAt b.inEdgeData s = some e ∧ getInEdgeDst b s = some u ∧
          IsOutEdge g u e ∧ dstOf g e = v) ∧
      (∀ (e : Nat) (x : EdgeTy), e < g.numEdges →
        ∃ s₀, s₀ < g.numEdges ∧ readAt b.inEdgeData s₀ = some e ∧
          Shared.getInEdgeData (setEdgeData b e x) s₀ = some x ∧
          ∀ s, s < g.numEdges → s ≠ s₀ →
            Shared.getInEdgeData (setEdgeData b e x) s = Shared.getInEdgeData b s) := by
  obtain ⟨b, hrun, hb⟩ := constructIncomingEdges_built Shared.createEdgeData _ g hwf
    (shared_createsWith g)
  obtain ⟨hg, hidx, -, hdata, hslot⟩ := hb
  have hDl : g.edgeDst.length = g.numEdges := hwf.2.2.2.2.2.1
  have hEl : b.edgeData.length = g.numEdges := by
    have := hwf.2.2.2.2.2.2.2
    rw [hnv] at this
    rw [show b.edgeData = g.edgeData by rw [← hg]]
    simpa using this
  have hlen : b.inEdgeData.length = g.numEdges := by
    rw [hnv] at hdata
    simpa using hdata
  have hback : ∀ e, e < g.numEdges → b.inEdgeData[slotOf g e]? = some e := by
    intro e he
    obtain ⟨u, hu⟩ := exists_source g hwf he
    exact (hslot u e hu).2 hnv
  refine ⟨b, hrun, ?_, ?_, ?_⟩
  · have hsub : List.range g.numEdges ⊆ b.inEdgeData := by
      intro e he
      exact List.getElem?_mem (hback e (List.mem_range.mp he))
    exact ((List.subperm_of_subset (List.nodup_range _) hsub).perm_of_length_le
      (by rw [hlen, List.length_range])).symm
  · intro v lo hi s hv hlo hhi hls hsh
    rw [in_raw_begin_eq g b hidx hv] at hlo
    rw [in_raw_end_eq g b hidx hv] at hhi
    have hlo' := Option.some.inj hlo
    have hhi' := Option.some.inj hhi
    obtain ⟨u, e, hue, hde, hse⟩ := slot_inverse g hwf (v := v) (s := s) (by omega) (by omega)
    have h := hslot u e hue
    rw [hse] at h
    exact ⟨e, u, h.2 hnv, h.1, hue, hde⟩
  · intro e x he
    refine ⟨slotOf g e, slotOf_lt g hDl he, hback e he, ?_, ?_⟩
    · show (readAt b.inEdgeData (slotOf g e)).bind (fun e' => readAt (b.edgeData.set e x) e') = _
      rw [show readAt b.inEdgeData (slotOf g e) = some e from hback e he]
      simp only [Option.some_bind, readAt]
      rw [List.getElem?_set, if_pos rfl, if_pos (by omega)]
    · intro s hs hne
      obtain ⟨e', he', hes⟩ := (slotOf_bijOn g hDl).surjOn hs
      have he₂ : e' < g.numEdges := he'
      have hee : e ≠ e' := by
        intro h
        rw [h] at hne
        exact hne hes.symm
      show (readAt b.inEdgeData s).bind (fun a => readAt (b.edgeData.set e x) a) =
        (readAt b.inEdgeData s).bind (fun a => readAt b.edgeData a)
      have hs' : readAt b.inEdgeData s = some e' := by
        rw [← hes]; exact hback e' he₂
      rw [hs']
      simp only [Option.some_bind, readAt]
      rw [List.getElem?_set, if_neg hee]

theorem C8_shared_back_references_witness :
    (WellFormed dupEdgeGraph ∧ dupEdgeGraph.edgeTyIsVoid = false) ∧
    ∃ b, constructIncomingEdges Shared.createEdgeData
        (B_LC_CSR_Graph.ofBase Nat dupEdgeGraph) = some b ∧
      List.Perm b.inEdgeData (List.range dupEdgeGraph.numEdges) ∧
      (∀ v lo hi s, v < dupEdgeGraph.numNodes → in_raw_begin b v = some lo →
        in_raw_end b v = some hi → lo ≤ s → s < hi →
        ∃ e u, readAt b.inEdgeData s = some e ∧ getInEdgeDst b s = some u ∧
          IsOutEdge dupEdgeGraph u e ∧ dstOf dupEdgeGraph e = v) ∧
      (∀ (e : Nat) (x : Nat), e < dupEdgeGraph.numEdges →
        ∃ s₀, s₀ < dupEdgeGraph.numEdges ∧ readAt b.inEdgeData s₀ = some e ∧
          Shared.getInEdgeData (setEdgeData b e x) s₀ = some x ∧
          ∀ s, s < dupEdgeGraph.numEdges → s ≠ s₀ →
            Shared.getInEdgeData (setEdgeData b e x) s = Shared.getInEdgeData b s) :=
  ⟨⟨by decide, rfl⟩, C8_shared_back_references dupEdgeGraph (by decide) rfl⟩

/-- C9: on a well-formed base graph the in-edge ranges are contiguous and tile the
slots: `in_raw_begin(0) = 0`, `in_raw_end(N) = in_raw_begin(N + 1)`,
`in_raw_begin(N) ≤ in_raw_end(N)`, and `in_raw_end(numNodes - 1) = numEdges`. -/
theorem C9_ranges_tile [Inhabited EdgeTy] (g : LC_CSR_Graph EdgeTy) (hwf : WellFormed g) :
    (∃ b, constructIncomingEdges ByValue.createEdgeData (B_LC_CSR_Graph.ofBase EdgeTy g) = some b ∧
      RangesTile g b) ∧
    (∃ b, constructIncomingEdges Shared.createEdgeData (B_LC_CSR_Graph.ofBase Nat g) = some b ∧
      RangesTile g b) := by
  constructor
  · obtain ⟨b, hrun, hb⟩ := constructIncomingEdges_built ByValue.createEdgeData _ g hwf
      (byValue_createsWith g hwf.2.2.2.2.2.2.2)
    exact ⟨b, hrun, hb.rangesTile hwf⟩
  · obtain ⟨b, hrun, hb⟩ := constructIncomingEdges_built Shared.createEdgeData _ g hwf
      (shared_createsWith g)
    exact ⟨b, hrun, hb.rangesTile hwf⟩

theorem C9_ranges_tile_witness :
    WellFormed scenarioA ∧
    ((∃ b, constructIncomingEdges ByValue.createEdgeData
        (B_LC_CSR_Graph.ofBase Nat scenarioA) = some b ∧ RangesTile scenarioA b) ∧
     (∃ b, constructIncomingEdges Shared.createEdgeData
        (B_LC_CSR_Graph.ofBase Nat scenarioA) = some b ∧ RangesTile scenarioA b)) :=
  ⟨by decide, C9_ranges_tile scenarioA (by decide)⟩

/-- C10: Scenario A. For the base graph with out-edges `0→1`, `0→2`, `1→2` the
counting pass yields the in-degrees `[0, 1, 2]`, `constructIncomingEdges` yields
the in-edge index array `[0, 1, 3]` under both strategies, and in the result the
in-edge sources are `0, 1` for node 2, `0` for node 1 and none for node 0 (the
in-edge ranges have the lengths 2, 1 and 0). -/
theorem C10_scenario_A :
    do_all (iterate 0 scenarioA.numEdges) (countInEdge (B_LC_CSR_Graph.ofBase Nat scenarioA))
      [0, 0, 0] = some [0, 1, 2] ∧
    constructIncomingEdges Shared.createEdgeData (B_LC_CSR_Graph.ofBase Nat scenarioA) =
      some scenarioAShared ∧
    constructIncomingEdges ByValue.createEdgeData (B_LC_CSR_Graph.ofBase Nat scenarioA) =
      some scenarioAByValue ∧
    scenarioAShared.inEdgeIndData = [0, 1, 3] ∧ scenarioAByValue.inEdgeIndData = [0, 1, 3] ∧
    inEdgeSources scenarioAShared 2 = some [some 0, some 1] ∧
    inEdgeSources scenarioAShared 1 = some [some 0] ∧
    inEdgeSources scenarioAShared 0 = some [] ∧
    inEdgeSources scenarioAByValue 2 = some [some 0, some 1] ∧
    inEdgeSources scenarioAByValue 1 = some [some 0] ∧
    inEdgeSources scenarioAByValue 0 = some [] ∧
    inEdgeRangeLength scenarioAShared 0 = some 0 ∧ inEdgeRangeLength scenarioAShared 1 = some 1 ∧
    inEdgeRangeLength scenarioAShared 2 = some 2 := by
  decide

end Claims

/-! ## Self-loops, stability and locking accessors -/

section MoreLemmas

variable {EdgeTy EdgeDataRep : Type}

theorem countP_split_at (p : Nat → Bool) {e n : Nat} (he : e < n) (hp : p e = true) :
    (List.range n).countP p = 1 + (List.range n).countP (fun x => p x && decide (x ≠ e)) := by
  have h := range_append_range' e (n - e)
  rw [show e + (n - e) = n by omega,
    show n - e = (n - e - 1) + 1 by omega, List.range'_succ] at h
  rw [← h]
  simp only [List.countP_append, List.countP_cons, hp, if_true]
  have h1 : (List.range e).countP (fun x => p x && decide (x ≠ e)) = (List.range e).countP p := by
    apply List.countP_congr
    intro x hx
    have := List.mem_range.mp hx
    have hne : x ≠ e := by omega
    simp [hne]
  have h2 : (List.range' (e + 1) (n - e - 1)).countP (fun x => p x && decide (x ≠ e)) =
      (List.range' (e + 1) (n - e - 1)).countP p := by
    apply List.countP_congr
    intro x hx
    have := (List.mem_range'_1.mp hx).1
    have hne : x ≠ e := by omega
    simp [hne]
  rw [h1, h2]
  simp
  omega

theorem inDegree_eq_succ_without (g : LC_CSR_Graph EdgeTy) (hDl : g.edgeDst.length = g.numEdges)
    {e : Nat} (he : e < g.numEdges) :
    inDegree g (dstOf g e) = 1 + inDegreeWithout g e (dstOf g e) := by
  have h := countP_range_getD g.edgeDst (fun d => decide (d = dstOf g e))
  rw [hDl] at h
  unfold inDegree inDegreeWithout
  rw [← h]
  exact countP_split_at (fun x => decide (dstOf g x = dstOf g e)) he (by simp)

theorem Built.selfLoopsPlaced {g : LC_CSR_Graph EdgeTy} {val : Nat → EdgeDataRep}
    {b : B_LC_CSR_Graph EdgeTy EdgeDataRep} (hwf : WellFormed g) (hb : Built g val b) :
    SelfLoopsPlaced g b := by
  obtain ⟨-, hidx, -, -, hslot⟩ := hb
  have hDl : g.edgeDst.length = g.numEdges := hwf.2.2.2.2.2.1
  refine ⟨slotOf g, slotOf_bijOn g hDl, ?_⟩
  intro v e hve hd
  have he := hve.lt_numEdges hwf
  have hbd := slotOf_bounds g hDl he
  have hdeg := inDegree_eq_succ_without g hDl he
  have hup := inUpTo_eq g v
  rw [hd] at hbd hdeg
  exact ⟨_, _, in_raw_begin_eq g b hidx hve.1, in_raw_end_eq g b hidx hve.1, hbd.1, hbd.2,
    (hslot v e hve).1, by omega⟩

/-- Among the out-edges of one destination a later position gets a later slot. -/
theorem slotOf_lt_slotOf (g : LC_CSR_Graph EdgeTy) {e f : Nat} (hlt : e < f)
    (hd : dstOf g e = dstOf g f) : slotOf g e < slotOf g f := by
  unfold slotOf
  rw [hd]
  have h1 := countP_range_mono (fun x => decide (dstOf g x = dstOf g f)) (show e + 1 ≤ f by omega)
  rw [countP_range_succ] at h1
  simp only [hd, decide_True, if_true] at h1
  omega

/-- The slots `s < t` of one in-edge range hold out-edges at positions `e < f`. -/
theorem slot_order_inverse (g : LC_CSR_Graph EdgeTy) (hwf : WellFormed g) {v s t : Nat}
    (hlo : inBelow g v ≤ s) (hst : s < t) (hhi : t < inUpTo g v) :
    ∃ u e w f, IsOutEdge g u e ∧ IsOutEdge g w f ∧ dstOf g e = v ∧ dstOf g f = v ∧
      slotOf g e = s ∧ slotOf g f = t ∧ e < f ∧ u ≤ w := by
  obtain ⟨u, e, hue, hde, hse⟩ := slot_inverse g hwf hlo (show s < inUpTo g v by omega)
  obtain ⟨w, f, hwf', hdf, hsf⟩ := slot_inverse g hwf (show inBelow g v ≤ t by omega) hhi
  have hef : e < f := by
    rcases Nat.lt_trichotomy e f with h | h | h
    · exact h
    · rw [h] at hse; omega
    · have := slotOf_lt_slotOf g h (by rw [hdf, hde])
      omega
  refine ⟨u, e, w, f, hue, hwf', hde, hdf, hse, hsf, hef, ?_⟩
  by_contra hcon
  have := outEnd_le_outBegin g hwf (show w < u by omega) hue.1
  have := hue.2.1
  have := hwf'.2.2
  omega

theorem Built.sourcesSorted {g : LC_CSR_Graph EdgeTy} {val : Nat → EdgeDataRep}
    {b : B_LC_CSR_Graph EdgeTy EdgeDataRep} (hwf : WellFormed g) (hb : Built g val b) :
    SourcesSorted g b := by
  obtain ⟨-, hidx, -, -, hslot⟩ := hb
  intro v hv
  have hup := inUpTo_eq g v
  refine ⟨inBelow g v, inUpTo g v, in_raw_begin_eq g b hidx hv, in_raw_end_eq g b hidx hv,
    by omega, by omega, ?_, ?_⟩
  · intro s hls hsh
    obtain ⟨u, e, hue, hde, hse⟩ := slot_inverse g hwf hls hsh
    have h1 := (hslot u e hue).1
    rw [hse] at h1
    exact ⟨u, e, hue, hde, hse, h1⟩
  · intro s t hls hst hth
    obtain ⟨u, e, w, f, hue, hwf', hde, hdf, hse, hsf, hef, huw⟩ :=
      slot_order_inverse g hwf hls hst hth
    have h1 := (hslot u e hue).1
    have h2 := (hslot w f hwf').1
    rw [hse] at h1
    rw [hsf] at h2
    exact ⟨u, e, w, f, hue, hwf', hde, hdf, hse, hsf, hef, h1, h2, huw⟩

theorem Built.backRefsIncreasing {g : LC_CSR_Graph EdgeTy}
    {b : B_LC_CSR_Graph EdgeTy Nat} (hwf : WellFormed g) (hnv : g.edgeTyIsVoid = false)
    (hb : Built g (fun e => e) b) : BackRefsIncreasing g b := by
  obtain ⟨-, hidx, -, -, hslot⟩ := hb
  intro v hv
  have hup := inUpTo_eq g v
  refine ⟨inBelow g v, inUpTo g v, in_raw_begin_eq g b hidx hv, in_raw_end_eq g b hidx hv,
    by omega, by omega, ?_, ?_⟩
  · intro s hls hsh
    obtain ⟨u, e, hue, hde, hse⟩ := slot_inverse g hwf hls hsh
    have h1 := (hslot u e hue).2 hnv
    rw [hse] at h1
    exact ⟨e, hue.lt_numEdges hwf, hde, hse, h1⟩
  · intro s t hls hst hth
    obtain ⟨u, e, w, f, hue, hwf', hde, hdf, hse, hsf, hef, -⟩ :=
      slot_order_inverse g hwf hls hst hth
    have h1 := (hslot u e hue).2 hnv
    have h2 := (hslot w f hwf').2 hnv
    rw [hse] at h1
    rw [hsf] at h2
    exact ⟨e, f, hde, hdf, hse, hsf, h1, h2, hef⟩

end MoreLemmas

section AccessLemmas

variable {EdgeTy EdgeDataRep : Type}

theorem do_all_map_some {ι δ σ : Type} (f : ι → Option δ) (h : δ → σ → Option σ) :
    ∀ (xs : List ι) (ds : List δ) (s : σ), xs.map f = ds.map some →
      do_all xs (fun i l => (f i).bind fun d => h d l) s = do_all ds h s := by
  intro xs
  induction xs with
  | nil =>
    intro ds s hmap
    cases ds with
    | nil => rfl
    | cons d ds => simp at hmap
  | cons x xs ih =>
    intro ds s hmap
    cases ds with
    | nil => simp at hmap
    | cons d ds =>
      simp only [List.map_cons, List.cons.injEq] at hmap
      simp only [do_all, hmap.1, Option.some_bind]
      cases h d s with
      | none => rfl
      | some s₁ => exact ih ds s₁ hmap.2

theorem Built.lockingAccess {g : LC_CSR_Graph EdgeTy} {val : Nat → EdgeDataRep}
    {b : B_LC_CSR_Graph EdgeTy EdgeDataRep} (hwf : WellFormed g) (hb : Built g val b) :
    LockingAccess g b := by
  have hsm := hb.sourcesMatch hwf
  obtain ⟨-, hidx, hdl, -, -⟩ := hb
  have hDl : g.edgeDst.length = g.numEdges := hwf.2.2.2.2.2.1
  intro MethodFlag L acquireNode shouldLock N mflag locks hN
  have hlo := in_raw_begin_eq g b hidx hN
  have hhi := in_raw_end_eq g b hidx hN
  have hup := inUpTo_eq g N
  have hupM : inUpTo g N ≤ g.numEdges := hDl ▸ inUpTo_le_length g N
  have hmap : (iterate (inBelow g N) (inUpTo g N)).map (getInEdgeDst b) =
      ((iterate (inBelow g N) (inUpTo g N)).map (fun s => b.inEdgeDst.getD s 0)).map some := by
    rw [List.map_map]
    apply List.map_congr_left
    intro s hs
    unfold iterate at hs
    rw [List.mem_range'_1] at hs
    exact readAt_of_lt 0 (by omega)
  refine ⟨_, _, _, hlo, hhi, hmap, ?_, ?_, ?_⟩
  · intro u
    have h := hsm N u hN
    unfold inSlotCount at h
    rw [hlo, hhi] at h
    simp only [Option.some_bind, Option.map_some'] at h
    rw [← Option.some.inj h, List.count_eq_countP, List.countP_map]
    apply List.countP_congr
    intro s hs
    unfold iterate at hs
    rw [List.mem_range'_1] at hs
    have hrd : getInEdgeDst b s = some (b.inEdgeDst.getD s 0) := readAt_of_lt 0 (by omega)
    simp [hrd]
  · unfold in_edge_begin
    rw [hlo, hhi]
    have hle : inBelow g N ≤ inUpTo g N := by omega
    have hd := fun l₁ => do_all_map_some (readAt b.inEdgeDst) (fun d l => acquireNode d mflag l)
      _ _ l₁ hmap
    cases hacq : acquireNode N mflag locks with
    | none => rfl
    | some l₁ =>
      simp only [Option.some_bind]
      by_cases hs : shouldLock mflag = true
      · rw [if_pos hs, if_pos hs, if_pos hle, hd l₁]
        cases do_all _ (fun d l => acquireNode d mflag l) l₁ <;> rfl
      · rw [if_neg hs, if_neg hs]
        rfl
  · unfold in_edge_end
    rw [hhi]
    cases acquireNode N mflag locks <;> rfl

end AccessLemmas

/-! ## Further properties of the specification -/

section Claims2

variable {EdgeTy : Type}

/-- C11: Scenario B. On a well-formed base graph every self-loop out-edge `v → v`
is placed in a slot of its own in the in-edge range of `v` with
`getInEdgeDst = v` and counts once in the in-degree of `v`; for the graph whose
only edge is `1→1` the in-edge range of node 1 has length 1 and its slot has
destination 1. -/
theorem C11_self_loops [Inhabited EdgeTy] (g : LC_CSR_Graph EdgeTy) (hwf : WellFormed g) :
    (∃ b, constructIncomingEdges ByValue.createEdgeData (B_LC_CSR_Graph.ofBase EdgeTy g) = some b ∧
      SelfLoopsPlaced g b) ∧
    (∃ b, constructIncomingEdges Shared.createEdgeData (B_LC_CSR_Graph.ofBase Nat g) = some b ∧
      SelfLoopsPlaced g b) ∧
    (constructIncomingEdges Shared.createEdgeData (B_LC_CSR_Graph.ofBase Nat selfLoopGraph)).bind
      (fun b => inEdgeRangeLength b 1) = some 1 ∧
    (constructIncomingEdges Shared.createEdgeData (B_LC_CSR_Graph.ofBase Nat selfLoopGraph)).bind
      (fun b => inEdgeSources b 1) = some [some 1] ∧
    (constructIncomingEdges ByValue.createEdgeData (B_LC_CSR_Graph.ofBase Nat selfLoopGraph)).bind
      (fun b => inEdgeRangeLength b 1) = some 1 ∧
    (constructIncomingEdges ByValue.createEdgeData (B_LC_CSR_Graph.ofBase Nat selfLoopGraph)).bind
      (fun b => inEdgeSources b 1) = some [some 1] := by
  refine ⟨?_, ?_, by decide, by decide, by decide, by decide⟩
  · obtain ⟨b, hrun, hb⟩ := constructIncomingEdges_built ByValue.createEdgeData _ g hwf
      (byValue_createsWith g hwf.2.2.2.2.2.2.2)
    exact ⟨b, hrun, hb.selfLoopsPlaced hwf⟩
  · obtain ⟨b, hrun, hb⟩ := constructIncomingEdges_built Shared.createEdgeData _ g hwf
      (shared_createsWith g)
    exact ⟨b, hrun, hb.selfLoopsPlaced hwf⟩

theorem C11_self_loops_witness :
    WellFormed selfLoopGraph ∧
    ((∃ b, constructIncomingEdges ByValue.createEdgeData
        (B_LC_CSR_Graph.ofBase Nat selfLoopGraph) = some b ∧ SelfLoopsPlaced selfLoopGraph b) ∧
     (∃ b, constructIncomingEdges Shared.createEdgeData
        (B_LC_CSR_Graph.ofBase Nat selfLoopGraph) = some b ∧ SelfLoopsPlaced selfLoopGraph b)) :=
  ⟨by decide, (C11_self_loops selfLoopGraph (by decide)).1,
    (C11_self_loops selfLoopGraph (by decide)).2.1⟩

/-- C12: Scenario C. With `numNodes = 0` and `numEdges = 0` every loop of
`constructIncomingEdges` runs over an empty range and the guarded cursor block is
skipped, so no array is read or written (in a graph without nodes and edges
every array is empty and every access would fail); the call returns, and the
in-edge index array, the in-edge destination array and the in-edge data
representation have length 0, under both strategies. -/
theorem C12_empty_graph [Inhabited EdgeTy] (g : LC_CSR_Graph EdgeTy)
    (hN : g.numNodes = 0) (hM : g.numEdges = 0) :
    iterate 0 g.numEdges = [] ∧ iterate 0 g.numNodes = [] ∧ iterate 1 g.numNodes = [] ∧
    ¬ 1 ≤ g.numNodes ∧
    (∀ (a : List Nat) (i : Nat), a.length = 0 → readAt a i = none) ∧
    (∀ (a : List Nat) (i x : Nat), a.length = 0 → writeAt a i x = none) ∧
    constructIncomingEdges ByValue.createEdgeData (B_LC_CSR_Graph.ofBase EdgeTy g) =
      some { toLC_CSR_Graph := g, inEdgeIndData := [], inEdgeDst := [], inEdgeData := [] } ∧
    constructIncomingEdges Shared.createEdgeData (B_LC_CSR_Graph.ofBase Nat g) =
      some { toLC_CSR_Graph := g, inEdgeIndData := [], inEdgeDst := [], inEdgeData := [] } := by
  refine ⟨by simp [iterate, hM], by simp [iterate, hN], by simp [iterate, hN], by omega, ?_, ?_,
    ?_, ?_⟩
  · intro a i ha
    have : a = [] := List.eq_nil_of_length_eq_zero ha
    subst this
    rfl
  · intro a i x ha
    have : a = [] := List.eq_nil_of_length_eq_zero ha
    subst this
    rfl
  · simp [constructIncomingEdges, constructIncomingEdgesBuf, determineInEdgeIndices,
      determineInEdgeDestAndData, iterate, do_all, allocateInterleaved, B_LC_CSR_Graph.ofBase,
      hN, hM]
  · simp [constructIncomingEdges, constructIncomingEdgesBuf, determineInEdgeIndices,
      determineInEdgeDestAndData, iterate, do_all, allocateInterleaved, B_LC_CSR_Graph.ofBase,
      hN, hM]

theorem C12_empty_graph_witness :
    (emptyGraph.numNodes = 0 ∧ emptyGraph.numEdges = 0) ∧
    (iterate 0 emptyGraph.numEdges = [] ∧ iterate 0 emptyGraph.numNodes = [] ∧
    iterate 1 emptyGraph.numNodes = [] ∧ ¬ 1 ≤ emptyGraph.numNodes ∧
    (∀ (a : List Nat) (i : Nat), a.length = 0 → readAt a i = none) ∧
    (∀ (a : List Nat) (i x : Nat), a.length = 0 → writeAt a i x = none) ∧
    constructIncomingEdges ByValue.createEdgeData (B_LC_CSR_Graph.ofBase Nat emptyGraph) =
      some { toLC_CSR_Graph := emptyGraph, inEdgeIndData := [], inEdgeDst := [],
             inEdgeData := [] } ∧
    constructIncomingEdges Shared.createEdgeData (B_LC_CSR_Graph.ofBase Nat emptyGraph) =
      some { toLC_CSR_Graph := emptyGraph, inEdgeIndData := [], inEdgeDst := [],
             inEdgeData := [] }) :=
  ⟨⟨rfl, rfl⟩, C12_empty_graph emptyGraph rfl rfl⟩

/-- C14: on a constructed graph `in_edge_begin(N, m)` returns `in_raw_begin(N)` and
`in_edge_end(N, m)` returns `in_raw_end(N)`; `in_edge_begin` acquires `N` and
then, exactly when `shouldLock(m)`, the in-edge destination of every slot of the
in-edge range of `N` (the in-neighbours of `N`, each as often as it has out-edges
to `N`); `in_edge_end` acquires `N` only; both leave the graph as it is. -/
theorem C14_locking_access [Inhabited EdgeTy] (g : LC_CSR_Graph EdgeTy) (hwf : WellFormed g) :
    (∃ b, constructIncomingEdges ByValue.createEdgeData (B_LC_CSR_Graph.ofBase EdgeTy g) = some b ∧
      LockingAccess g b) ∧
    (∃ b, constructIncomingEdges Shared.createEdgeData (B_LC_CSR_Graph.ofBase Nat g) = some b ∧
      LockingAccess g b) := by
  constructor
  · obtain ⟨b, hrun, hb⟩ := constructIncomingEdges_built ByValue.createEdgeData _ g hwf
      (byValue_createsWith g hwf.2.2.2.2.2.2.2)
    exact ⟨b, hrun, hb.lockingAccess hwf⟩
  · obtain ⟨b, hrun, hb⟩ := constructIncomingEdges_built Shared.createEdgeData _ g hwf
      (shared_createsWith g)
    exact ⟨b, hrun, hb.lockingAccess hwf⟩

theorem C14_locking_access_witness :
    WellFormed scenarioA ∧
    ((∃ b, constructIncomingEdges ByValue.createEdgeData
        (B_LC_CSR_Graph.ofBase Nat scenarioA) = some b ∧ LockingAccess scenarioA b) ∧
     (∃ b, constructIncomingEdges Shared.createEdgeData
        (B_LC_CSR_Graph.ofBase Nat scenarioA) = some b ∧ LockingAccess scenarioA b)) ∧
    in_edge_begin recordAcquire (fun m => m) scenarioAShared 2 true [] =
      some (scenarioAShared, 1, [(2, true), (0, true), (1, true)]) ∧
    in_edge_begin recordAcquire (fun m => m) scenarioAShared 2 false [] =
      some (scenarioAShared, 1, [(2, false)]) ∧
    in_edge_end recordAcquire scenarioAShared 2 true [] =
      some (scenarioAShared, 3, [(2, true)]) :=
  ⟨by decide, C14_locking_access scenarioA (by decide), by decide, by decide, by decide⟩

/-- C17: with the source nodes visited in increasing order, `constructIncomingEdges`
returns a graph in which every node has an in-edge range as long as its
in-degree, every slot of the range holds the source (and, under the shared
strategy with a non-void edge type, the position) of the out-edge whose
stable-sort position is that slot, the in-edge destinations over the range are
non-decreasing in the slot and the back-references strictly increasing: the
construction is a stable counting sort of the out-edges by destination. -/
theorem C17_stable_placement [Inhabited EdgeTy] (g : LC_CSR_Graph EdgeTy) (hwf : WellFormed g) :
    (∃ b, constructIncomingEdges ByValue.createEdgeData (B_LC_CSR_Graph.ofBase EdgeTy g) = some b ∧
      SourcesSorted g b) ∧
    (∃ b, constructIncomingEdges Shared.createEdgeData (B_LC_CSR_Graph.ofBase Nat g) = some b ∧
      SourcesSorted g b ∧ (g.edgeTyIsVoid = false → BackRefsIncreasing g b)) := by
  constructor
  · obtain ⟨b, hrun, hb⟩ := constructIncomingEdges_built ByValue.createEdgeData _ g hwf
      (byValue_createsWith g hwf.2.2.2.2.2.2.2)
    exact ⟨b, hrun, hb.sourcesSorted hwf⟩
  · obtain ⟨b, hrun, hb⟩ := constructIncomingEdges_built Shared.createEdgeData _ g hwf
      (shared_createsWith g)
    exact ⟨b, hrun, hb.sourcesSorted hwf, fun hnv => hb.backRefsIncreasing hwf hnv⟩

theorem C17_stable_placement_witness :
    WellFormed scenarioA ∧
    ((∃ b, constructIncomingEdges ByValue.createEdgeData
        (B_LC_CSR_Graph.ofBase Nat scenarioA) = some b ∧ SourcesSorted scenarioA b) ∧
     (∃ b, constructIncomingEdges Shared.createEdgeData
        (B_LC_CSR_Graph.ofBase Nat scenarioA) = some b ∧ SourcesSorted scenarioA b ∧
        (scenarioA.edgeTyIsVoid = false → BackRefsIncreasing scenarioA b))) ∧
    (constructIncomingEdges Shared.createEdgeData (B_LC_CSR_Graph.ofBase Nat scenarioA)).map
      (fun b => (b.inEdgeIndData, b.inEdgeDst, b.inEdgeData)) =
      some ([0, 1, 3], [0, 0, 1], [0, 1, 2]) :=
  ⟨by decide, C17_stable_placement scenarioA (by decide), by decide⟩

/-- C18: `constructIncomingEdges` leaves the base graph as it was: on a well-formed
base graph the result has the same `numNodes`, `numEdges`, out-edge index array,
out-edge destination array and out-edge payload array as before the call, under
both strategies. -/
theorem C18_base_graph_unchanged [Inhabited EdgeTy] (g : LC_CSR_Graph EdgeTy)
    (hwf : WellFormed g) :
    (∃ b, constructIncomingEdges ByValue.createEdgeData (B_LC_CSR_Graph.ofBase EdgeTy g) = some b ∧
      b.numNodes = g.numNodes ∧ b.numEdges = g.numEdges ∧ b.edgeIndData = g.edgeIndData ∧
      b.edgeDst = g.edgeDst ∧ b.edgeData = g.edgeData) ∧
    (∃ b, constructIncomingEdges Shared.createEdgeData (B_LC_CSR_Graph.ofBase Nat g) = some b ∧
      b.numNodes = g.numNodes ∧ b.numEdges = g.numEdges ∧ b.edgeIndData = g.edgeIndData ∧
      b.edgeDst = g.edgeDst ∧ b.edgeData = g.edgeData) := by
  constructor
  · obtain ⟨b, hrun, hb⟩ := constructIncomingEdges_built ByValue.createEdgeData _ g hwf
      (byValue_createsWith g hwf.2.2.2.2.2.2.2)
    have hg := hb.1
    exact ⟨b, hrun, by rw [← hg], by rw [← hg], by rw [← hg], by rw [← hg], by rw [← hg]⟩
  · obtain ⟨b, hrun, hb⟩ := constructIncomingEdges_built Shared.createEdgeData _ g hwf
      (shared_createsWith g)
    have hg := hb.1
    exact ⟨b, hrun, by rw [← hg], by rw [← hg], by rw [← hg], by rw [← hg], by rw [← hg]⟩

theorem C18_base_graph_unchanged_witness :
    WellFormed scenarioA ∧
    ((∃ b, constructIncomingEdges ByValue.createEdgeData
        (B_LC_CSR_Graph.ofBase Nat scenarioA) = some b ∧
      b.numNodes = scenarioA.numNodes ∧ b.numEdges = scenarioA.numEdges ∧
      b.edgeIndData = scenarioA.edgeIndData ∧ b.edgeDst = scenarioA.edgeDst ∧
      b.edgeData = scenarioA.edgeData) ∧
    (∃ b, constructIncomingEdges Shared.createEdgeData
        (B_LC_CSR_Graph.ofBase Nat scenarioA) = some b ∧
      b.numNodes = scenarioA.numNodes ∧ b.numEdges = scenarioA.numEdges ∧
      b.edgeIndData = scenarioA.edgeIndData ∧ b.edgeDst = scenarioA.edgeDst ∧
      b.edgeData = scenarioA.edgeData)) :=
  ⟨by decide, C18_base_graph_unchanged scenarioA (by decide)⟩

/-- C19: the shared-strategy helper does not do what its parameter documentation
says. In the placement pass on the cycle graph the call `createEdgeData(2, 1)`
stores `inEdgeData[2] = 1`, that is `inEdgeData[e_new] = e`, and leaves
`inEdgeData[1]` alone, so `inEdgeData[e] == e_new` fails; the finished
construction has the back-references `[2, 0, 1]`, so slot `e_new = 2` refers to
the out-edge at position `e = 1`, while slot `e = 1` refers to position 0. -/
theorem C19_createEdgeData_failing_input :
    WellFormed cycleGraph ∧
    Shared.createEdgeData cycleMidPlacement 2 1 =
      some { cycleMidPlacement with inEdgeData := [0, 0, 1] } ∧
    ((Shared.createEdgeData cycleMidPlacement 2 1).bind fun b => readAt b.inEdgeData 2) = some 1 ∧
    ((Shared.createEdgeData cycleMidPlacement 2 1).bind fun b => readAt b.inEdgeData 1) = some 0 ∧
    (constructIncomingEdges Shared.createEdgeData (B_LC_CSR_Graph.ofBase Nat cycleGraph)).map
      (fun b => (b.inEdgeDst, b.inEdgeData)) = some ([2, 0, 1], [2, 0, 1]) := by
  decide

end Claims2

/-! ## The construction under arbitrary schedules -/

section SchedLemmas

variable {EdgeTy EdgeDataRep : Type}

theorem constructIncomingEdgesBuf_eq_sched [Inhabited EdgeDataRep]
    (createEdgeData : B_LC_CSR_Graph EdgeTy EdgeDataRep → Nat → Nat →
      Option (B_LC_CSR_Graph EdgeTy EdgeDataRep))
    (this : B_LC_CSR_Graph EdgeTy EdgeDataRep) :
    constructIncomingEdgesBuf createEdgeData this =
      constructIncomingEdgesBufSched (iterate 0) (iterate 0) createEdgeData this := rfl

theorem Roomy.of_sublist {g : LC_CSR_Graph EdgeTy} {P Q : List (Nat × Nat)}
    (h : P.Sublist Q) (hQ : Roomy g Q) : Roomy g P := by
  intro v
  exact Nat.le_trans (h.countP_le _) (hQ v)

/-- One trip of the placement loop keeps the general placement invariant. -/
theorem placeInEdge_stepG (g : LC_CSR_Graph EdgeTy)
    (createEdgeData : B_LC_CSR_Graph EdgeTy EdgeDataRep → Nat → Nat →
      Option (B_LC_CSR_Graph EdgeTy EdgeDataRep))
    (J : List (Nat × Nat) → List EdgeDataRep → Prop)
    (hM : g.numEdges < UINT64) (hDl : g.edgeDst.length = g.numEdges)
    (hD : ∀ d ∈ g.edgeDst, d < g.numNodes) (hc : Tracks g createEdgeData J)
    (P : List (Nat × Nat)) (u e : Nat) (st : B_LC_CSR_Graph EdgeTy EdgeDataRep × List Nat)
    (hinv : PlaceInvG g J P st) (he : e < g.numEdges)
    (hroom : Roomy g (P ++ [(u, e)])) :
    ∃ st', placeInEdge createEdgeData u e st = some st' ∧
      PlaceInvG g J (P ++ [(u, e)]) st' := by
  obtain ⟨t, buf⟩ := st
  obtain ⟨hg, hidx, hdl, hbl, hbuf, hslots, hJ⟩ := hinv
  simp only at hg hidx hdl hbl hbuf hslots hJ
  have hv₀ : dstOf g e < g.numNodes := dstOf_lt g hDl hD he
  have hcnt₀ : countTo g P (dstOf g e) + 1 ≤ inDegree g (dstOf g e) := by
    have := hroom (dstOf g e)
    rw [countTo_append, countTo_single, if_pos rfl] at this
    exact this
  have hs₀ := hbuf _ hv₀
  have hup := inUpTo_eq g (dstOf g e)
  have hupM : inUpTo g (dstOf g e) ≤ g.numEdges := hDl ▸ inUpTo_le_length g _
  have hedst : t.edgeDst = g.edgeDst := by rw [← hg]
  have hs₀M : buf.getD (dstOf g e) 0 < t.inEdgeDst.length := by omega
  have hdistinct : ∀ P₁ u₁ e₁ P₂, P = P₁ ++ (u₁, e₁) :: P₂ →
      inBelow g (dstOf g e₁) + countTo g P₁ (dstOf g e₁) ≠
        inBelow g (dstOf g e) + countTo g P (dstOf g e) := by
    intro P₁ u₁ e₁ P₂ hP
    have hcntP : countTo g P₁ (dstOf g e₁) < countTo g P (dstOf g e₁) := by
      rw [hP, countTo_append, countTo_cons, if_pos rfl]; omega
    have hcntP' : countTo g P (dstOf g e₁) ≤ inDegree g (dstOf g e₁) := by
      have := hroom (dstOf g e₁)
      rw [countTo_append] at this
      omega
    by_cases hvv : dstOf g e₁ = dstOf g e
    · rw [hvv] at hcntP ⊢; omega
    · exact slot_disjoint g hvv (by omega) (by omega)
  obtain ⟨d, hct, hJ'⟩ := hc P u e { t with inEdgeDst := t.inEdgeDst.set (buf.getD (dstOf g e) 0) u }
    hg hJ he (by omega) hdistinct
  rw [← hs₀] at hct
  refine ⟨({ t with inEdgeDst := t.inEdgeDst.set (buf.getD (dstOf g e) 0) u, inEdgeData := d },
    buf.set (dstOf g e) (buf.getD (dstOf g e) 0 + 1)), ?_, ?_⟩
  · unfold placeInEdge
    simp only
    rw [hedst, readAt_of_lt 0 (by omega : e < g.edgeDst.length)]
    simp only [Option.some_bind]
    have hfa := @sync_fetch_and_add_of_lt buf (dstOf g e) (by omega) (by omega)
    unfold dstOf at hfa hct hs₀M
    rw [hfa]
    simp only [Option.some_bind]
    rw [writeAt_of_lt _ hs₀M]
    simp only [Option.some_bind]
    rw [hct]
    rfl
  · refine ⟨hg, hidx, by simp [hdl], by simp [hbl], ?_, ?_, hJ'⟩
    · intro v hv
      show (buf.set (dstOf g e) (buf.getD (dstOf g e) 0 + 1)).getD v 0 = _
      rw [getD_set_of_lt _ _ _ _ _ (by omega), countTo_append, countTo_single]
      by_cases hvd : v = dstOf g e
      · rw [if_pos hvd, if_pos hvd.symm, hvd, hs₀]; omega
      · have hne : ¬ dstOf g e = v := fun h => hvd h.symm
        rw [if_neg hvd, if_neg hne, hbuf v hv]; omega
    · intro P₁ u' e' P₂ hsplit
      show (t.inEdgeDst.set (buf.getD (dstOf g e) 0) u)[_]? = some u'
      rw [hs₀]
      rcases List.eq_nil_or_concat P₂ with hnil | ⟨X, b, hX⟩
      · subst hnil
        obtain ⟨hP, hlast⟩ := List.append_inj' hsplit rfl
        have hue : (u, e) = (u', e') := by simpa using hlast
        obtain ⟨rfl, rfl⟩ := Prod.mk.inj hue
        subst hP
        rw [List.getElem?_set, if_pos rfl, if_pos (by omega)]
      · rw [hX, List.concat_eq_append, ← List.cons_append, ← List.append_assoc] at hsplit
        obtain ⟨hP, -⟩ := List.append_inj' hsplit rfl
        have hold := hslots P₁ u' e' X hP
        have hne := (hdistinct P₁ u' e' X hP).symm
        rw [List.getElem?_set, if_neg hne]; exact hold

theorem visitOrder_append (g : LC_CSR_Graph EdgeTy) (l₁ l₂ : List Nat) :
    visitOrder g (l₁ ++ l₂) = visitOrder g l₁ ++ visitOrder g l₂ := by
  simp [visitOrder, List.flatMap_append]

theorem visitOrder_single (g : LC_CSR_Graph EdgeTy) (u : Nat) :
    visitOrder g [u] = (iterate (outBegin g u) (outEnd g u)).map fun e => (u, e) := by
  simp [visitOrder]

theorem visitOrder_range (g : LC_CSR_Graph EdgeTy) (k : Nat) :
    visitOrder g (List.range k) = placementOrder g k := rfl

/-- The while loop of one source node extends the general placement invariant by
the out-edges of that node. -/
theorem placeInEdgesOf_stepG (g : LC_CSR_Graph EdgeTy) (hwf : WellFormed g)
    (createEdgeData : B_LC_CSR_Graph EdgeTy EdgeDataRep → Nat → Nat →
      Option (B_LC_CSR_Graph EdgeTy EdgeDataRep))
    (J : List (Nat × Nat) → List EdgeDataRep → Prop)
    (hc : Tracks g createEdgeData J) (Q : List (Nat × Nat)) (u : Nat) (hu : u < g.numNodes)
    (hroom : Roomy g (Q ++ visitOrder g [u]))
    (st : B_LC_CSR_Graph EdgeTy EdgeDataRep × List Nat)
    (hinv : PlaceInvG g J Q st) :
    ∃ st', placeInEdgesOf createEdgeData u st = some st' ∧
      PlaceInvG g J (Q ++ visitOrder g [u]) st' := by
  have hwf' := hwf
  obtain ⟨hN, hM, hIl, hmono, hlast, hDl, hD, -⟩ := hwf'
  have hble := outBegin_le_outEnd g hwf hu
  have hlM := outEnd_le_numEdges g hwf hu
  have hind : st.1.edgeIndData = g.edgeIndData := by rw [← hinv.1]
  have hfirst : (if u = 0 then some 0 else readAt g.edgeIndData (u - 1)) = some (outBegin g u) := by
    unfold outBegin
    by_cases h0 : u = 0
    · rw [if_pos h0, if_pos h0]
    · rw [if_neg h0, if_neg h0, readAt_of_lt 0 (by omega)]
  rw [visitOrder_single] at hroom ⊢
  have key := do_all_range'_inv (placeInEdge createEdgeData u)
    (fun j st' => PlaceInvG g J
      (Q ++ (List.range' (outBegin g u) (j - outBegin g u)).map fun e => (u, e)) st')
    (outEnd g u - outBegin g u) (outBegin g u) st (by simpa using hinv) (by
      intro j st' hlo hhi hj
      have hpre : (List.range' (outBegin g u) (j + 1 - outBegin g u)).map (fun e => (u, e)) =
          (List.range' (outBegin g u) (j - outBegin g u)).map (fun e => (u, e)) ++ [(u, j)] := by
        rw [show j + 1 - outBegin g u = (j - outBegin g u) + 1 by omega, List.range'_concat,
          List.map_append]
        simp only [List.map_cons, List.map_nil, Nat.one_mul]
        rw [show outBegin g u + (j - outBegin g u) = j by omega]
      have hsub : (Q ++ (List.range' (outBegin g u) (j - outBegin g u)).map (fun e => (u, e)) ++
          [(u, j)]).Sublist (Q ++ (iterate (outBegin g u) (outEnd g u)).map fun e => (u, e)) := by
        rw [List.append_assoc, ← hpre]
        apply List.Sublist.append_left
        apply List.Sublist.map
        unfold iterate
        have h := List.range'_append (outBegin g u) (j + 1 - outBegin g u) (outEnd g u - (j + 1)) 1
        rw [Nat.one_mul, show outEnd g u - (j + 1) + (j + 1 - outBegin g u) =
          outEnd g u - outBegin g u by omega] at h
        rw [← h]
        exact List.sublist_append_left _ _
      obtain ⟨st₂, hrun, hinv₂⟩ := placeInEdge_stepG g createEdgeData J hM hDl hD hc _ u j st' hj
        (by omega) (hroom.of_sublist hsub)
      refine ⟨st₂, hrun, ?_⟩
      show PlaceInvG g J (Q ++
        (List.range' (outBegin g u) (j + 1 - outBegin g u)).map fun e => (u, e)) st₂
      rw [hpre, ← List.append_assoc]
      exact hinv₂)
  obtain ⟨st', hrun, hinv'⟩ := key
  refine ⟨st', ?_, ?_⟩
  · unfold placeInEdgesOf
    rw [mod_UINT32_of_lt hu hN, hind, hfirst]
    simp only [Option.some_bind]
    rw [readAt_of_lt 0 (by omega)]
    simp only [Option.some_bind]
    exact hrun
  · rw [show outBegin g u + (outEnd g u - outBegin g u) - outBegin g u =
      outEnd g u - outBegin g u by omega] at hinv'
    exact hinv'

theorem iterate_zero_perm_range {ns : List Nat} {n : Nat} (h : ns.Perm (iterate 0 n)) :
    ns.Perm (List.range n) := by
  rw [iterate_zero] at h; exact h

/-- Every visit of all source nodes meets, for every destination, as many
out-edges as the in-degree. -/
theorem countTo_visitOrder (g : LC_CSR_Graph EdgeTy) (hwf : WellFormed g) {ns : List Nat}
    (hns : ns.Perm (List.range g.numNodes)) (v : Nat) :
    countTo g (visitOrder g ns) v = inDegree g v := by
  have hDl : g.edgeDst.length = g.numEdges := hwf.2.2.2.2.2.1
  have hperm : (visitOrder g ns).Perm (placementOrder g g.numNodes) := by
    rw [← visitOrder_range]
    exact hns.flatMap_right _
  unfold countTo
  rw [hperm.countP_eq]
  have h := countTo_eq_countP_positions g (placementOrder g g.numNodes) v
  unfold countTo at h
  rw [h, placementOrder_positions g hwf _ (Nat.le_refl _), outBegin_numNodes g hwf]
  have h2 := countP_range_getD g.edgeDst (fun d => decide (d = v))
  rw [hDl] at h2
  unfold inDegree dstOf
  exact h2

/-- The placement pass under a node schedule returns, with the general placement
invariant for the whole visit. -/
theorem determineInEdgeDestAndDataSched_inv [Inhabited EdgeDataRep] (g : LC_CSR_Graph EdgeTy)
    (hwf : WellFormed g) (nodeOrder : Nat → List Nat) (hsched : IsSchedule nodeOrder)
    (createEdgeData : B_LC_CSR_Graph EdgeTy EdgeDataRep → Nat → Nat →
      Option (B_LC_CSR_Graph EdgeTy EdgeDataRep))
    (J : List (Nat × Nat) → List EdgeDataRep → Prop) (hc : Tracks g createEdgeData J)
    (this : B_LC_CSR_Graph EdgeTy EdgeDataRep) (buf : List Nat)
    (hg : this.toLC_CSR_Graph = g) (hidx : this.inEdgeIndData = inIndexArray g)
    (hbuf : buf.length = g.numNodes)
    (hJ : J [] (if !g.edgeTyIsVoid then allocateInterleaved g.numEdges else this.inEdgeData)) :
    ∃ st, determineInEdgeDestAndDataSched nodeOrder createEdgeData this buf = some st ∧
      PlaceInvG g J (visitOrder g (nodeOrder g.numNodes)) st := by
  subst hg
  have hN : this.numNodes < UINT32 := hwf.1
  have hcur := cursor_spec this buf hN hidx hbuf
  have hns := iterate_zero_perm_range (hsched this.numNodes)
  have hroomAll : Roomy this.toLC_CSR_Graph (visitOrder this.toLC_CSR_Graph (nodeOrder this.numNodes)) :=
    fun v => Nat.le_of_eq (countTo_visitOrder _ hwf hns v)
  have key := do_all_inv (placeInEdgesOf createEdgeData)
    (fun P st => PlaceInvG this.toLC_CSR_Graph J (visitOrder this.toLC_CSR_Graph P) st)
    (nodeOrder this.numNodes) []
    (({ this with
        inEdgeDst := allocateInterleaved this.numEdges
        inEdgeData :=
          if !this.edgeTyIsVoid then allocateInterleaved this.numEdges else this.inEdgeData } :
        B_LC_CSR_Graph EdgeTy EdgeDataRep),
      inCursorArray this.toLC_CSR_Graph)
    (by
      refine ⟨rfl, hidx, by simp [allocateInterleaved], inCursorArray_length _, ?_, ?_, hJ⟩
      · intro v hv
        show (inCursorArray this.toLC_CSR_Graph).getD v 0 = _
        rw [inCursorArray_getD _ hv]
        simp [visitOrder, countTo]
      · intro P₁ u e P₂ hsplit
        simp [visitOrder] at hsplit)
    (by
      intro P u R st hsplit hinv
      simp only [List.nil_append] at hsplit
      have hu : u < this.numNodes := by
        have : u ∈ nodeOrder this.numNodes := by rw [hsplit]; simp
        exact List.mem_range.mp (hns.mem_iff.mp this)
      have hsub : (visitOrder this.toLC_CSR_Graph P ++ visitOrder this.toLC_CSR_Graph [u]).Sublist
          (visitOrder this.toLC_CSR_Graph (nodeOrder this.numNodes)) := by
        rw [hsplit, ← visitOrder_append, show P ++ u :: R = (P ++ [u]) ++ R by simp,
          visitOrder_append _ (P ++ [u]) R]
        exact List.sublist_append_left _ _
      obtain ⟨st', hrun, hinv'⟩ := placeInEdgesOf_stepG this.toLC_CSR_Graph hwf createEdgeData J hc
        (visitOrder this.toLC_CSR_Graph P) u hu (hroomAll.of_sublist hsub) st hinv
      refine ⟨st', hrun, ?_⟩
      show PlaceInvG this.toLC_CSR_Graph J (visitOrder this.toLC_CSR_Graph (P ++ [u])) st'
      rw [visitOrder_append]
      exact hinv')
  obtain ⟨st, hrun, hinv⟩ := key
  refine ⟨st, ?_, by simpa using hinv⟩
  unfold determineInEdgeDestAndDataSched
  rw [hcur]
  simp only [Option.some_bind]
  exact hrun

/-- Result of `determineInEdgeIndices` under any schedule of the counting pass: the
same in-edge index array and buffer as in order. -/
theorem determineInEdgeIndicesSched_spec (edgeOrder : Nat → List Nat)
    (hsched : IsSchedule edgeOrder) (this : B_LC_CSR_Graph EdgeTy EdgeDataRep)
    (hwf : WellFormed this.toLC_CSR_Graph) :
    determineInEdgeIndicesSched edgeOrder this (List.replicate this.numNodes 0) =
      some ({ this with inEdgeIndData := inIndexArray this.toLC_CSR_Graph },
        inIndexArray this.toLC_CSR_Graph) := by
  obtain ⟨hN, hM, -, -, -, hDl, hD, -⟩ := hwf
  have hes := iterate_zero_perm_range (hsched this.numEdges)
  obtain ⟨b₁, hrun₁, hlen₁, hval₁⟩ := counting_spec this (edgeOrder this.numEdges)
    (List.replicate this.numNodes 0)
    (by intro e he; rw [hDl]; exact List.mem_range.mp (hes.mem_iff.mp he))
    (by intro d hd; simpa using hD d hd)
    (by
      intro v hv
      rw [getD_replicate_of_lt _ _ _ _ (by simpa using hv), hes.length_eq]
      simpa using hM)
  have hlenN : b₁.length = this.numNodes := by simpa using hlen₁
  have hdeg : ∀ v, v < b₁.length → b₁.getD v 0 = inDegree this.toLC_CSR_Graph v := by
    intro v hv
    rw [hval₁ v (by rw [← hlen₁]; exact hv), getD_replicate_of_lt _ _ _ _ (by omega),
      hes.countP_eq]
    have := countP_range_getD this.edgeDst (fun d => decide (d = v))
    rw [hDl] at this
    unfold inDegree dstOf
    omega
  obtain ⟨b₂, hrun₂, hlen₂, hval₂⟩ := prefixSum_spec this.toLC_CSR_Graph b₁ (by omega) hdeg
  have hb₂ : b₂ = inIndexArray this.toLC_CSR_Graph := by
    apply list_ext_getD 0 (by rw [hlen₂, hlenN, inIndexArray_length])
    intro i hi
    rw [hval₂ i (by omega), inIndexArray_getD _ (by omega)]
  subst hb₂
  have hcopy := copyIndex_spec this (inIndexArray this.toLC_CSR_Graph)
    (allocateInterleaved this.numNodes)
    (by rw [inIndexArray_length]; exact hN)
    (by simp [allocateInterleaved, inIndexArray_length])
  unfold determineInEdgeIndicesSched
  rw [hrun₁]
  simp only [Option.some_bind]
  rw [← hlenN, hrun₂]
  simp only [Option.some_bind]
  rw [hlenN]
  rw [inIndexArray_length] at hcopy
  rw [hcopy]
  rfl

/-- On a well-formed base graph `constructIncomingEdges` returns under every pair
of schedules, with the general placement invariant for the whole visit and with
the final buffer equal to the in-edge index array. -/
theorem constructIncomingEdgesBufSched_inv [Inhabited EdgeDataRep]
    (edgeOrder nodeOrder : Nat → List Nat) (he : IsSchedule edgeOrder)
    (hn : IsSchedule nodeOrder)
    (createEdgeData : B_LC_CSR_Graph EdgeTy EdgeDataRep → Nat → Nat →
      Option (B_LC_CSR_Graph EdgeTy EdgeDataRep))
    (J : List (Nat × Nat) → List EdgeDataRep → Prop) (g : LC_CSR_Graph EdgeTy)
    (hwf : WellFormed g) (hc : Tracks g createEdgeData J)
    (hJ : J [] (if !g.edgeTyIsVoid then allocateInterleaved g.numEdges else [])) :
    ∃ b, constructIncomingEdgesBufSched edgeOrder nodeOrder createEdgeData
        (B_LC_CSR_Graph.ofBase EdgeDataRep g) = some (b, inIndexArray g) ∧
      PlaceInvG g J (visitOrder g (nodeOrder g.numNodes)) (b, inIndexArray g) := by
  have hzero := zeroInit_spec g.numNodes (allocateInterleaved g.numNodes) hwf.1
    (by simp [allocateInterleaved])
  have hind := determineInEdgeIndicesSched_spec edgeOrder he
    (B_LC_CSR_Graph.ofBase EdgeDataRep g) hwf
  obtain ⟨⟨b, buf⟩, hrun, hinv⟩ := determineInEdgeDestAndDataSched_inv g hwf nodeOrder hn
    createEdgeData J hc
    { B_LC_CSR_Graph.ofBase EdgeDataRep g with inEdgeIndData := inIndexArray g }
    (inIndexArray g) rfl rfl (inIndexArray_length _) hJ
  have hbufeq : buf = inIndexArray g := by
    obtain ⟨-, -, -, hbl, hbuf, -, -⟩ := hinv
    simp only at hbl hbuf
    apply list_ext_getD 0 (by rw [hbl, inIndexArray_length])
    intro v hv
    rw [hbuf v (by omega), inIndexArray_getD _ (by omega), inUpTo_eq,
      countTo_visitOrder g hwf (iterate_zero_perm_range (hn g.numNodes))]
  subst hbufeq
  refine ⟨b, ?_, hinv⟩
  unfold constructIncomingEdgesBufSched
  have hz : do_all (iterate 0 (B_LC_CSR_Graph.ofBase EdgeDataRep g).numNodes)
      (fun n buf => writeAt buf (n % UINT32) 0)
      (allocateInterleaved (B_LC_CSR_Graph.ofBase EdgeDataRep g).numNodes) =
      some (List.replicate g.numNodes 0) := hzero
  rw [hz]
  simp only [Option.some_bind]
  have hi : determineInEdgeIndicesSched edgeOrder (B_LC_CSR_Graph.ofBase EdgeDataRep g)
      (List.replicate g.numNodes 0) = _ := hind
  rw [hi]
  simp only [Option.some_bind]
  exact hrun

theorem filter_getElem?_split {α : Type} (p : α → Bool) :
    ∀ (l : List α) (k : Nat), k < (l.filter p).length →
      ∃ l₁ a l₂, l = l₁ ++ a :: l₂ ∧ p a = true ∧ l₁.countP p = k ∧
        (l.filter p)[k]? = some a := by
  intro l
  induction l with
  | nil => intro k hk; simp at hk
  | cons x l ih =>
    intro k hk
    by_cases hx : p x = true
    · rw [List.filter_cons_of_pos hx] at hk ⊢
      cases k with
      | zero => exact ⟨[], x, l, rfl, hx, rfl, by simp⟩
      | succ k =>
        obtain ⟨l₁, a, l₂, hl, ha, hc, hget⟩ := ih k (by simpa using hk)
        refine ⟨x :: l₁, a, l₂, by rw [hl]; rfl, ha, ?_, by simpa using hget⟩
        rw [List.countP_cons_of_pos _ _ hx, hc]
    · rw [List.filter_cons_of_neg hx] at hk ⊢
      obtain ⟨l₁, a, l₂, hl, ha, hc, hget⟩ := ih k hk
      refine ⟨x :: l₁, a, l₂, by rw [hl]; rfl, ha, ?_, hget⟩
      rw [List.countP_cons_of_neg _ _ hx, hc]

/-- After the visit `W` of all source nodes, the in-edge range of every node holds
the sources of its in-edges in the order in which the visit met them. -/
theorem inEdgeSources_of_inv (g : LC_CSR_Graph EdgeTy) (hwf : WellFormed g)
    (J : List (Nat × Nat) → List EdgeDataRep → Prop) {ns : List Nat}
    (hns : ns.Perm (List.range g.numNodes))
    (st : B_LC_CSR_Graph EdgeTy EdgeDataRep × List Nat)
    (hinv : PlaceInvG g J (visitOrder g ns) st) {v : Nat} (hv : v < g.numNodes) :
    inEdgeSources st.1 v = some (sourcesIn g (visitOrder g ns) v) := by
  obtain ⟨-, hidx, hdl, -, -, hslots, -⟩ := hinv
  have hcnt := countTo_visitOrder g hwf hns v
  have hup := inUpTo_eq g v
  unfold inEdgeSources
  rw [in_raw_begin_eq g st.1 hidx hv, in_raw_end_eq g st.1 hidx hv]
  simp only [Option.some_bind, Option.map_some']
  congr 1
  have hlen : (sourcesIn g (visitOrder g ns) v).length = inDegree g v := by
    unfold sourcesIn
    rw [List.length_map, ← List.countP_eq_length_filter]
    exact hcnt
  apply List.ext_getElem?
  intro k
  by_cases hk : k < inDegree g v
  · have hk' : k < ((visitOrder g ns).filter fun p => decide (dstOf g p.2 = v)).length := by
      rw [← List.countP_eq_length_filter]
      unfold countTo at hcnt
      omega
    obtain ⟨l₁, a, l₂, hl, ha, hc, hget⟩ := filter_getElem?_split _ _ k hk'
    obtain ⟨u, e⟩ := a
    have hde : dstOf g e = v := by simpa using ha
    have hslot := hslots l₁ u e l₂ hl
    rw [hde] at hslot
    have hc' : countTo g l₁ v = k := hc
    rw [hc'] at hslot
    unfold sourcesIn iterate
    rw [List.getElem?_map, List.getElem?_map, hget, List.getElem?_range' _ _ (by omega)]
    simp only [Option.map_some', Nat.one_mul]
    exact congrArg some hslot
  · rw [List.getElem?_eq_none (by simp [iterate]; omega),
      List.getElem?_eq_none (by rw [hlen]; omega)]

/-- The two overloads of the source keep the length of the in-edge data array. -/
theorem tracks_of_createsWith (g : LC_CSR_Graph EdgeTy)
    (createEdgeData : B_LC_CSR_Graph EdgeTy EdgeDataRep → Nat → Nat →
      Option (B_LC_CSR_Graph EdgeTy EdgeDataRep))
    (val : Nat → EdgeDataRep) (hDl : g.edgeDst.length = g.numEdges)
    (hc : CreatesWith g createEdgeData val) :
    Tracks g createEdgeData (fun _ d => g.edgeTyIsVoid = false → d.length = g.numEdges) := by
  intro P u e t hg hJ he hslot _
  have hupM : inUpTo g (dstOf g e) ≤ g.numEdges := hDl ▸ inUpTo_le_length g _
  have h := hc t (inBelow g (dstOf g e) + countTo g P (dstOf g e)) e hg he
    (fun hv => by rw [hJ hv]; omega)
  cases hvoid : g.edgeTyIsVoid
  · rw [hvoid] at h
    exact ⟨_, h, fun _ => by rw [List.length_set]; exact hJ hvoid⟩
  · rw [hvoid] at h
    exact ⟨t.inEdgeData, h, fun hv => by simp at hv⟩

theorem callsFrom_append (g : LC_CSR_Graph EdgeTy) :
    ∀ (R Q : List (Nat × Nat)) (p : Nat × Nat),
      callsFrom g Q (R ++ [p]) = callsFrom g Q R ++
        [(inBelow g (dstOf g p.2) + countTo g (Q ++ R) (dstOf g p.2), p.2)] := by
  intro R
  induction R with
  | nil => intro Q p; simp [callsFrom]
  | cons x R ih =>
    intro Q p
    have h := ih (Q ++ [x]) p
    rw [List.append_assoc, List.singleton_append] at h
    show _ :: callsFrom g (Q ++ [x]) (R ++ [p]) = _
    rw [h]
    rfl

theorem mem_callsFrom (g : LC_CSR_Graph EdgeTy) :
    ∀ (R Q : List (Nat × Nat)) (c : Nat × Nat), c ∈ callsFrom g Q R →
      ∃ R₁ u e R₂, R = R₁ ++ (u, e) :: R₂ ∧
        c = (inBelow g (dstOf g e) + countTo g (Q ++ R₁) (dstOf g e), e) := by
  intro R
  induction R with
  | nil => intro Q c hc; simp [callsFrom] at hc
  | cons x R ih =>
    intro Q c hc
    simp only [callsFrom, List.mem_cons] at hc
    rcases hc with hc | hc
    · exact ⟨[], x.1, x.2, R, rfl, by simpa using hc⟩
    · obtain ⟨R₁, u, e, R₂, hR, hce⟩ := ih (Q ++ [x]) c hc
      refine ⟨x :: R₁, u, e, R₂, by rw [hR]; rfl, ?_⟩
      rw [hce]
      simp

theorem callsFrom_length (g : LC_CSR_Graph EdgeTy) :
    ∀ (R Q : List (Nat × Nat)), (callsFrom g Q R).length = R.length := by
  intro R
  induction R with
  | nil => intro Q; rfl
  | cons x R ih => intro Q; simp [callsFrom, ih]

theorem tracks_record (g : LC_CSR_Graph EdgeTy) (d₀ : List (Nat × Nat)) :
    Tracks g (@recordEdgeData EdgeTy) (RecordInv g d₀) := by
  intro P u e t hg hJ he hslot hdistinct
  obtain ⟨hd, hnd, hall⟩ := hJ
  refine ⟨t.inEdgeData ++ [(inBelow g (dstOf g e) + countTo g P (dstOf g e), e)], rfl, ?_, ?_, ?_⟩
  · rw [callsFrom_append, hd]
    simp
  · rw [callsFrom_append, List.map_append, List.nodup_append]
    refine ⟨hnd, by simp, ?_⟩
    intro s hs hs'
    simp only [List.nil_append, List.map_cons, List.map_nil, List.mem_singleton] at hs'
    obtain ⟨c, hc, hcs⟩ := List.mem_map.mp hs
    obtain ⟨R₁, u₁, e₁, R₂, hR, hce⟩ := mem_callsFrom g P [] c hc
    apply hdistinct R₁ u₁ e₁ R₂ hR
    rw [← hs', ← hcs, hce]
    simp
  · intro c hc
    rw [callsFrom_append, List.mem_append] at hc
    rcases hc with hc | hc
    · exact hall c hc
    · simp only [List.nil_append, List.mem_singleton] at hc
      rw [hc]
      exact ⟨he, hslot⟩

end SchedLemmas

section SchedResults

variable {EdgeTy EdgeDataRep : Type}

theorem isSchedule_iterate : IsSchedule (iterate 0) := fun _ => List.Perm.refl _

theorem isSchedule_reverseOrder : IsSchedule reverseOrder := fun _ => List.reverse_perm _

/-- Under every pair of schedules both overloads of the source give a constructed
graph with the in-edge index array of the data model whose in-edge ranges hold
the sources in the order of the visit. -/
theorem constructIncomingEdgesSched_sources [Inhabited EdgeDataRep]
    (edgeOrder nodeOrder : Nat → List Nat) (he : IsSchedule edgeOrder)
    (hn : IsSchedule nodeOrder)
    (createEdgeData : B_LC_CSR_Graph EdgeTy EdgeDataRep → Nat → Nat →
      Option (B_LC_CSR_Graph EdgeTy EdgeDataRep))
    (val : Nat → EdgeDataRep) (g : LC_CSR_Graph EdgeTy) (hwf : WellFormed g)
    (hc : CreatesWith g createEdgeData val) :
    ∃ b, constructIncomingEdgesBufSched edgeOrder nodeOrder createEdgeData
        (B_LC_CSR_Graph.ofBase EdgeDataRep g) = some (b, b.inEdgeIndData) ∧
      b.inEdgeIndData = inIndexArray g ∧
      ∀ v, v < g.numNodes →
        inEdgeSources b v = some (sourcesIn g (visitOrder g (nodeOrder g.numNodes)) v) := by
  have hDl : g.edgeDst.length = g.numEdges := hwf.2.2.2.2.2.1
  obtain ⟨b, hrun, hinv⟩ := constructIncomingEdgesBufSched_inv edgeOrder nodeOrder he hn
    createEdgeData _ g hwf (tracks_of_createsWith g createEdgeData val hDl hc) (by
      intro hv
      rw [hv]
      simp [allocateInterleaved])
  have hidx : b.inEdgeIndData = inIndexArray g := hinv.2.1
  refine ⟨b, by rw [hidx]; exact hrun, hidx, ?_⟩
  intro v hv
  exact inEdgeSources_of_inv g hwf _ (iterate_zero_perm_range (hn g.numNodes)) _ hinv hv

theorem sourcesIn_perm (g : LC_CSR_Graph EdgeTy) {ns ms : List Nat} (h : ns.Perm ms) (v : Nat) :
    ((sourcesIn g (visitOrder g ns) v).map fun u => (v, u)).Perm
      ((sourcesIn g (visitOrder g ms) v).map fun u => (v, u)) := by
  unfold sourcesIn visitOrder
  exact (((h.flatMap_right _).filter _).map _).map _

theorem visitOrder_length (g : LC_CSR_Graph EdgeTy) (hwf : WellFormed g) {ns : List Nat}
    (hns : ns.Perm (List.range g.numNodes)) : (visitOrder g ns).length = g.numEdges := by
  have hperm : (visitOrder g ns).Perm (placementOrder g g.numNodes) := by
    rw [← visitOrder_range]
    exact hns.flatMap_right _
  rw [hperm.length_eq, ← List.length_map (placementOrder g g.numNodes) Prod.snd,
    placementOrder_positions g hwf _ (Nat.le_refl _), outBegin_numNodes g hwf, List.length_range]

/-- Under every pair of schedules the recording overload sees `numEdges` calls with
pairwise distinct slots, each below the end of the in-edge range of the
destination of its out-edge. -/
theorem record_spec (edgeOrder nodeOrder : Nat → List Nat) (he : IsSchedule edgeOrder)
    (hn : IsSchedule nodeOrder) (g : LC_CSR_Graph EdgeTy) (hwf : WellFormed g) :
    ∃ b calls, constructIncomingEdgesBufSched edgeOrder nodeOrder recordEdgeData
        (B_LC_CSR_Graph.ofBase (Nat × Nat) g) = some (b, b.inEdgeIndData) ∧
      b.inEdgeIndData = inIndexArray g ∧
      b.inEdgeData =
        (if !g.edgeTyIsVoid then allocateInterleaved g.numEdges else []) ++ calls ∧
      calls.length = g.numEdges ∧ (calls.map Prod.fst).Nodup ∧
      ∀ c ∈ calls, c.2 < g.numEdges ∧ c.1 < inUpTo g (dstOf g c.2) := by
  obtain ⟨b, hrun, hinv⟩ := constructIncomingEdgesBufSched_inv edgeOrder nodeOrder he hn
    recordEdgeData (RecordInv g (if !g.edgeTyIsVoid then allocateInterleaved g.numEdges else []))
    g hwf (tracks_record g _) (by
      refine ⟨by simp [callsFrom], by simp [callsFrom], ?_⟩
      intro c hc
      simp [callsFrom] at hc)
  have hidx : b.inEdgeIndData = inIndexArray g := hinv.2.1
  obtain ⟨hd, hnd, hall⟩ := hinv.2.2.2.2.2.2
  refine ⟨b, _, by rw [hidx]; exact hrun, hidx, hd, ?_, hnd, hall⟩
  rw [callsFrom_length, visitOrder_length g hwf (iterate_zero_perm_range (hn g.numNodes))]

theorem slots_perm_range {calls : List (Nat × Nat)} {m : Nat} (hlen : calls.length = m)
    (hnd : (calls.map Prod.fst).Nodup) (hlt : ∀ c ∈ calls, c.1 < m) :
    (calls.map Prod.fst).Perm (List.range m) := by
  have hsub : calls.map Prod.fst ⊆ List.range m := by
    intro s hs
    obtain ⟨c, hc, hcs⟩ := List.mem_map.mp hs
    rw [← hcs]
    exact List.mem_range.mpr (hlt c hc)
  exact (List.subperm_of_subset hnd hsub).perm_of_length_le (by simp [hlen])

end SchedResults

/-! ## Properties of the specification under schedules -/

section Claims3

variable {EdgeTy : Type}

/-- C13: schedule invariance. On a well-formed base graph, for any two orders of
the counting pass over the out-edge positions and any two orders of the
placement pass over the source nodes, the two runs of `constructIncomingEdges`
return graphs with the same in-edge index array and, for every node `v`, the same
multiset of (`v`, source) pairs over the in-edge range of `v`, under both
strategies; the in-order schedule is `constructIncomingEdges` itself. -/
theorem C13_schedule_invariance [Inhabited EdgeTy] (g : LC_CSR_Graph EdgeTy)
    (hwf : WellFormed g) (edgeOrder₁ nodeOrder₁ edgeOrder₂ nodeOrder₂ : Nat → List Nat)
    (he₁ : IsSchedule edgeOrder₁) (hn₁ : IsSchedule nodeOrder₁)
    (he₂ : IsSchedule edgeOrder₂) (hn₂ : IsSchedule nodeOrder₂) :
    (∃ b₁ b₂,
      constructIncomingEdgesSched edgeOrder₁ nodeOrder₁ ByValue.createEdgeData
        (B_LC_CSR_Graph.ofBase EdgeTy g) = some b₁ ∧
      constructIncomingEdgesSched edgeOrder₂ nodeOrder₂ ByValue.createEdgeData
        (B_LC_CSR_Graph.ofBase EdgeTy g) = some b₂ ∧ SameInEdges g b₁ b₂) ∧
    (∃ b₁ b₂,
      constructIncomingEdgesSched edgeOrder₁ nodeOrder₁ Shared.createEdgeData
        (B_LC_CSR_Graph.ofBase Nat g) = some b₁ ∧
      constructIncomingEdgesSched edgeOrder₂ nodeOrder₂ Shared.createEdgeData
        (B_LC_CSR_Graph.ofBase Nat g) = some b₂ ∧ SameInEdges g b₁ b₂) ∧
    constructIncomingEdgesSched (iterate 0) (iterate 0) ByValue.createEdgeData
        (B_LC_CSR_Graph.ofBase EdgeTy g) =
      constructIncomingEdges ByValue.createEdgeData (B_LC_CSR_Graph.ofBase EdgeTy g) ∧
    constructIncomingEdgesSched (iterate 0) (iterate 0) Shared.createEdgeData
        (B_LC_CSR_Graph.ofBase Nat g) =
      constructIncomingEdges Shared.createEdgeData (B_LC_CSR_Graph.ofBase Nat g) := by
  have hperm : (nodeOrder₁ g.numNodes).Perm (nodeOrder₂ g.numNodes) :=
    (hn₁ g.numNodes).trans (hn₂ g.numNodes).symm
  refine ⟨?_, ?_, rfl, rfl⟩
  · obtain ⟨b₁, hrun₁, hidx₁, hsrc₁⟩ := constructIncomingEdgesSched_sources edgeOrder₁ nodeOrder₁
      he₁ hn₁ ByValue.createEdgeData _ g hwf (byValue_createsWith g hwf.2.2.2.2.2.2.2)
    obtain ⟨b₂, hrun₂, hidx₂, hsrc₂⟩ := constructIncomingEdgesSched_sources edgeOrder₂ nodeOrder₂
      he₂ hn₂ ByValue.createEdgeData _ g hwf (byValue_createsWith g hwf.2.2.2.2.2.2.2)
    refine ⟨b₁, b₂, by unfold constructIncomingEdgesSched; rw [hrun₁]; rfl,
      by unfold constructIncomingEdgesSched; rw [hrun₂]; rfl, by rw [hidx₁, hidx₂], ?_⟩
    intro v hv
    exact ⟨_, _, hsrc₁ v hv, hsrc₂ v hv, sourcesIn_perm g hperm v⟩
  · obtain ⟨b₁, hrun₁, hidx₁, hsrc₁⟩ := constructIncomingEdgesSched_sources edgeOrder₁ nodeOrder₁
      he₁ hn₁ Shared.createEdgeData _ g hwf (shared_createsWith g)
    obtain ⟨b₂, hrun₂, hidx₂, hsrc₂⟩ := constructIncomingEdgesSched_sources edgeOrder₂ nodeOrder₂
      he₂ hn₂ Shared.createEdgeData _ g hwf (shared_createsWith g)
    refine ⟨b₁, b₂, by unfold constructIncomingEdgesSched; rw [hrun₁]; rfl,
      by unfold constructIncomingEdgesSched; rw [hrun₂]; rfl, by rw [hidx₁, hidx₂], ?_⟩
    intro v hv
    exact ⟨_, _, hsrc₁ v hv, hsrc₂ v hv, sourcesIn_perm g hperm v⟩

theorem C13_schedule_invariance_witness :
    (WellFormed scenarioA ∧ IsSchedule (iterate 0) ∧ IsSchedule reverseOrder) ∧
    ((∃ b₁ b₂,
      constructIncomingEdgesSched (iterate 0) (iterate 0) ByValue.createEdgeData
        (B_LC_CSR_Graph.ofBase Nat scenarioA) = some b₁ ∧
      constructIncomingEdgesSched reverseOrder reverseOrder ByValue.createEdgeData
        (B_LC_CSR_Graph.ofBase Nat scenarioA) = some b₂ ∧ SameInEdges scenarioA b₁ b₂) ∧
    (∃ b₁ b₂,
      constructIncomingEdgesSched (iterate 0) (iterate 0) Shared.createEdgeData
        (B_LC_CSR_Graph.ofBase Nat scenarioA) = some b₁ ∧
      constructIncomingEdgesSched reverseOrder reverseOrder Shared.createEdgeData
        (B_LC_CSR_Graph.ofBase Nat scenarioA) = some b₂ ∧ SameInEdges scenarioA b₁ b₂) ∧
    constructIncomingEdgesSched (iterate 0) (iterate 0) ByValue.createEdgeData
        (B_LC_CSR_Graph.ofBase Nat scenarioA) =
      constructIncomingEdges ByValue.createEdgeData (B_LC_CSR_Graph.ofBase Nat scenarioA) ∧
    constructIncomingEdgesSched (iterate 0) (iterate 0) Shared.createEdgeData
        (B_LC_CSR_Graph.ofBase Nat scenarioA) =
      constructIncomingEdges Shared.createEdgeData (B_LC_CSR_Graph.ofBase Nat scenarioA)) ∧
    (constructIncomingEdgesSched reverseOrder reverseOrder Shared.createEdgeData
        (B_LC_CSR_Graph.ofBase Nat scenarioA)).map (fun b => (b.inEdgeIndData, b.inEdgeDst)) =
      some ([0, 1, 3], [0, 1, 0]) :=
  ⟨⟨by decide, isSchedule_iterate, isSchedule_reverseOrder⟩,
    C13_schedule_invariance scenarioA (by decide) (iterate 0) (iterate 0) reverseOrder reverseOrder
      isSchedule_iterate isSchedule_iterate isSchedule_reverseOrder isSchedule_reverseOrder,
    by decide⟩

/-- C15: under the well-formedness precondition no array access of
`constructIncomingEdges` is out of bounds, whatever the schedules of the counting
and placement passes: the call returns under both strategies (the failing result
of the embedding stands for an access out of bounds), and every call
`(e_new, e)` seen by the recording overload has `e < numEdges`, a destination
`dst < numNodes` and a slot `e_new < inEdgeIndData[dst] ≤ numEdges`. -/
theorem C15_accesses_in_bounds [Inhabited EdgeTy] (g : LC_CSR_Graph EdgeTy)
    (hwf : WellFormed g) (edgeOrder nodeOrder : Nat → List Nat)
    (he : IsSchedule edgeOrder) (hn : IsSchedule nodeOrder) :
    (constructIncomingEdgesSched edgeOrder nodeOrder ByValue.createEdgeData
      (B_LC_CSR_Graph.ofBase EdgeTy g)).isSome = true ∧
    (constructIncomingEdgesSched edgeOrder nodeOrder Shared.createEdgeData
      (B_LC_CSR_Graph.ofBase Nat g)).isSome = true ∧
    (constructIncomingEdges ByValue.createEdgeData (B_LC_CSR_Graph.ofBase EdgeTy g)).isSome = true ∧
    (constructIncomingEdges Shared.createEdgeData (B_LC_CSR_Graph.ofBase Nat g)).isSome = true ∧
    ∃ b calls, constructIncomingEdgesSched edgeOrder nodeOrder recordEdgeData
        (B_LC_CSR_Graph.ofBase (Nat × Nat) g) = some b ∧
      b.inEdgeData =
        (if !g.edgeTyIsVoid then allocateInterleaved g.numEdges else []) ++ calls ∧
      calls.length = g.numEdges ∧
      ∀ c ∈ calls, c.2 < g.numEdges ∧ dstOf g c.2 < g.numNodes ∧
        ∃ x, readAt b.inEdgeIndData (dstOf g c.2) = some x ∧ c.1 < x ∧ x ≤ g.numEdges := by
  have hDl : g.edgeDst.length = g.numEdges := hwf.2.2.2.2.2.1
  refine ⟨?_, ?_, ?_, ?_, ?_⟩
  · obtain ⟨b, hrun, -⟩ := constructIncomingEdgesSched_sources edgeOrder nodeOrder he hn
      ByValue.createEdgeData _ g hwf (byValue_createsWith g hwf.2.2.2.2.2.2.2)
    unfold constructIncomingEdgesSched
    rw [hrun]; rfl
  · obtain ⟨b, hrun, -⟩ := constructIncomingEdgesSched_sources edgeOrder nodeOrder he hn
      Shared.createEdgeData _ g hwf (shared_createsWith g)
    unfold constructIncomingEdgesSched
    rw [hrun]; rfl
  · obtain ⟨b, hrun, -⟩ := constructIncomingEdges_built ByValue.createEdgeData _ g hwf
      (byValue_createsWith g hwf.2.2.2.2.2.2.2)
    rw [hrun]; rfl
  · obtain ⟨b, hrun, -⟩ := constructIncomingEdges_built Shared.createEdgeData _ g hwf
      (shared_createsWith g)
    rw [hrun]; rfl
  · obtain ⟨b, calls, hrun, hidx, hd, hlen, -, hall⟩ := record_spec edgeOrder nodeOrder he hn g hwf
    refine ⟨b, calls, by unfold constructIncomingEdgesSched; rw [hrun]; rfl, hd, hlen, ?_⟩
    intro c hc
    obtain ⟨hc2, hc1⟩ := hall c hc
    have hv := dstOf_lt g hDl hwf.2.2.2.2.2.2.1 hc2
    refine ⟨hc2, hv, inUpTo g (dstOf g c.2), ?_, hc1, hDl ▸ inUpTo_le_length g _⟩
    rw [hidx, readAt_of_lt 0 (by rw [inIndexArray_length]; exact hv), inIndexArray_getD _ hv]

theorem C15_accesses_in_bounds_witness :
    (WellFormed scenarioA ∧ IsSchedule reverseOrder ∧ IsSchedule reverseOrder) ∧
    ((constructIncomingEdgesSched reverseOrder reverseOrder ByValue.createEdgeData
      (B_LC_CSR_Graph.ofBase Nat scenarioA)).isSome = true ∧
    (constructIncomingEdgesSched reverseOrder reverseOrder Shared.createEdgeData
      (B_LC_CSR_Graph.ofBase Nat scenarioA)).isSome = true ∧
    (constructIncomingEdges ByValue.createEdgeData
      (B_LC_CSR_Graph.ofBase Nat scenarioA)).isSome = true ∧
    (constructIncomingEdges Shared.createEdgeData
      (B_LC_CSR_Graph.ofBase Nat scenarioA)).isSome = true ∧
    ∃ b calls, constructIncomingEdgesSched reverseOrder reverseOrder recordEdgeData
        (B_LC_CSR_Graph.ofBase (Nat × Nat) scenarioA) = some b ∧
      b.inEdgeData =
        (if !scenarioA.edgeTyIsVoid then allocateInterleaved scenarioA.numEdges else []) ++
          calls ∧
      calls.length = scenarioA.numEdges ∧
      ∀ c ∈ calls, c.2 < scenarioA.numEdges ∧ dstOf scenarioA c.2 < scenarioA.numNodes ∧
        ∃ x, readAt b.inEdgeIndData (dstOf scenarioA c.2) = some x ∧ c.1 < x ∧
          x ≤ scenarioA.numEdges) :=
  ⟨⟨by decide, isSchedule_reverseOrder, isSchedule_reverseOrder⟩,
    C15_accesses_in_bounds scenarioA (by decide) reverseOrder reverseOrder
      isSchedule_reverseOrder isSchedule_reverseOrder⟩

/-- C16: single writer per slot. On a well-formed base graph, whatever the
schedules, the slots `e_new` returned by the `numEdges` fetch-and-increment
operations of the placement pass (the first components of the calls seen by the
recording overload) are pairwise distinct and are exactly the slots
`0, ..., numEdges - 1`, each occurring once, so every entry of the in-edge
destination array is written exactly once; and when the pass ends the cursor
buffer equals the in-edge index array, also under both strategies of the
source. -/
theorem C16_single_writer [Inhabited EdgeTy] (g : LC_CSR_Graph EdgeTy)
    (hwf : WellFormed g) (edgeOrder nodeOrder : Nat → List Nat)
    (he : IsSchedule edgeOrder) (hn : IsSchedule nodeOrder) :
    (∃ b calls, constructIncomingEdgesBufSched edgeOrder nodeOrder recordEdgeData
        (B_LC_CSR_Graph.ofBase (Nat × Nat) g) = some (b, b.inEdgeIndData) ∧
      b.inEdgeData =
        (if !g.edgeTyIsVoid then allocateInterleaved g.numEdges else []) ++ calls ∧
      calls.length = g.numEdges ∧ (calls.map Prod.fst).Nodup ∧
      (calls.map Prod.fst).Perm (List.range g.numEdges) ∧
      ∀ s, s < g.numEdges → (calls.map Prod.fst).count s = 1) ∧
    (∃ b, constructIncomingEdgesBufSched edgeOrder nodeOrder ByValue.createEdgeData
        (B_LC_CSR_Graph.ofBase EdgeTy g) = some (b, b.inEdgeIndData)) ∧
    (∃ b, constructIncomingEdgesBufSched edgeOrder nodeOrder Shared.createEdgeData
        (B_LC_CSR_Graph.ofBase Nat g) = some (b, b.inEdgeIndData)) ∧
    constructIncomingEdgesBufSched (iterate 0) (iterate 0) recordEdgeData
        (B_LC_CSR_Graph.ofBase (Nat × Nat) g) =
      constructIncomingEdgesBuf recordEdgeData (B_LC_CSR_Graph.ofBase (Nat × Nat) g) := by
  have hDl : g.edgeDst.length = g.numEdges := hwf.2.2.2.2.2.1
  refine ⟨?_, ?_, ?_, rfl⟩
  · obtain ⟨b, calls, hrun, -, hd, hlen, hnd, hall⟩ := record_spec edgeOrder nodeOrder he hn g hwf
    have hperm := slots_perm_range hlen hnd (fun c hc => by
      have h1 := (hall c hc).2
      have h2 : inUpTo g (dstOf g c.2) ≤ g.numEdges := hDl ▸ inUpTo_le_length g _
      omega)
    refine ⟨b, calls, hrun, hd, hlen, hnd, hperm, ?_⟩
    intro s hs
    rw [hperm.count_eq]
    exact List.count_eq_one_of_mem (List.nodup_range _) (List.mem_range.mpr hs)
  · obtain ⟨b, hrun, -⟩ := constructIncomingEdgesSched_sources edgeOrder nodeOrder he hn
      ByValue.createEdgeData _ g hwf (byValue_createsWith g hwf.2.2.2.2.2.2.2)
    exact ⟨b, hrun⟩
  · obtain ⟨b, hrun, -⟩ := constructIncomingEdgesSched_sources edgeOrder nodeOrder he hn
      Shared.createEdgeData _ g hwf (shared_createsWith g)
    exact ⟨b, hrun⟩

theorem C16_single_writer_witness :
    (WellFormed cycleGraph ∧ IsSchedule (iterate 0) ∧ IsSchedule reverseOrder) ∧
    ((∃ b calls, constructIncomingEdgesBufSched (iterate 0) reverseOrder recordEdgeData
        (B_LC_CSR_Graph.ofBase (Nat × Nat) cycleGraph) = some (b, b.inEdgeIndData) ∧
      b.inEdgeData =
        (if !cycleGraph.edgeTyIsVoid then allocateInterleaved cycleGraph.numEdges else []) ++
          calls ∧
      calls.length = cycleGraph.numEdges ∧ (calls.map Prod.fst).Nodup ∧
      (calls.map Prod.fst).Perm (List.range cycleGraph.numEdges) ∧
      ∀ s, s < cycleGraph.numEdges → (calls.map Prod.fst).count s = 1) ∧
    (∃ b, constructIncomingEdgesBufSched (iterate 0) reverseOrder ByValue.createEdgeData
        (B_LC_CSR_Graph.ofBase Nat cycleGraph) = some (b, b.inEdgeIndData)) ∧
    (∃ b, constructIncomingEdgesBufSched (iterate 0) reverseOrder Shared.createEdgeData
        (B_LC_CSR_Graph.ofBase Nat cycleGraph) = some (b, b.inEdgeIndData)) ∧
    constructIncomingEdgesBufSched (iterate 0) (iterate 0) recordEdgeData
        (B_LC_CSR_Graph.ofBase (Nat × Nat) cycleGraph) =
      constructIncomingEdgesBuf recordEdgeData (B_LC_CSR_Graph.ofBase (Nat × Nat) cycleGraph)) ∧
    (constructIncomingEdgesBuf recordEdgeData
        (B_LC_CSR_Graph.ofBase (Nat × Nat) cycleGraph)).map
      (fun r => (r.1.inEdgeData.drop 3, r.2)) = some ([(1, 0), (2, 1), (0, 2)], [1, 2, 3]) :=
  ⟨⟨by decide, isSchedule_iterate, isSchedule_reverseOrder⟩,
    C16_single_writer cycleGraph (by decide) (iterate 0) reverseOrder
      isSchedule_iterate isSchedule_reverseOrder,
    by decide⟩

end Claims3

end graphs
end galois
